import Mathlib

set_option maxHeartbeats 1000000

/-!
Embedding of the row-block decode engine of the `bigquery_storage`
repository (files `google/cloud/bigquery_storage_v1beta1/_pandas_helpers.py`
and `google/cloud/bigquery_storage_v1beta1/_avro_to_arrow.py`).

Python integers are modelled as `Int`/`Nat` (the decode functions are
plain Python / numpy code whose integers are arbitrary precision); a
byte block is a `List Nat`; exceptions raised by out-of-range indexing
or bad allocation sizes are modelled with `Except`.
-/

/-- Errors the embedded code can raise.  `truncatedInput` is a Python
`IndexError` raised by reading the input block past its end (the spec
calls this condition `TruncatedInput`); `internalIndexError` is an
`IndexError` raised by reading one of the decoder's own arrays out of
range; `writeOutOfBounds` is an `IndexError` raised by a numpy array
element assignment; `valueError` is the `ValueError` numpy raises for
a negative allocation size. -/
inductive DecodeErr where
  | truncatedInput
  | internalIndexError
  | writeOutOfBounds
  | valueError
deriving DecidableEq, Repr

/-- Python sequence indexing `seq[i]`: a negative index counts from the
end; an index out of range on both sides is `none` (an `IndexError` in
Python). -/
def pyGet {α : Type} (arr : List α) (i : Int) : Option α :=
  if 0 ≤ i then arr[i.toNat]?
  else if 0 ≤ i + arr.length then arr[(i + arr.length).toNat]?
  else none

/-- Read one byte of the input block; out of range raises the
`IndexError` the spec calls `TruncatedInput`. -/
def readBlockByte (block : List Nat) (position : Int) : Except DecodeErr Nat :=
  match pyGet block position with
  | some b => .ok b
  | none => .error .truncatedInput

/-- Read an element of one of the decoder's own arrays. -/
def readArrEx {α : Type} (arr : List α) (i : Int) : Except DecodeErr α :=
  match pyGet arr i with
  | some v => .ok v
  | none => .error .internalIndexError

/-- Python/numpy element assignment `arr[i] = v`: a negative index
counts from the end; out of range on both sides raises. -/
def writeArrEx {α : Type} (arr : List α) (i : Int) (v : α) : Except DecodeErr (List α) :=
  if 0 ≤ i then
    if i.toNat < arr.length then .ok (arr.set i.toNat v) else .error .writeOutOfBounds
  else if 0 ≤ i + arr.length then .ok (arr.set (i + arr.length).toNat v)
  else .error .writeOutOfBounds

/-- The final value computation of `_read_long`:
`(n >> 1) ^ -(n & 1)` with Python arbitrary-precision semantics
(`n` is the unsigned accumulator, the result a signed integer). -/
def zigzagFinal (n : Nat) : Int :=
  Int.xor ((n >>> 1 : Nat) : Int) (-((n &&& 1 : Nat) : Int))

/-- The `while (b & 0x80) != 0` loop of `_read_long`.  The Python loop
terminates because each iteration moves `position` one byte forward and
reading past the end of `block` raises `IndexError`; `fuel` bounds the
number of iterations.  The caller passes `2 * block.length + 2`, which
strictly exceeds the number of byte reads any run can perform (every
read that succeeds is at a position below `block.length`, and positions
grow by one starting from at least `-block.length`), so the
fuel-exhaustion branch is unreachable from `_read_long`. -/
def readLongLoop (block : List Nat) : Nat → Int → Nat → Nat → Nat → Except DecodeErr (Int × Int)
  | 0, position, b, n, _ =>
    if b &&& 0x80 = 0 then .ok (position + 1, zigzagFinal n)
    else .error .truncatedInput
  | fuel' + 1, position, b, n, shift =>
    if b &&& 0x80 = 0 then .ok (position + 1, zigzagFinal n)
    else do
      let b2 ← readBlockByte block (position + 1)
      readLongLoop block fuel' (position + 1) b2 (n ||| ((b2 &&& 0x7F) <<< shift)) (shift + 7)

/-- `_read_long` (`_avro_to_arrow.py` lines 284-301, textually identical
in `_pandas_helpers.py` lines 51-69): variable-length zig-zag decoding.
Returns `(new position, long integer)`. -/
def _read_long (position : Int) (block : List Nat) : Except DecodeErr (Int × Int) := do
  let b ← readBlockByte block position
  readLongLoop block (2 * block.length + 2) position b (b &&& 0x7F) 7

/-- `_read_double` (`_avro_to_arrow.py` lines 262-280): reads 8 bytes
and assembles the little-endian 64-bit pattern.  The source's final
`.view(numpy.float64)` is a bit-level reinterpretation; the embedding
keeps the 64-bit pattern itself. -/
def _read_double (position : Int) (block : List Nat) : Except DecodeErr (Int × Nat) := do
  let b0 ← readBlockByte block position
  let b1 ← readBlockByte block (position + 1)
  let b2 ← readBlockByte block (position + 2)
  let b3 ← readBlockByte block (position + 3)
  let b4 ← readBlockByte block (position + 4)
  let b5 ← readBlockByte block (position + 5)
  let b6 ← readBlockByte block (position + 6)
  let b7 ← readBlockByte block (position + 7)
  .ok (position + 8,
    b0 ||| (b1 <<< 8) ||| (b2 <<< 16) ||| (b3 <<< 24) ||| (b4 <<< 32)
       ||| (b5 <<< 40) ||| (b6 <<< 48) ||| (b7 <<< 56))

/-- `_read_boolean` (`_avro_to_arrow.py` lines 238-249): reads one byte
and returns the mask `0xff` when it is nonzero, else `0`. -/
def _read_boolean (position : Int) (block : List Nat) : Except DecodeErr (Int × Nat) := do
  let b ← readBlockByte block position
  .ok (position + 1, if b ≠ 0 then 0xff else 0)

/-- `_read_bytes` (`_avro_to_arrow.py` lines 253-258): reads a zig-zag
length, then that many raw bytes.  `numpy.empty(strlen)` raises
`ValueError` for a negative `strlen`.  The decode loops inline this
logic instead of calling it. -/
def _read_bytes (position : Int) (block : List Nat) : Except DecodeErr (Int × List Nat) := do
  let (position, strlen) ← _read_long position block
  if strlen < 0 then .error .valueError
  else
    let value ← (List.range strlen.toNat).mapM (fun i => readBlockByte block (position + i))
    .ok (position + strlen, value)

/-- `_make_bitarray` (`_avro_to_arrow.py` lines 305-309; called
`_make_nullmask` in `_pandas_helpers.py` lines 73-77):
`ceil(row_count/8)` zero bytes. -/
def _make_bitarray (rowCount : Nat) : List Nat :=
  List.replicate (rowCount / 8 + if rowCount % 8 ≠ 0 then 1 else 0) 0

/-- `_rotate_nullbit` (`_avro_to_arrow.py` lines 313-322; called
`_rotate_nullmask` in `_pandas_helpers.py` lines 81-91). -/
def _rotate_nullbit (nullbit : Nat) : Nat :=
  let nullbit := (nullbit <<< 1) &&& 255
  if nullbit = 0 then 1 else nullbit

/-- The `while input_pos < input_end` loop of `_copy_bytes`, with its
iteration count (`input_end - input_pos` when positive, else zero) as
fuel. -/
def copyBytesLoop (inputBytes : List Nat) : Nat → List Nat → Int → Int → Except DecodeErr (List Nat)
  | 0, outputBytes, _, _ => .ok outputBytes
  | fuel + 1, outputBytes, inputPos, outputPos => do
    let b ← readBlockByte inputBytes inputPos
    let outputBytes ← writeArrEx outputBytes outputPos b
    copyBytesLoop inputBytes fuel outputBytes (inputPos + 1) (outputPos + 1)

/-- `_copy_bytes` (`_avro_to_arrow.py` lines 226-234).  The source also
computes a dead local `output_end = input_start + strlen` that is never
read. -/
def _copy_bytes (inputBytes : List Nat) (inputStart : Int) (outputBytes : List Nat)
    (outputStart : Int) (strlen : Int) : Except DecodeErr (List Nat) :=
  copyBytesLoop inputBytes strlen.toNat outputBytes inputStart outputStart

/-- One long/int64 field of a row: the `year`/`number` blocks of
`_pandas_helpers._avro_df` (lines 198-201 and 233-236) and the
`int_col` block of `_avro_to_arrow._avro_df` (lines 365-368).  Reads
the union tag; when nonzero, ORs the rotating marker into the
validity bitmap at `nullbyte` and reads the value into `data[i]`. -/
def intFieldStep (block : List Nat) (i nullmask nullbyte : Nat) (position : Int)
    (nullmaskArr : List Nat) (data : List Int) :
    Except DecodeErr (Int × List Nat × List Int) := do
  let (position, unionType) ← _read_long position block
  if unionType ≠ 0 then
    let cur ← readArrEx nullmaskArr (nullbyte : Int)
    let nullmaskArr ← writeArrEx nullmaskArr (nullbyte : Int) (cur ||| nullmask)
    let (position, v) ← _read_long position block
    let data ← writeArrEx data (i : Int) v
    .ok (position, nullmaskArr, data)
  else
    .ok (position, nullmaskArr, data)

/-- One string/bytes field of a row: the `state`/`gender`/`name` blocks
of `_pandas_helpers._avro_df` (lines 147-160, 176-188, 210-222).  Reads
the union tag; tag `0` copies the previous offset forward, otherwise
the byte-run length is read, the source range `(position, position +
strlen)` is recorded at `input_offsets[2*i]`/`[2*i+1]`, the cursor is
moved by `strlen` without reading the run, and
`offsets[i+1] = offsets[i] + strlen`.  The source never sets the
column's validity bitmap in these blocks, so this step takes no bitmap
arguments. -/
def bytesFieldStep (block : List Nat) (i : Nat) (position : Int)
    (offsets inputOffsets : List Int) :
    Except DecodeErr (Int × List Int × List Int) := do
  let (position, unionType) ← _read_long position block
  if unionType = 0 then
    let prev ← readArrEx offsets (i : Int)
    let offsets ← writeArrEx offsets ((i : Int) + 1) prev
    .ok (position, offsets, inputOffsets)
  else
    let (position, strlen) ← _read_long position block
    let inputOffsets ← writeArrEx inputOffsets (2 * (i : Int)) position
    let position := position + strlen
    let inputOffsets ← writeArrEx inputOffsets (2 * (i : Int) + 1) position
    let prev ← readArrEx offsets (i : Int)
    let offsets ← writeArrEx offsets ((i : Int) + 1) (prev + strlen)
    .ok (position, offsets, inputOffsets)

/-- One double field of a row: the `float_col` block of
`_avro_to_arrow._avro_df` (lines 377-380). -/
def floatFieldStep (block : List Nat) (i nullmask nullbyte : Nat) (position : Int)
    (nullmaskArr : List Nat) (data : List Nat) :
    Except DecodeErr (Int × List Nat × List Nat) := do
  let (position, unionType) ← _read_long position block
  if unionType ≠ 0 then
    let cur ← readArrEx nullmaskArr (nullbyte : Int)
    let nullmaskArr ← writeArrEx nullmaskArr (nullbyte : Int) (cur ||| nullmask)
    let (position, v) ← _read_double position block
    let data ← writeArrEx data (i : Int) v
    .ok (position, nullmaskArr, data)
  else
    .ok (position, nullmaskArr, data)

/-- One boolean field of a row: the `bool_col` block of
`_avro_to_arrow._avro_df` (lines 389-393).  The decoded `0xff`/`0x00`
mask is ANDed with the rotating marker and ORed into the bit-packed
boolean data buffer at `nullbyte`. -/
def boolFieldStep (block : List Nat) (i nullmask nullbyte : Nat) (position : Int)
    (nullmaskArr data : List Nat) :
    Except DecodeErr (Int × List Nat × List Nat) := do
  let (position, unionType) ← _read_long position block
  if unionType ≠ 0 then
    let cur ← readArrEx nullmaskArr (nullbyte : Int)
    let nullmaskArr ← writeArrEx nullmaskArr (nullbyte : Int) (cur ||| nullmask)
    let (position, boolmask) ← _read_boolean position block
    let curData ← readArrEx data (nullbyte : Int)
    let data ← writeArrEx data (nullbyte : Int) (curData ||| (boolmask &&& nullmask))
    .ok (position, nullmaskArr, data)
  else
    .ok (position, nullmaskArr, data)

/-- The contents of an uninitialized `numpy.empty(n)` int64 allocation:
`g id` supplies the arbitrary garbage of the allocation labelled `id`. -/
def emptyIntArr (g : Nat → Nat → Int) (id n : Nat) : List Int :=
  (List.range n).map (g id)

/-- Loop state of `_pandas_helpers._avro_df` (the locals of its row
loop): cursor, rotating marker, five validity bitmaps, recorded source
ranges and cumulative offsets for the three string columns, and the
two int64 data arrays. -/
structure NamesState where
  position : Int
  nullmask : Nat
  state_nullmask : List Nat
  gender_nullmask : List Nat
  year_nullmask : List Nat
  name_nullmask : List Nat
  number_nullmask : List Nat
  state_input_offsets : List Int
  gender_input_offsets : List Int
  name_input_offsets : List Int
  state_offsets : List Int
  gender_offsets : List Int
  name_offsets : List Int
  year : List Int
  number : List Int
deriving DecidableEq, Repr

/-- The allocations of `_pandas_helpers._avro_df` (lines 111-132)
before its row loop, including the `offsets[0] = 0` writes. -/
def namesInit (g : Nat → Nat → Int) (rowCount : Nat) : Except DecodeErr NamesState := do
  let state_offsets ← writeArrEx (emptyIntArr g 3 (rowCount + 1)) 0 0
  let gender_offsets ← writeArrEx (emptyIntArr g 4 (rowCount + 1)) 0 0
  let name_offsets ← writeArrEx (emptyIntArr g 5 (rowCount + 1)) 0 0
  .ok { position := 0
        nullmask := 0
        state_nullmask := _make_bitarray rowCount
        gender_nullmask := _make_bitarray rowCount
        year_nullmask := _make_bitarray rowCount
        name_nullmask := _make_bitarray rowCount
        number_nullmask := _make_bitarray rowCount
        state_input_offsets := emptyIntArr g 0 (rowCount * 2)
        gender_input_offsets := emptyIntArr g 1 (rowCount * 2)
        name_input_offsets := emptyIntArr g 2 (rowCount * 2)
        state_offsets, gender_offsets, name_offsets
        year := emptyIntArr g 6 rowCount
        number := emptyIntArr g 7 rowCount }

/-- One iteration of the row loop of `_pandas_helpers._avro_df`
(lines 134-236): rotate the marker, then decode the five fields
`state`, `gender`, `year`, `name`, `number` in schema order. -/
def namesRow (block : List Nat) (i : Nat) (s : NamesState) : Except DecodeErr NamesState := do
  let nullmask := _rotate_nullbit s.nullmask
  let nullbyte := i / 8
  let (position, state_offsets, state_input_offsets) ←
    bytesFieldStep block i s.position s.state_offsets s.state_input_offsets
  let (position, gender_offsets, gender_input_offsets) ←
    bytesFieldStep block i position s.gender_offsets s.gender_input_offsets
  let (position, year_nullmask, year) ←
    intFieldStep block i nullmask nullbyte position s.year_nullmask s.year
  let (position, name_offsets, name_input_offsets) ←
    bytesFieldStep block i position s.name_offsets s.name_input_offsets
  let (position, number_nullmask, number) ←
    intFieldStep block i nullmask nullbyte position s.number_nullmask s.number
  .ok { s with position, nullmask, state_offsets, state_input_offsets,
               gender_offsets, gender_input_offsets, year_nullmask, year,
               name_offsets, name_input_offsets, number_nullmask, number }

/-- The `for i in range(row_count)` loop of `_pandas_helpers._avro_df`:
first argument is the number of remaining iterations, second the
current row index. -/
def namesLoop (block : List Nat) : Nat → Nat → NamesState → Except DecodeErr NamesState
  | 0, _, s => .ok s
  | m + 1, i, s => do
    let s' ← namesRow block i s
    namesLoop block m (i + 1) s'

/-- Per-column return value of `_pandas_helpers._avro_df` (lines
239-245): `(nullmask, offsets, None)` for the three string columns —
the third component is the literal `None` of the source — and
`(nullmask, data)` for `year` and `number`. -/
structure NamesOut where
  state_nullmask : List Nat
  state_offsets : List Int
  state_data : Option (List Nat)
  gender_nullmask : List Nat
  gender_offsets : List Int
  gender_data : Option (List Nat)
  year_nullmask : List Nat
  year : List Int
  name_nullmask : List Nat
  name_offsets : List Int
  name_data : Option (List Nat)
  number_nullmask : List Nat
  number : List Int
deriving DecidableEq, Repr

namespace PandasHelpers

/-- `_avro_df` of `_pandas_helpers.py` (lines 95-245): the five-column
(`state`, `gender`, `year`, `name`, `number`) row-block decode.
`g` supplies the contents of the uninitialized `numpy.empty`
allocations. -/
def _avro_df (g : Nat → Nat → Int) (row_count : Nat) (block : List Nat) :
    Except DecodeErr NamesOut := do
  let s0 ← namesInit g row_count
  let s ← namesLoop block row_count 0 s0
  .ok { state_nullmask := s.state_nullmask
        state_offsets := s.state_offsets
        state_data := none
        gender_nullmask := s.gender_nullmask
        gender_offsets := s.gender_offsets
        gender_data := none
        year_nullmask := s.year_nullmask
        year := s.year
        name_nullmask := s.name_nullmask
        name_offsets := s.name_offsets
        name_data := none
        number_nullmask := s.number_nullmask
        number := s.number }

end PandasHelpers

/-- Loop state of `_avro_to_arrow._avro_df` (lines 343-352). -/
structure ScalarsState where
  position : Int
  nullmask : Nat
  int_nullmask : List Nat
  float_nullmask : List Nat
  bool_nullmask : List Nat
  int_col : List Int
  float_col : List Nat
  bool_col : List Nat
deriving DecidableEq, Repr

/-- The allocations of `_avro_to_arrow._avro_df` before its row loop:
garbage `numpy.empty` data arrays for `int_col` and `float_col` (the
float garbage `gf` is the arbitrary 64-bit pattern of each slot), and
an all-zero bit array for `bool_col`. -/
def scalarsInit (gi : Nat → Int) (gf : Nat → Nat) (rowCount : Nat) : ScalarsState :=
  { position := 0
    nullmask := 0
    int_nullmask := _make_bitarray rowCount
    float_nullmask := _make_bitarray rowCount
    bool_nullmask := _make_bitarray rowCount
    int_col := (List.range rowCount).map gi
    float_col := (List.range rowCount).map gf
    bool_col := _make_bitarray rowCount }

/-- One iteration of the row loop of `_avro_to_arrow._avro_df`
(lines 354-393): rotate the marker, then decode `int_col`,
`float_col`, `bool_col` in schema order. -/
def scalarsRow (block : List Nat) (i : Nat) (s : ScalarsState) :
    Except DecodeErr ScalarsState := do
  let nullmask := _rotate_nullbit s.nullmask
  let nullbyte := i / 8
  let (position, int_nullmask, int_col) ←
    intFieldStep block i nullmask nullbyte s.position s.int_nullmask s.int_col
  let (position, float_nullmask, float_col) ←
    floatFieldStep block i nullmask nullbyte position s.float_nullmask s.float_col
  let (position, bool_nullmask, bool_col) ←
    boolFieldStep block i nullmask nullbyte position s.bool_nullmask s.bool_col
  .ok { s with position, nullmask, int_nullmask, int_col,
               float_nullmask, float_col, bool_nullmask, bool_col }

/-- The `for i in range(row_count)` loop of `_avro_to_arrow._avro_df`. -/
def scalarsLoop (block : List Nat) : Nat → Nat → ScalarsState → Except DecodeErr ScalarsState
  | 0, _, s => .ok s
  | m + 1, i, s => do
    let s' ← scalarsRow block i s
    scalarsLoop block m (i + 1) s'

/-- Return value of `_avro_to_arrow._avro_df` (lines 395-399). -/
structure ScalarsOut where
  int_nullmask : List Nat
  int_col : List Int
  float_nullmask : List Nat
  float_col : List Nat
  bool_nullmask : List Nat
  bool_col : List Nat
deriving DecidableEq, Repr

namespace AvroToArrow

/-- `_avro_df` of `_avro_to_arrow.py` (lines 327-399): the three-column
(`int_col`, `float_col`, `bool_col`) row-block decode. -/
def _avro_df (gi : Nat → Int) (gf : Nat → Nat) (row_count : Nat) (block : List Nat) :
    Except DecodeErr ScalarsOut := do
  let s ← scalarsLoop block row_count 0 (scalarsInit gi gf row_count)
  .ok { int_nullmask := s.int_nullmask
        int_col := s.int_col
        float_nullmask := s.float_nullmask
        float_col := s.float_col
        bool_nullmask := s.bool_nullmask
        bool_col := s.bool_col }

end AvroToArrow

/-- Loop state for the two-column `[Int64 nullable, Bytes nullable]`
plan: the source contains only fixed-schema decode loops (the
five-column `_pandas_helpers._avro_df`, the three-column
`_avro_to_arrow._avro_df`, and a code generator that emits one union
tag + field block per schema field), so the decoder for this plan is
assembled from the source's per-column blocks: `intFieldStep` for the
Int64 column and `bytesFieldStep` for the Bytes column. -/
structure IntBytesState where
  position : Int
  nullmask : Nat
  int_nullmask : List Nat
  bytes_nullmask : List Nat
  int_col : List Int
  bytes_offsets : List Int
  bytes_input_offsets : List Int
deriving DecidableEq, Repr

/-- Allocations for the two-column plan, following
`_pandas_helpers._avro_df`: bit arrays zeroed, data/offsets arrays
uninitialized garbage, `offsets[0] = 0`. -/
def intBytesInit (g : Nat → Nat → Int) (rowCount : Nat) : Except DecodeErr IntBytesState := do
  let bytes_offsets ← writeArrEx (emptyIntArr g 1 (rowCount + 1)) 0 0
  .ok { position := 0
        nullmask := 0
        int_nullmask := _make_bitarray rowCount
        bytes_nullmask := _make_bitarray rowCount
        int_col := emptyIntArr g 0 rowCount
        bytes_offsets
        bytes_input_offsets := emptyIntArr g 2 (rowCount * 2) }

/-- One row of the two-column plan, in plan order Int64 then Bytes. -/
def intBytesRow (block : List Nat) (i : Nat) (s : IntBytesState) :
    Except DecodeErr IntBytesState := do
  let nullmask := _rotate_nullbit s.nullmask
  let nullbyte := i / 8
  let (position, int_nullmask, int_col) ←
    intFieldStep block i nullmask nullbyte s.position s.int_nullmask s.int_col
  let (position, bytes_offsets, bytes_input_offsets) ←
    bytesFieldStep block i position s.bytes_offsets s.bytes_input_offsets
  .ok { s with position, nullmask, int_nullmask, int_col,
               bytes_offsets, bytes_input_offsets }

/-- Row loop for the two-column plan. -/
def intBytesLoop (block : List Nat) : Nat → Nat → IntBytesState → Except DecodeErr IntBytesState
  | 0, _, s => .ok s
  | m + 1, i, s => do
    let s' ← intBytesRow block i s
    intBytesLoop block m (i + 1) s'

/-- Output of the two-column decode; as in `_pandas_helpers._avro_df`
the Bytes column is returned as `(nullmask, offsets, None)` — no data
buffer is materialized. -/
structure IntBytesOut where
  int_nullmask : List Nat
  int_col : List Int
  bytes_nullmask : List Nat
  bytes_offsets : List Int
  bytes_data : Option (List Nat)
deriving DecidableEq, Repr

/-- The row-block decode for the plan `[Int64 nullable, Bytes
nullable]`, assembled from the source's per-column code as described at
`IntBytesState`. -/
def avroDFIntBytes (g : Nat → Nat → Int) (row_count : Nat) (block : List Nat) :
    Except DecodeErr IntBytesOut := do
  let s0 ← intBytesInit g row_count
  let s ← intBytesLoop block row_count 0 s0
  .ok { int_nullmask := s.int_nullmask
        int_col := s.int_col
        bytes_nullmask := s.bytes_nullmask
        bytes_offsets := s.bytes_offsets
        bytes_data := none }

/-!
### Wire-format encoders (spec section 6)

Reference definitions for the wire format the decoder consumes: each
row encodes one field per column in plan order, each field a zigzag
varint union tag (`0` = null, `1` = present) followed by the value's
encoding.  These are the spec side of the round-trip theorems.
-/

/-- Zigzag mapping of a signed integer to the unsigned value stored on
the wire. -/
def zigzagEncode (v : Int) : Nat := (if 0 ≤ v then 2 * v else -(2 * v) - 1).toNat

/-- Base-128 little-endian varint bytes of `n`: 7 payload bits per
byte, continuation high bit set on every byte but the last. -/
def varintEncode (n : Nat) : List Nat :=
  if n < 0x80 then [n]
  else (0x80 ||| (n % 0x80)) :: varintEncode (n / 0x80)
termination_by n
decreasing_by exact Nat.div_lt_self (by omega) (by norm_num)

/-- Wire encoding of a signed integer: zigzag, then varint. -/
def encodeLong (v : Int) : List Nat := varintEncode (zigzagEncode v)

/-- Accumulated value of a varint byte list: 7 low bits per byte,
little-endian — the value `_read_long`'s loop accumulates. -/
def varintVal : List Nat → Nat
  | [] => 0
  | b :: bs => (b &&& 0x7F) ||| (varintVal bs <<< 7)

/-- `VarintBytes b bs`: `b` is the current byte of a well-formed varint
whose remaining bytes are `bs` (the high bit of every byte except the
last is set, and only of those). -/
inductive VarintBytes : Nat → List Nat → Prop
  | last (b : Nat) (h : b &&& 0x80 = 0) : VarintBytes b []
  | cons (b b2 : Nat) (bs : List Nat) (h : b &&& 0x80 ≠ 0) (h2 : VarintBytes b2 bs) :
      VarintBytes b (b2 :: bs)

/-- `SegAt block p seg`: the bytes of `block` at positions
`p, p+1, ...` are exactly `seg`. -/
def SegAt (block : List Nat) (p : Int) (seg : List Nat) : Prop :=
  ∀ j : Nat, j < seg.length → pyGet block (p + j) = seg[j]?

/-- Encoding of one nullable Int64 field. -/
def encIntField : Option Int → List Nat
  | none => encodeLong 0
  | some v => encodeLong 1 ++ encodeLong v

/-- Encoding of one nullable Bytes field: tag, zigzag varint length,
raw bytes. -/
def encBytesField : Option (List Nat) → List Nat
  | none => encodeLong 0
  | some bs => encodeLong 1 ++ encodeLong bs.length ++ bs

/-- Encoding of one nullable Float64 field: tag then 8 raw bytes
(the little-endian IEEE-754 pattern). -/
def encFloatField : Option (List Nat) → List Nat
  | none => encodeLong 0
  | some bs => encodeLong 1 ++ bs

/-- Encoding of one nullable Bool field: tag then 1 raw byte. -/
def encBoolField : Option Nat → List Nat
  | none => encodeLong 0
  | some b => encodeLong 1 ++ [b]

/-- One row of the five-column `usa_names` schema, as optional values. -/
structure NamesRowVals where
  state : Option (List Nat)
  gender : Option (List Nat)
  year : Option Int
  name : Option (List Nat)
  number : Option Int
deriving DecidableEq, Repr

/-- Wire encoding of one five-column row. -/
def encNamesRow (r : NamesRowVals) : List Nat :=
  encBytesField r.state ++ encBytesField r.gender ++ encIntField r.year ++
    encBytesField r.name ++ encIntField r.number

/-- Wire encoding of a five-column row block. -/
def encodeNames (rows : List NamesRowVals) : List Nat :=
  (rows.map encNamesRow).flatten

/-- One row of the three-column scalar schema.  A present float is its
8 raw little-endian bytes; a present bool is its raw byte. -/
structure ScalarsRowVals where
  int_val : Option Int
  float_val : Option (List Nat)
  bool_val : Option Nat
deriving DecidableEq, Repr

/-- Wire encoding of one three-column scalar row. -/
def encScalarsRow (r : ScalarsRowVals) : List Nat :=
  encIntField r.int_val ++ encFloatField r.float_val ++ encBoolField r.bool_val

/-- Wire encoding of a three-column scalar row block. -/
def encodeScalars (rows : List ScalarsRowVals) : List Nat :=
  (rows.map encScalarsRow).flatten

/-!
### Spec-side helpers for stating the claims
-/

/-- Presence flag of an optional per-row field. -/
def optFlag {α β : Type} (f : α → Option β) (rows : List α) (i : Nat) : Bool :=
  ((rows[i]?).bind f).isSome

/-- Bit `i` of an LSB-first bit-packed byte array: bit `i % 8` of byte
`i / 8`. -/
def bitGet (arr : List Nat) (i : Nat) : Bool :=
  (arr.getD (i / 8) 0).testBit (i % 8)

/-- `ceil(rowCount / 8)`, the byte length of a validity bitmap. -/
def bitmapLen (rowCount : Nat) : Nat :=
  rowCount / 8 + if rowCount % 8 ≠ 0 then 1 else 0

/-- Byte-run length a row contributes to a bytes column (`0` when
null). -/
def optLen (f : NamesRowVals → Option (List Nat)) (rows : List NamesRowVals) (i : Nat) : Int :=
  match (rows[i]?).bind f with
  | none => 0
  | some bs => bs.length

/-- Cumulative byte-run length of the first `i` rows of a bytes
column — the expected `offsets[i]`. -/
def cumLen (f : NamesRowVals → Option (List Nat)) (rows : List NamesRowVals) (i : Nat) : Int :=
  ((List.range i).map (optLen f rows)).sum

/-- Position of row `i` in the encoded five-column block. -/
def namesRowStart (rows : List NamesRowVals) (i : Nat) : Nat :=
  (encodeNames (rows.take i)).length

/-- Position of row `i` in the encoded three-column scalar block. -/
def scalarsRowStart (rows : List ScalarsRowVals) (i : Nat) : Nat :=
  (encodeScalars (rows.take i)).length

/-- Default row value, for reading a row's fields by index. -/
def rowAtN (rows : List NamesRowVals) (i : Nat) : NamesRowVals :=
  (rows[i]?).getD ⟨none, none, none, none, none⟩

/-- The rotating marker's value after `k` rotations from `0`:
`2 ^ ((k-1) mod 8)` for `k ≥ 1`. -/
def maskAfter (k : Nat) : Nat := if k = 0 then 0 else 2 ^ ((k - 1) % 8)

/-- Position where row `i`'s raw `state` bytes begin in the encoded
block (just past the union tag and the length varint) — the value the
decoder records in `state_input_offsets[2*i]` for a present row. -/
def stateDataStart (rows : List NamesRowVals) (i : Nat) : Nat :=
  namesRowStart rows i + 1 + (encodeLong (optLen NamesRowVals.state rows i)).length

/-- Position where row `i`'s raw `gender` bytes begin. -/
def genderDataStart (rows : List NamesRowVals) (i : Nat) : Nat :=
  namesRowStart rows i + (encBytesField (rowAtN rows i).state).length + 1 +
    (encodeLong (optLen NamesRowVals.gender rows i)).length

/-- Position where row `i`'s raw `name` bytes begin. -/
def nameDataStart (rows : List NamesRowVals) (i : Nat) : Nat :=
  namesRowStart rows i + (encBytesField (rowAtN rows i).state).length +
    (encBytesField (rowAtN rows i).gender).length + (encIntField (rowAtN rows i).year).length +
    1 + (encodeLong (optLen NamesRowVals.name rows i)).length

/-- Bit-level specification of an LSB-first bit-packed byte array after
`k` of `rc` rows are processed: length `ceil(rc/8)`, every byte below
256, bit `t` of byte `j` set exactly when row `8*j + t` has already
been processed (`< k`) and its flag is set. -/
def BitmapAt (flags : Nat → Bool) (rc k : Nat) (arr : List Nat) : Prop :=
  arr.length = bitmapLen rc ∧
    ∀ j b, arr[j]? = some b → b < 256 ∧
      ∀ t, t < 8 → b.testBit t = ((8 * j + t < k) && flags (8 * j + t))

/-- Whether row `i`'s bool byte is present and nonzero. -/
def boolTrueFlag (rows : List ScalarsRowVals) (i : Nat) : Bool :=
  match (rows[i]?).bind ScalarsRowVals.bool_val with
  | some b => decide (b ≠ 0)
  | none => false

/-- Loop invariant of `_pandas_helpers._avro_df` on the encoded block
`encodeNames rows`: the decoder state after `k` rows. -/
structure NamesInv (rows : List NamesRowVals) (k : Nat) (s : NamesState) : Prop where
  pos : s.position = (namesRowStart rows k : Int)
  mask : s.nullmask = maskAfter k
  sNm : s.state_nullmask = _make_bitarray rows.length
  gNm : s.gender_nullmask = _make_bitarray rows.length
  nNm : s.name_nullmask = _make_bitarray rows.length
  yNm : BitmapAt (optFlag NamesRowVals.year rows) rows.length k s.year_nullmask
  nuNm : BitmapAt (optFlag NamesRowVals.number rows) rows.length k s.number_nullmask
  yearLen : s.year.length = rows.length
  yearVals : ∀ i v, i < k → (rows[i]?).bind NamesRowVals.year = some v → s.year[i]? = some v
  numberLen : s.number.length = rows.length
  numberVals : ∀ i v, i < k → (rows[i]?).bind NamesRowVals.number = some v →
    s.number[i]? = some v
  sOffLen : s.state_offsets.length = rows.length + 1
  sOffVals : ∀ i, i ≤ k → s.state_offsets[i]? = some (cumLen NamesRowVals.state rows i)
  gOffLen : s.gender_offsets.length = rows.length + 1
  gOffVals : ∀ i, i ≤ k → s.gender_offsets[i]? = some (cumLen NamesRowVals.gender rows i)
  nOffLen : s.name_offsets.length = rows.length + 1
  nOffVals : ∀ i, i ≤ k → s.name_offsets[i]? = some (cumLen NamesRowVals.name rows i)
  sInLen : s.state_input_offsets.length = rows.length * 2
  sInVals : ∀ i bs, i < k → (rows[i]?).bind NamesRowVals.state = some bs →
    s.state_input_offsets[2 * i]? = some (stateDataStart rows i : Int) ∧
    s.state_input_offsets[2 * i + 1]? = some ((stateDataStart rows i : Int) + bs.length)
  gInLen : s.gender_input_offsets.length = rows.length * 2
  gInVals : ∀ i bs, i < k → (rows[i]?).bind NamesRowVals.gender = some bs →
    s.gender_input_offsets[2 * i]? = some (genderDataStart rows i : Int) ∧
    s.gender_input_offsets[2 * i + 1]? = some ((genderDataStart rows i : Int) + bs.length)
  nInLen : s.name_input_offsets.length = rows.length * 2
  nInVals : ∀ i bs, i < k → (rows[i]?).bind NamesRowVals.name = some bs →
    s.name_input_offsets[2 * i]? = some (nameDataStart rows i : Int) ∧
    s.name_input_offsets[2 * i + 1]? = some ((nameDataStart rows i : Int) + bs.length)

/-- Loop invariant of `_avro_to_arrow._avro_df` on the encoded block
`encodeScalars rows`: the decoder state after `k` rows.  (No claim
constrains the decoded float values, so `float_col` is only tracked
for length.) -/
structure ScalarsInv (rows : List ScalarsRowVals) (k : Nat) (s : ScalarsState) : Prop where
  pos : s.position = (scalarsRowStart rows k : Int)
  mask : s.nullmask = maskAfter k
  iNm : BitmapAt (optFlag ScalarsRowVals.int_val rows) rows.length k s.int_nullmask
  fNm : BitmapAt (optFlag ScalarsRowVals.float_val rows) rows.length k s.float_nullmask
  bNm : BitmapAt (optFlag ScalarsRowVals.bool_val rows) rows.length k s.bool_nullmask
  intLen : s.int_col.length = rows.length
  intVals : ∀ i v, i < k → (rows[i]?).bind ScalarsRowVals.int_val = some v →
    s.int_col[i]? = some v
  floatLen : s.float_col.length = rows.length
  boolData : BitmapAt (boolTrueFlag rows) rows.length k s.bool_col

/-- Modelled from the spec: the per-row byte-copy driver of the
Variable-Length Materializer (spec section 4.4), which the source never
implemented — its `_copy_bytes` kernel has no caller.  Allocates the
destination buffer of size `offsets[row_count]` and, for each row,
copies `offsets[i+1] - offsets[i]` bytes from the recorded source
start `input_offsets[2*i]` into `data[offsets[i]..offsets[i+1])` with
the source's `_copy_bytes`. -/
def materializeBytesColumn (block : List Nat) (rowCount : Nat)
    (inputOffsets offsets : List Int) : Except DecodeErr (List Nat) := do
  let total ← readArrEx offsets (rowCount : Int)
  (List.range rowCount).foldlM
    (fun data (i : Nat) => do
      let start ← readArrEx inputOffsets (2 * (i : Int))
      let o1 ← readArrEx offsets (i : Int)
      let o2 ← readArrEx offsets ((i : Int) + 1)
      _copy_bytes block start data o1 (o2 - o1))
    (List.replicate total.toNat 0)

/-- The offsets contract of one Bytes column (claim C5, amended):
first entry 0, per-row increments equal to the decoded byte-run
lengths (0 for null rows), monotone entries, final entry the total —
and the decode returns no data buffer (`data = none`). -/
def OffsetsSpec (f : NamesRowVals → Option (List Nat)) (rows : List NamesRowVals)
    (offsets : List Int) (data : Option (List Nat)) : Prop :=
  offsets[0]? = some 0 ∧
  (∀ i bs, i < rows.length → (rows[i]?).bind f = some bs →
    offsets[i + 1]? = some (cumLen f rows i + bs.length)) ∧
  (∀ i, i < rows.length → (rows[i]?).bind f = none →
    offsets[i + 1]? = some (cumLen f rows i)) ∧
  (∀ i, i < rows.length → ∃ a b, offsets[i]? = some a ∧ offsets[i + 1]? = some b ∧ a ≤ b) ∧
  offsets[rows.length]? = some (cumLen f rows rows.length) ∧
  data = none

/-- Default row value for the scalar schema, for reading a row's
fields by index. -/
def rowAtS (rows : List ScalarsRowVals) (i : Nat) : ScalarsRowVals :=
  (rows[i]?).getD ⟨none, none, none⟩

/-- Well-formed scalar rows: every present float value carries exactly
its 8 raw bytes. -/
def ScalarsWF (rows : List ScalarsRowVals) : Prop :=
  ∀ (i : Nat) (bs : List Nat),
    (rows[i]?).bind ScalarsRowVals.float_val = some bs → bs.length = 8

/-- The allocated sizes of the output arrays of
`_pandas_helpers._avro_df` for `row_count = rc` — the bounds every
in-loop write must respect. -/
def NamesLens (rc : Nat) (s : NamesState) : Prop :=
  s.year_nullmask.length = bitmapLen rc ∧ s.number_nullmask.length = bitmapLen rc ∧
  s.year.length = rc ∧ s.number.length = rc ∧
  s.state_offsets.length = rc + 1 ∧ s.gender_offsets.length = rc + 1 ∧
  s.name_offsets.length = rc + 1 ∧
  s.state_input_offsets.length = rc * 2 ∧ s.gender_input_offsets.length = rc * 2 ∧
  s.name_input_offsets.length = rc * 2

/-- The allocated sizes of the output arrays of
`_avro_to_arrow._avro_df` for `row_count = rc`. -/
def ScalarsLens (rc : Nat) (s : ScalarsState) : Prop :=
  s.int_nullmask.length = bitmapLen rc ∧ s.float_nullmask.length = bitmapLen rc ∧
  s.bool_nullmask.length = bitmapLen rc ∧
  s.int_col.length = rc ∧ s.float_col.length = rc ∧ s.bool_col.length = bitmapLen rc

/-- The concatenation of the present rows' byte runs of one Bytes
column — the data buffer the spec's materializer pass builds. -/
def bytesConcat (f : NamesRowVals → Option (List Nat)) (rows : List NamesRowVals) : List Nat :=
  (rows.map (fun r => (f r).getD [])).flatten

/-!
### Toolkit lemmas: indexing, bit arithmetic, zigzag
-/

theorem okBind {ε α β : Type} (x : α) (f : α → Except ε β) :
    (Except.ok x >>= f : Except ε β) = f x := rfl

theorem errBind {ε α β : Type} (e : ε) (f : α → Except ε β) :
    (Except.error e >>= f : Except ε β) = .error e := rfl

theorem readBlockByte_some {block : List Nat} {p : Int} {b : Nat} (h : pyGet block p = some b) :
    readBlockByte block p = .ok b := by
  rw [readBlockByte, h]

theorem readBlockByte_none {block : List Nat} {p : Int} (h : pyGet block p = none) :
    readBlockByte block p = .error .truncatedInput := by
  rw [readBlockByte, h]

theorem pyGet_nonneg {α : Type} (arr : List α) (i : Int) (h : 0 ≤ i) :
    pyGet arr i = arr[i.toNat]? := by
  simp [pyGet, h]

theorem pyGet_ofNat {α : Type} (arr : List α) (n : Nat) :
    pyGet arr (n : Int) = arr[n]? := by
  rw [pyGet_nonneg _ _ (by omega)]
  norm_num

theorem pyGet_oob {α : Type} (arr : List α) (i : Int) (h : (arr.length : Int) ≤ i) :
    pyGet arr i = none := by
  rw [pyGet_nonneg _ _ (by omega)]
  apply List.getElem?_eq_none
  omega

theorem readArrEx_some {α : Type} (arr : List α) (n : Nat) (v : α) (h : arr[n]? = some v) :
    readArrEx arr (n : Int) = .ok v := by
  simp [readArrEx, pyGet_ofNat, h]

theorem writeArrEx_lt {α : Type} (arr : List α) (n : Nat) (v : α) (h : n < arr.length) :
    writeArrEx arr (n : Int) v = .ok (arr.set n v) := by
  unfold writeArrEx
  rw [if_pos (by omega), show ((n : Int)).toNat = n from by omega, if_pos h]

theorem lor_shiftLeft_eq_add {a : Nat} (b k : Nat) (h : a < 2 ^ k) :
    a ||| (b <<< k) = 2 ^ k * b + a := by
  apply Nat.eq_of_testBit_eq
  intro j
  rw [Nat.testBit_lor, Nat.testBit_shiftLeft, Nat.testBit_mul_pow_two_add b h j]
  by_cases hj : j < k
  · have h2 : ¬ (j ≥ k) := by omega
    simp [hj, h2]
  · have hk : j ≥ k := by omega
    have ha : a.testBit j = false :=
      Nat.testBit_eq_false_of_lt (lt_of_lt_of_le h (Nat.pow_le_pow_right (by norm_num) hk))
    simp [hj, hk, ha]

theorem and_128_eq_zero {b : Nat} (h : b < 128) : b &&& 0x80 = 0 := by
  have hb : b.testBit 7 = false := Nat.testBit_eq_false_of_lt (by norm_num; omega)
  calc b &&& 0x80 = b &&& 2 ^ 7 := by norm_num
    _ = (b.testBit 7).toNat * 2 ^ 7 := Nat.and_two_pow b 7
    _ = 0 := by rw [hb]; rfl

theorem or128_and_128 (x : Nat) : (0x80 ||| x) &&& 0x80 ≠ 0 := by
  have hb : (0x80 ||| x).testBit 7 = true := by
    rw [Nat.testBit_lor]
    have : (0x80 : Nat).testBit 7 = true := by decide
    simp [this]
  have : (0x80 ||| x) &&& 0x80 = 2 ^ 7 := by
    calc (0x80 ||| x) &&& 0x80 = (0x80 ||| x) &&& 2 ^ 7 := by norm_num
      _ = ((0x80 ||| x).testBit 7).toNat * 2 ^ 7 := Nat.and_two_pow _ 7
      _ = 2 ^ 7 := by rw [hb]; decide
  omega

theorem and_127_eq_self {x : Nat} (h : x < 128) : x &&& 0x7F = x := by
  rw [show (0x7F : Nat) = 2 ^ 7 - 1 from by norm_num, Nat.and_pow_two_sub_one_eq_mod]
  omega

theorem or128_and_127 {x : Nat} (h : x < 128) : (0x80 ||| x) &&& 0x7F = x := by
  have h1 : (0x80 : Nat) ||| x = x ||| (1 <<< 7) := by
    rw [Nat.lor_comm, show ((1 : Nat) <<< 7) = 0x80 from by decide]
  rw [h1, lor_shiftLeft_eq_add 1 7 (by norm_num; omega),
    show (0x7F : Nat) = 2 ^ 7 - 1 from by norm_num, Nat.and_pow_two_sub_one_eq_mod]
  omega

theorem shiftLeft_lor_distrib (x y s : Nat) : (x ||| y) <<< s = (x <<< s) ||| (y <<< s) := by
  apply Nat.eq_of_testBit_eq
  intro j
  rw [Nat.testBit_shiftLeft, Nat.testBit_lor, Nat.testBit_lor, Nat.testBit_shiftLeft,
    Nat.testBit_shiftLeft, Bool.and_or_distrib_left]

theorem intXor_zero (m : Nat) : Int.xor (m : Int) 0 = m := by
  show Int.xor (Int.ofNat m) (Int.ofNat 0) = Int.ofNat m
  have : Int.xor (Int.ofNat m) (Int.ofNat 0) = Int.ofNat (m ^^^ 0) := rfl
  rw [this, Nat.xor_zero]

theorem intXor_negOne (m : Nat) : Int.xor (m : Int) (-1) = -(m : Int) - 1 := by
  show Int.xor (Int.ofNat m) (Int.negSucc 0) = _
  have : Int.xor (Int.ofNat m) (Int.negSucc 0) = Int.negSucc (m ^^^ 0) := rfl
  rw [this, Nat.xor_zero, Int.negSucc_eq]
  omega

theorem zigzagFinal_even {n : Nat} (h : n % 2 = 0) : zigzagFinal n = ((n / 2 : Nat) : Int) := by
  unfold zigzagFinal
  have h1 : n &&& 1 = 0 := by rw [Nat.and_one_is_mod, h]
  have h2 : n >>> 1 = n / 2 := by rw [Nat.shiftRight_eq_div_pow]
  rw [h1, h2]
  simpa using intXor_zero (n / 2)

theorem zigzagFinal_odd {n : Nat} (h : n % 2 = 1) : zigzagFinal n = -((n / 2 : Nat) : Int) - 1 := by
  unfold zigzagFinal
  have h1 : n &&& 1 = 1 := by rw [Nat.and_one_is_mod, h]
  have h2 : n >>> 1 = n / 2 := by rw [Nat.shiftRight_eq_div_pow]
  rw [h1, h2]
  have h3 : (-((1 : Nat) : Int)) = -1 := by norm_num
  rw [h3, intXor_negOne]

theorem zigzagFinal_zigzagEncode (v : Int) : zigzagFinal (zigzagEncode v) = v := by
  unfold zigzagEncode
  by_cases hv : 0 ≤ v
  · rw [if_pos hv, zigzagFinal_even (by omega)]
    omega
  · rw [if_neg hv, zigzagFinal_odd (by omega)]
    omega

/-!
### Varint encoding structure and `_read_long` round trip
-/

theorem varintEncode_spec (n : Nat) : ∃ b bs, varintEncode n = b :: bs ∧ VarintBytes b bs := by
  induction n using Nat.strong_induction_on with
  | _ n ih =>
    rw [varintEncode]
    by_cases h : n < 0x80
    · rw [if_pos h]
      exact ⟨n, [], rfl, .last n (and_128_eq_zero h)⟩
    · rw [if_neg h]
      obtain ⟨b2, bs2, he, hv⟩ := ih (n / 0x80) (Nat.div_lt_self (by omega) (by norm_num))
      refine ⟨0x80 ||| n % 0x80, b2 :: bs2, by rw [he], ?_⟩
      exact .cons _ b2 bs2 (or128_and_128 _) hv

theorem varintVal_varintEncode (n : Nat) : varintVal (varintEncode n) = n := by
  induction n using Nat.strong_induction_on with
  | _ n ih =>
    rw [varintEncode]
    by_cases h : n < 0x80
    · rw [if_pos h]
      simp only [varintVal, Nat.zero_shiftLeft, Nat.or_zero]
      exact and_127_eq_self h
    · rw [if_neg h]
      simp only [varintVal]
      rw [or128_and_127 (Nat.mod_lt _ (by norm_num)),
        ih (n / 0x80) (Nat.div_lt_self (by omega) (by norm_num)),
        lor_shiftLeft_eq_add _ 7 (by have := Nat.mod_lt n (show 0 < 128 by norm_num); norm_num; omega)]
      omega

theorem SegAt_nil {block : List Nat} {p : Int} : SegAt block p [] := by
  intro j hj
  simp at hj

theorem SegAt_cons {block : List Nat} {p : Int} {x : Nat} {xs : List Nat} :
    SegAt block p (x :: xs) ↔ pyGet block p = some x ∧ SegAt block (p + 1) xs := by
  constructor
  · intro h
    refine ⟨by simpa using h 0 (by simp), ?_⟩
    intro j hj
    have h2 := h (j + 1) (by simp; omega)
    have h3 : p + ((j : Nat) + 1 : Nat) = p + 1 + (j : Nat) := by push_cast; ring
    rw [h3] at h2
    simpa using h2
  · rintro ⟨h1, h2⟩ j hj
    cases j with
    | zero => simpa using h1
    | succ j =>
      have h3 := h2 j (by simp at hj; omega)
      have h4 : p + 1 + (j : Nat) = p + ((j : Nat) + 1 : Nat) := by push_cast; ring
      rw [h4] at h3
      simpa using h3

theorem SegAt_append {block : List Nat} {p : Int} {xs ys : List Nat} :
    SegAt block p (xs ++ ys) ↔ SegAt block p xs ∧ SegAt block (p + xs.length) ys := by
  constructor
  · intro h
    constructor
    · intro j hj
      have h2 := h j (by simp; omega)
      rwa [List.getElem?_append, if_pos hj] at h2
    · intro j hj
      have h2 := h (xs.length + j) (by simp; omega)
      rw [List.getElem?_append, if_neg (by omega)] at h2
      have h3 : p + ((xs.length + j : Nat) : Int) = p + xs.length + (j : Nat) := by
        push_cast; ring
      rw [h3] at h2
      simpa using h2
  · rintro ⟨h1, h2⟩ j hj
    rw [List.getElem?_append]
    by_cases hj2 : j < xs.length
    · rw [if_pos hj2]
      exact h1 j hj2
    · rw [if_neg hj2]
      have h3 := h2 (j - xs.length) (by simp at hj; omega)
      have h4 : p + xs.length + ((j - xs.length : Nat) : Int) = p + (j : Nat) := by
        have : (((j - xs.length : Nat)) : Int) = (j : Int) - xs.length := by omega
        rw [this]; ring
      rwa [h4] at h3

theorem SegAt_of_append (pre seg suf : List Nat) :
    SegAt (pre ++ (seg ++ suf)) (pre.length : Int) seg := by
  intro j hj
  rw [pyGet_nonneg _ _ (by omega), show (((pre.length : Nat) : Int) + (j : Int)).toNat
      = pre.length + j from by omega]
  rw [List.getElem?_append, if_neg (by omega)]
  have h2 : pre.length + j - pre.length = j := by omega
  rw [h2, List.getElem?_append, if_pos hj]

theorem SegAt_take {block : List Nat} {p : Int} {seg : List Nat} {t : Nat}
    (hp : 0 ≤ p) (h : SegAt block p seg) (ht : p + seg.length ≤ (t : Int)) :
    SegAt (block.take t) p seg := by
  intro j hj
  have h2 := h j hj
  rw [pyGet_nonneg _ _ (by omega)] at h2 ⊢
  rw [List.getElem?_take, if_pos (by omega)]
  exact h2

theorem SegAt_length_le {block seg : List Nat} {p : Int} (hp : 0 ≤ p) (h : SegAt block p seg)
    (hne : seg ≠ []) : p + seg.length ≤ (block.length : Int) := by
  have hlen : 0 < seg.length := List.length_pos.mpr hne
  have h2 := h (seg.length - 1) (by omega)
  rw [pyGet_nonneg _ _ (by omega)] at h2
  by_contra hcon
  rw [List.getElem?_eq_none (by omega)] at h2
  rw [List.getElem?_eq_getElem (by omega)] at h2
  exact Option.noConfusion h2

theorem readLongLoop_spec (block : List Nat) (bs : List Nat) :
    ∀ (b : Nat), VarintBytes b bs → ∀ (p : Int), 0 ≤ p → ∀ (n shift fuel : Nat),
      bs.length ≤ fuel → SegAt block (p + 1) bs →
      readLongLoop block fuel p b n shift =
        .ok (p + 1 + bs.length, zigzagFinal (n ||| (varintVal bs <<< shift))) := by
  induction bs with
  | nil =>
    intro b hvb p hp n shift fuel hfuel hseg
    cases hvb with
    | last _ hb =>
      cases fuel with
      | zero =>
        rw [readLongLoop, if_pos hb]
        simp [varintVal, Nat.zero_shiftLeft, Nat.or_zero]
      | succ fuel' =>
        rw [readLongLoop, if_pos hb]
        simp [varintVal, Nat.zero_shiftLeft, Nat.or_zero]
  | cons b2 bs2 ih =>
    intro b hvb p hp n shift fuel hfuel hseg
    cases hvb with
    | cons _ _ _ hb hvb2 =>
      cases fuel with
      | zero => simp at hfuel
      | succ fuel' =>
        rw [SegAt_cons] at hseg
        obtain ⟨hs1, hs2⟩ := hseg
        rw [readLongLoop, if_neg hb, readBlockByte_some hs1, okBind,
          ih b2 hvb2 (p + 1) (by omega) _ _ fuel' (by simp at hfuel; omega) hs2]
        have hval : (n ||| ((b2 &&& 0x7F) <<< shift)) ||| (varintVal bs2 <<< (shift + 7))
            = n ||| (varintVal (b2 :: bs2) <<< shift) := by
          simp only [varintVal]
          rw [shiftLeft_lor_distrib, ← Nat.lor_assoc, ← Nat.shiftLeft_add, Nat.add_comm 7 shift]
        have harith : p + 1 + 1 + (bs2.length : Int) = p + 1 + ((b2 :: bs2).length : Int) := by
          simp only [List.length_cons]
          omega
        rw [hval, harith]

theorem SegAt_head {block : List Nat} {p : Int} {b : Nat} {bs : List Nat}
    (h : SegAt block p (b :: bs)) : pyGet block p = some b :=
  (SegAt_cons.mp h).1

theorem read_long_encoded {block : List Nat} {p : Int} (v : Int)
    (hp : 0 ≤ p) (hseg : SegAt block p (encodeLong v)) :
    _read_long p block = .ok (p + (encodeLong v).length, v) := by
  obtain ⟨b, bs, he, hvb⟩ := varintEncode_spec (zigzagEncode v)
  rw [show encodeLong v = varintEncode (zigzagEncode v) from rfl, he] at hseg ⊢
  have h1 : pyGet block p = some b := SegAt_head hseg
  have h2 : SegAt block (p + 1) bs := (SegAt_cons.mp hseg).2
  have hfuel : bs.length ≤ 2 * block.length + 2 := by
    by_cases hbs : bs = []
    · simp [hbs]
    · have hle := SegAt_length_le (show (0 : Int) ≤ p + 1 by omega) h2 hbs
      omega
  rw [_read_long, readBlockByte_some h1, okBind,
    readLongLoop_spec block bs b hvb p hp _ _ _ hfuel h2]
  have hv : (b &&& 0x7F) ||| (varintVal bs <<< 7) = zigzagEncode v := by
    have h3 : varintVal (b :: bs) = zigzagEncode v := by rw [← he, varintVal_varintEncode]
    simpa [varintVal] using h3
  rw [hv, zigzagFinal_zigzagEncode]
  have harith : p + 1 + (bs.length : Int) = p + ((b :: bs).length : Int) := by
    simp only [List.length_cons]
    omega
  rw [harith]

theorem read_long_oob {block : List Nat} {p : Int} (h : (block.length : Int) ≤ p) :
    _read_long p block = .error .truncatedInput := by
  rw [_read_long, readBlockByte_none (pyGet_oob _ _ h), errBind]

theorem readLongLoop_hi_fails (block : List Nat) :
    ∀ (fuel : Nat) (p : Int) (b n shift : Nat), 0 ≤ p → b &&& 0x80 ≠ 0 →
      (∀ q : Int, p < q → ∀ b2, pyGet block q = some b2 → b2 &&& 0x80 ≠ 0) →
      readLongLoop block fuel p b n shift = .error .truncatedInput := by
  intro fuel
  induction fuel with
  | zero =>
    intro p b n shift hp hb hall
    rw [readLongLoop, if_neg hb]
  | succ fuel ih =>
    intro p b n shift hp hb hall
    rw [readLongLoop, if_neg hb]
    cases hq : pyGet block (p + 1) with
    | none => rw [readBlockByte_none hq, errBind]
    | some b2 =>
      rw [readBlockByte_some hq, okBind]
      exact ih (p + 1) b2 _ _ (by omega) (hall (p + 1) (by omega) b2 hq)
        (fun q hq2 b3 h3 => hall q (by omega) b3 h3)

theorem VarintBytes_hi {b0 : Nat} {bs : List Nat} (h : VarintBytes b0 bs) :
    ∀ j b, (b0 :: bs)[j]? = some b → j + 1 < (b0 :: bs).length → b &&& 0x80 ≠ 0 := by
  induction h with
  | last b hb =>
    intro j b2 hj hlt
    simp at hlt
  | cons b b2 bs hb h2 ih =>
    intro j b3 hj hlt
    cases j with
    | zero =>
      simp at hj
      subst hj
      exact hb
    | succ j =>
      exact ih j b3 (by simpa using hj) (by simp at hlt ⊢; omega)

theorem varintEncode_hi {n j b : Nat} (hb : (varintEncode n)[j]? = some b)
    (hj : j + 1 < (varintEncode n).length) : b &&& 0x80 ≠ 0 := by
  obtain ⟨b0, bs, he, hvb⟩ := varintEncode_spec n
  rw [he] at hb hj
  exact VarintBytes_hi hvb j b hb hj

theorem read_long_cut {block : List Nat} {p : Int} {n : Nat} {c : Nat}
    (hp : 0 ≤ p) (hc : c < (varintEncode n).length)
    (hseg : SegAt block p ((varintEncode n).take c))
    (hend : (block.length : Int) = p + c) :
    _read_long p block = .error .truncatedInput := by
  cases c with
  | zero => exact read_long_oob (by omega)
  | succ c' =>
    have hlen : ((varintEncode n).take (c' + 1)).length = c' + 1 := by
      rw [List.length_take]
      omega
    obtain ⟨b0, bs, he, hvb⟩ := varintEncode_spec n
    have hb : (varintEncode n)[0]? = some b0 := by rw [he]; simp
    have h0 := hseg 0 (by rw [hlen]; omega)
    rw [show p + ((0 : Nat) : Int) = p from by omega] at h0
    rw [List.getElem?_take, if_pos (by omega), hb] at h0
    rw [_read_long, readBlockByte_some h0, okBind]
    apply readLongLoop_hi_fails block _ p b0 _ _ hp (varintEncode_hi hb (by omega))
    intro q hq b2 hb2
    have hlt : q < (block.length : Int) := by
      by_contra hcon
      rw [pyGet_oob _ _ (by omega)] at hb2
      exact Option.noConfusion hb2
    have h5 := hseg (q - p).toNat (by rw [hlen]; omega)
    rw [show p + (((q - p).toNat : Nat) : Int) = q from by omega, hb2] at h5
    rw [List.getElem?_take, if_pos (by omega)] at h5
    exact varintEncode_hi h5.symm (by omega)

theorem readLongLoop_advances (block : List Nat) :
    ∀ (fuel : Nat) (p : Int) (b n shift : Nat) (p2 v : Int),
      readLongLoop block fuel p b n shift = .ok (p2, v) → p < p2 := by
  intro fuel
  induction fuel with
  | zero =>
    intro p b n shift p2 v h
    rw [readLongLoop] at h
    split at h
    · simp at h
      omega
    · exact Except.noConfusion h
  | succ fuel ih =>
    intro p b n shift p2 v h
    rw [readLongLoop] at h
    split at h
    · simp at h
      omega
    · cases hq : pyGet block (p + 1) with
      | none =>
        rw [readBlockByte_none hq, errBind] at h
        exact Except.noConfusion h
      | some b2 =>
        rw [readBlockByte_some hq, okBind] at h
        have := ih (p + 1) b2 _ _ p2 v h
        omega

theorem read_long_advances {block : List Nat} {p p2 v : Int}
    (h : _read_long p block = .ok (p2, v)) : p < p2 := by
  rw [_read_long] at h
  cases hq : pyGet block p with
  | none =>
    rw [readBlockByte_none hq, errBind] at h
    exact Except.noConfusion h
  | some b =>
    rw [readBlockByte_some hq, okBind] at h
    exact readLongLoop_advances block _ p b _ _ p2 v h

theorem readLongLoop_ok_or_trunc (block : List Nat) :
    ∀ (fuel : Nat) (p : Int) (b n shift : Nat),
      (∃ r, readLongLoop block fuel p b n shift = .ok r) ∨
        readLongLoop block fuel p b n shift = .error .truncatedInput := by
  intro fuel
  induction fuel with
  | zero =>
    intro p b n shift
    rw [readLongLoop]
    split
    · exact Or.inl ⟨_, rfl⟩
    · exact Or.inr rfl
  | succ fuel ih =>
    intro p b n shift
    rw [readLongLoop]
    split
    · exact Or.inl ⟨_, rfl⟩
    · cases hq : pyGet block (p + 1) with
      | none => rw [readBlockByte_none hq, errBind]; exact Or.inr rfl
      | some b2 => rw [readBlockByte_some hq, okBind]; exact ih (p + 1) b2 _ _

theorem read_long_ok_or_trunc (block : List Nat) (p : Int) :
    (∃ r, _read_long p block = .ok r) ∨ _read_long p block = .error .truncatedInput := by
  rw [_read_long]
  cases hq : pyGet block p with
  | none => rw [readBlockByte_none hq, errBind]; exact Or.inr rfl
  | some b => rw [readBlockByte_some hq, okBind]; exact readLongLoop_ok_or_trunc block _ p b _ _

/-- C2: for every signed 64-bit integer `v`, decoding the standard
zigzag-varint encoding of `v` (7 payload bits per byte, continuation
high bit, final value `(n >> 1) XOR -(n & 1)`) with the varint reader
`_read_long`, starting at the encoding's first byte, returns exactly
`v`, and returns the position advanced exactly past the encoding's
last byte.  Proved for every `v : Int`, which subsumes the signed
64-bit range, and for any trailing bytes after the encoding. -/
theorem claim2_zigzag_varint_roundtrip (v : Int) (rest : List Nat) :
    _read_long 0 (encodeLong v ++ rest) = .ok (((encodeLong v).length : Int), v) := by
  have hseg : SegAt (encodeLong v ++ rest) 0 (encodeLong v) := by
    have h := SegAt_of_append [] (encodeLong v) rest
    simpa using h
  have h2 := read_long_encoded v (by omega) hseg
  simpa using h2

/-!
### Concrete decode evaluations
-/

/-- C1 (evidence of the divergence): decoding the 3-row block over the
plan `[Int64 nullable, Bytes nullable]` whose payload encodes
row0 = (tag=1, varint 5; tag=1, len=2, "hi"), row1 = (tag=0; tag=0),
row2 = (tag=1, zigzag -3; tag=1, len=0, "").  The Int64 column comes
out as the claim states (validity byte `0b101 = 5`, data `[5, _, -3]`
with slot 1 left as the allocation garbage `g 0 1`), and the Bytes
offsets are `[0, 2, 2, 2]`; but the Bytes validity bitmap stays
all-zero (the decode never sets validity bits for byte columns) and
the Bytes data buffer is `none` (the byte-copy pass is never run),
where the claim requires validity bits `[1,0,1]` and data `"hi"`.
The decode runs with the recognizable allocation garbage
`g id j = 1000 + 100*id + j`; slot 1 of the Int64 data comes out as
its garbage value `g 0 1 = 1001`, confirming it is unconstrained. -/
theorem claim1_decode_eval :
    avroDFIntBytes (fun id j => 1000 + 100 * id + j) 3
        [2, 10, 2, 4, 104, 105, 0, 0, 2, 5, 2, 0] =
      .ok { int_nullmask := [5]
            int_col := [5, 1001, -3]
            bytes_nullmask := [0]
            bytes_offsets := [0, 2, 2, 2]
            bytes_data := none } := rfl

/-- C5 counterexample: the decode of the one-row block
`[2, 1, 0, 0, 0, 0]` (state present with byte-run length decoding to
`-1`, then a present zero-length gender, year/name/number null)
completes without error, yet its state offsets are `[0, -1]`:
`offsets[0] ≤ offsets[1]` fails, and there is no concatenated data
buffer for `offsets[row_count]` to measure (`state_data = none`). -/
theorem claim5_counterexample :
    PandasHelpers._avro_df (fun _ _ => 0) 1 [2, 1, 0, 0, 0, 0] =
      .ok { state_nullmask := [0]
            state_offsets := [0, -1]
            state_data := none
            gender_nullmask := [0]
            gender_offsets := [0, 0]
            gender_data := none
            year_nullmask := [0]
            year := [0]
            name_nullmask := [0]
            name_offsets := [0, 0]
            name_data := none
            number_nullmask := [0]
            number := [0] } ∧ ¬ ((0 : Int) ≤ -1) :=
  ⟨rfl, by norm_num⟩

/-- C6 counterexample: on the same one-row block `[2, 1, 0, 0, 0, 0]`,
whose state byte-run length decodes to `-1`, the decode does not fail
at all — there is no `MalformedLength` check anywhere in the code.  It
records the negative length into `offsets[1] = offsets[0] + (-1) = -1`
and keeps decoding the remaining four fields to a successful result. -/
theorem claim6_counterexample :
    PandasHelpers._avro_df (fun _ _ => 0) 1 [2, 1, 0, 0, 0, 0] =
      .ok { state_nullmask := [0]
            state_offsets := [0, -1]
            state_data := none
            gender_nullmask := [0]
            gender_offsets := [0, 0]
            gender_data := none
            year_nullmask := [0]
            year := [0]
            name_nullmask := [0]
            name_offsets := [0, 0]
            name_data := none
            number_nullmask := [0]
            number := [0] } := rfl

/-- C6 amended, part of the evidence: the decode loop never raises on a
negative byte-run length (see `claim6_amended`), while the repository's
unused helper `_read_bytes` would fail on one — via numpy's
negative-allocation `ValueError`, not a dedicated `MalformedLength`
condition. -/
theorem claim6_read_bytes_value_error :
    _read_bytes 0 [1] = .error .valueError := rfl

/-- C6 amended: for any allocation garbage `g`, decoding the one-row
block `[2, 1, 0, 0, 0, 0]` — whose state byte-run length decodes to
`-1` — succeeds: the negative length is recorded (the source range
`(2, 1)` lands in `state_input_offsets`), `offsets[1] = offsets[0] - 1`,
the cursor moves backward by one, and the remaining four fields are
decoded (the gender field is even parsed out of re-read bytes).  The
allocation garbage `g id j = 1000 + 100*id + j` is visible in the
untouched slots (`name_input_offsets`, `year`, `number`). -/
theorem claim6_amended :
    (do
      let s0 ← namesInit (fun id j => 1000 + 100 * id + j) 1
      namesLoop [2, 1, 0, 0, 0, 0] 1 0 s0) =
      .ok { position := 6
            nullmask := 1
            state_nullmask := [0]
            gender_nullmask := [0]
            year_nullmask := [0]
            name_nullmask := [0]
            number_nullmask := [0]
            state_input_offsets := [2, 1]
            gender_input_offsets := [3, 3]
            name_input_offsets := [1200, 1201]
            state_offsets := [0, -1]
            gender_offsets := [0, 0]
            name_offsets := [0, 0]
            year := [1600]
            number := [1700] } := rfl

/-- C9 counterexample: on the one-row block `[2, 1, 0, 0, 0, 0]` the
row walk's cursor moves backward: after reading the state byte-run
length at position 1 the cursor is 2 (recorded in
`state_input_offsets[0]`), and the skip `position = position + strlen`
with `strlen = -1` moves it back to 1 (recorded in
`state_input_offsets[1]`) — a cursor update with a result strictly
below the previous position. -/
theorem claim9_counterexample :
    (do
      let s0 ← namesInit (fun _ _ => 0) 1
      namesLoop [2, 1, 0, 0, 0, 0] 1 0 s0) =
      .ok { position := 6
            nullmask := 1
            state_nullmask := [0]
            gender_nullmask := [0]
            year_nullmask := [0]
            name_nullmask := [0]
            number_nullmask := [0]
            state_input_offsets := [2, 1]
            gender_input_offsets := [3, 3]
            name_input_offsets := [0, 0]
            state_offsets := [0, -1]
            gender_offsets := [0, 0]
            name_offsets := [0, 0]
            year := [0]
            number := [0] } ∧ ¬ ((2 : Int) ≤ 1) :=
  ⟨rfl, by norm_num⟩

/-- C7 counterexample: decoding the one-row block
`[2, 4, 104, 105, 0, 0, 0, 0]` (state = the two bytes `"hi"`, all
other fields null) completes with `state_offsets = [0, 2]`, but the
decode's output contains no concatenated data byte array at all for
the Bytes columns: the data component is the literal `None` of the
source's return statement, not a buffer of length `offsets[1] = 2`
holding `"hi"`. -/
theorem claim7_counterexample :
    PandasHelpers._avro_df (fun _ _ => 0) 1 [2, 4, 104, 105, 0, 0, 0, 0] =
      .ok { state_nullmask := [0]
            state_offsets := [0, 2]
            state_data := none
            gender_nullmask := [0]
            gender_offsets := [0, 0]
            gender_data := none
            year_nullmask := [0]
            year := [0]
            name_nullmask := [0]
            name_offsets := [0, 0]
            name_data := none
            number_nullmask := [0]
            number := [0] } := rfl

/-!
### Field-level step lemmas
-/

theorem encodeLong_zero : encodeLong 0 = [0] := by
  have h1 : zigzagEncode 0 = 0 := by simp [zigzagEncode]
  rw [encodeLong, h1, varintEncode]
  norm_num

theorem encodeLong_one : encodeLong 1 = [2] := by
  have h1 : zigzagEncode 1 = 2 := by simp [zigzagEncode]
  rw [encodeLong, h1, varintEncode]
  norm_num

theorem encodeLong_zero_length : (encodeLong 0).length = 1 := by rw [encodeLong_zero]; rfl

theorem encodeLong_one_length : (encodeLong 1).length = 1 := by rw [encodeLong_one]; rfl

theorem read_boolean_some {block : List Nat} {p : Int} {b : Nat} (h : pyGet block p = some b) :
    _read_boolean p block = .ok (p + 1, if b ≠ 0 then 0xff else 0) := by
  rw [_read_boolean, readBlockByte_some h, okBind]

theorem read_boolean_none {block : List Nat} {p : Int} (h : pyGet block p = none) :
    _read_boolean p block = .error .truncatedInput := by
  rw [_read_boolean, readBlockByte_none h, errBind]

theorem pyGet_lt {α : Type} (arr : List α) (q : Int) (h0 : 0 ≤ q)
    (h : q < (arr.length : Int)) : ∃ v, pyGet arr q = some v := by
  rw [pyGet_nonneg _ _ h0]
  rw [List.getElem?_eq_getElem (by omega)]
  exact ⟨_, rfl⟩

theorem read_double_ok {block : List Nat} {p : Int} (h0 : 0 ≤ p)
    (h : p + 8 ≤ (block.length : Int)) :
    ∃ w, _read_double p block = .ok (p + 8, w) := by
  obtain ⟨b0, e0⟩ := pyGet_lt block p h0 (by omega)
  obtain ⟨b1, e1⟩ := pyGet_lt block (p + 1) (by omega) (by omega)
  obtain ⟨b2, e2⟩ := pyGet_lt block (p + 2) (by omega) (by omega)
  obtain ⟨b3, e3⟩ := pyGet_lt block (p + 3) (by omega) (by omega)
  obtain ⟨b4, e4⟩ := pyGet_lt block (p + 4) (by omega) (by omega)
  obtain ⟨b5, e5⟩ := pyGet_lt block (p + 5) (by omega) (by omega)
  obtain ⟨b6, e6⟩ := pyGet_lt block (p + 6) (by omega) (by omega)
  obtain ⟨b7, e7⟩ := pyGet_lt block (p + 7) (by omega) (by omega)
  refine ⟨b0 ||| (b1 <<< 8) ||| (b2 <<< 16) ||| (b3 <<< 24) ||| (b4 <<< 32) ||| (b5 <<< 40)
    ||| (b6 <<< 48) ||| (b7 <<< 56), ?_⟩
  rw [_read_double, readBlockByte_some e0, okBind, readBlockByte_some e1, okBind,
    readBlockByte_some e2, okBind, readBlockByte_some e3, okBind, readBlockByte_some e4, okBind,
    readBlockByte_some e5, okBind, readBlockByte_some e6, okBind, readBlockByte_some e7, okBind]

theorem read_double_ok_le {block : List Nat} {p p2 : Int} {w : Nat}
    (h : _read_double p block = .ok (p2, w)) (h0 : 0 ≤ p) :
    p2 = p + 8 ∧ p + 8 ≤ (block.length : Int) := by
  rw [_read_double] at h
  cases e7 : pyGet block (p + 7) with
  | none =>
    exfalso
    cases e0 : pyGet block p with
    | none => rw [readBlockByte_none e0, errBind] at h; exact Except.noConfusion h
    | some b0 =>
      rw [readBlockByte_some e0, okBind] at h
      cases e1 : pyGet block (p + 1) with
      | none => rw [readBlockByte_none e1, errBind] at h; exact Except.noConfusion h
      | some b1 =>
        rw [readBlockByte_some e1, okBind] at h
        cases e2 : pyGet block (p + 2) with
        | none => rw [readBlockByte_none e2, errBind] at h; exact Except.noConfusion h
        | some b2 =>
          rw [readBlockByte_some e2, okBind] at h
          cases e3 : pyGet block (p + 3) with
          | none => rw [readBlockByte_none e3, errBind] at h; exact Except.noConfusion h
          | some b3 =>
            rw [readBlockByte_some e3, okBind] at h
            cases e4 : pyGet block (p + 4) with
            | none => rw [readBlockByte_none e4, errBind] at h; exact Except.noConfusion h
            | some b4 =>
              rw [readBlockByte_some e4, okBind] at h
              cases e5 : pyGet block (p + 5) with
              | none => rw [readBlockByte_none e5, errBind] at h; exact Except.noConfusion h
              | some b5 =>
                rw [readBlockByte_some e5, okBind] at h
                cases e6 : pyGet block (p + 6) with
                | none => rw [readBlockByte_none e6, errBind] at h; exact Except.noConfusion h
                | some b6 =>
                  rw [readBlockByte_some e6, okBind, readBlockByte_none e7, errBind] at h
                  exact Except.noConfusion h
  | some b7 =>
    have h7 : p + 7 < (block.length : Int) := by
      by_contra hcon
      rw [pyGet_oob _ _ (by omega)] at e7
      exact Option.noConfusion e7
    refine ⟨?_, by omega⟩
    obtain ⟨b0, e0⟩ := pyGet_lt block p h0 (by omega)
    obtain ⟨b1, e1⟩ := pyGet_lt block (p + 1) (by omega) (by omega)
    obtain ⟨b2, e2⟩ := pyGet_lt block (p + 2) (by omega) (by omega)
    obtain ⟨b3, e3⟩ := pyGet_lt block (p + 3) (by omega) (by omega)
    obtain ⟨b4, e4⟩ := pyGet_lt block (p + 4) (by omega) (by omega)
    obtain ⟨b5, e5⟩ := pyGet_lt block (p + 5) (by omega) (by omega)
    obtain ⟨b6, e6⟩ := pyGet_lt block (p + 6) (by omega) (by omega)
    rw [readBlockByte_some e0, okBind, readBlockByte_some e1, okBind,
      readBlockByte_some e2, okBind, readBlockByte_some e3, okBind, readBlockByte_some e4, okBind,
      readBlockByte_some e5, okBind, readBlockByte_some e6, okBind, readBlockByte_some e7,
      okBind] at h
    simp at h
    omega

theorem intFieldStep_null {block : List Nat} {p : Int} (i nullmask nullbyte : Nat)
    (nm : List Nat) (data : List Int)
    (hp : 0 ≤ p) (hseg : SegAt block p (encIntField none)) :
    intFieldStep block i nullmask nullbyte p nm data = .ok (p + 1, nm, data) := by
  have htag : _read_long p block = .ok (p + 1, 0) := by
    have h := read_long_encoded 0 hp (by simpa [encIntField] using hseg)
    rw [encodeLong_zero_length] at h
    simpa using h
  rw [intFieldStep, htag]
  simp only [okBind]
  norm_num

theorem intFieldStep_some {block : List Nat} {p : Int} (i nullmask nullbyte : Nat)
    (nm : List Nat) (data : List Int) (v : Int) (cur : Nat)
    (hp : 0 ≤ p) (hseg : SegAt block p (encIntField (some v)))
    (hnm : nm[nullbyte]? = some cur) (hnbl : nullbyte < nm.length) (hdl : i < data.length) :
    intFieldStep block i nullmask nullbyte p nm data =
      .ok (p + 1 + ((encodeLong v).length : Int), nm.set nullbyte (cur ||| nullmask),
        data.set i v) := by
  have hsplit : SegAt block p (encodeLong 1) ∧
      SegAt block (p + ((encodeLong 1).length : Int)) (encodeLong v) := by
    rw [← SegAt_append]
    simpa [encIntField] using hseg
  obtain ⟨hs1, hs2⟩ := hsplit
  rw [encodeLong_one_length] at hs2
  have htag : _read_long p block = .ok (p + 1, 1) := by
    have h := read_long_encoded 1 hp hs1
    rw [encodeLong_one_length] at h
    simpa using h
  have hval : _read_long (p + 1) block = .ok (p + 1 + ((encodeLong v).length : Int), v) :=
    read_long_encoded v (by omega) (by simpa using hs2)
  rw [intFieldStep, htag]
  simp only [okBind]
  rw [if_pos (by norm_num), readArrEx_some _ _ _ hnm]
  simp only [okBind]
  rw [writeArrEx_lt _ _ _ hnbl]
  simp only [okBind]
  rw [hval]
  simp only [okBind]
  rw [writeArrEx_lt _ _ _ hdl]
  simp only [okBind]

theorem bytesFieldStep_null {block : List Nat} {p : Int} (i : Nat)
    (offsets inputOffsets : List Int) (off : Int)
    (hp : 0 ≤ p) (hseg : SegAt block p (encBytesField none))
    (hoff : offsets[i]? = some off) (hol : i + 1 < offsets.length) :
    bytesFieldStep block i p offsets inputOffsets =
      .ok (p + 1, offsets.set (i + 1) off, inputOffsets) := by
  have htag : _read_long p block = .ok (p + 1, 0) := by
    have h := read_long_encoded 0 hp (by simpa [encBytesField] using hseg)
    rw [encodeLong_zero_length] at h
    simpa using h
  rw [bytesFieldStep, htag]
  simp only [okBind, if_true]
  rw [readArrEx_some _ _ _ hoff]
  simp only [okBind]
  rw [show ((i : Nat) : Int) + 1 = ((i + 1 : Nat) : Int) from by push_cast; ring,
    writeArrEx_lt _ _ _ hol]
  simp only [okBind]

theorem bytesFieldStep_some {block : List Nat} {p : Int} (i : Nat)
    (offsets inputOffsets : List Int) (off : Int) (bs : List Nat)
    (hp : 0 ≤ p) (hseg : SegAt block p (encBytesField (some bs)))
    (hoff : offsets[i]? = some off) (hol : i + 1 < offsets.length)
    (hil : 2 * i + 1 < inputOffsets.length) :
    bytesFieldStep block i p offsets inputOffsets =
      .ok (p + 1 + ((encodeLong (bs.length : Int)).length : Int) + bs.length,
        offsets.set (i + 1) (off + bs.length),
        (inputOffsets.set (2 * i) (p + 1 + ((encodeLong (bs.length : Int)).length : Int))).set
          (2 * i + 1) (p + 1 + ((encodeLong (bs.length : Int)).length : Int) + bs.length)) := by
  have hsplit : SegAt block p (encodeLong 1) ∧
      SegAt block (p + ((encodeLong 1).length : Int))
        (encodeLong (bs.length : Int) ++ bs) := by
    rw [← SegAt_append]
    simpa [encBytesField] using hseg
  obtain ⟨hs1, hs2⟩ := hsplit
  rw [encodeLong_one_length] at hs2
  have hs2' : SegAt block (p + 1) (encodeLong (bs.length : Int) ++ bs) := by simpa using hs2
  rw [SegAt_append] at hs2'
  obtain ⟨hsl, hsb⟩ := hs2'
  have htag : _read_long p block = .ok (p + 1, 1) := by
    have h := read_long_encoded 1 hp hs1
    rw [encodeLong_one_length] at h
    simpa using h
  have hval : _read_long (p + 1) block =
      .ok (p + 1 + ((encodeLong (bs.length : Int)).length : Int), (bs.length : Int)) :=
    read_long_encoded _ (by omega) hsl
  rw [bytesFieldStep, htag]
  simp only [okBind]
  rw [if_neg (by norm_num), hval]
  simp only [okBind]
  rw [show 2 * ((i : Nat) : Int) = ((2 * i : Nat) : Int) from by push_cast; ring,
    writeArrEx_lt _ _ _ (by omega)]
  simp only [okBind]
  rw [show ((2 * i : Nat) : Int) + 1 = ((2 * i + 1 : Nat) : Int) from by push_cast; ring,
    writeArrEx_lt _ _ _ (by simpa using hil)]
  simp only [okBind]
  rw [readArrEx_some _ _ _ (by simpa using hoff)]
  simp only [okBind]
  rw [show ((i : Nat) : Int) + 1 = ((i + 1 : Nat) : Int) from by push_cast; ring,
    writeArrEx_lt _ _ _ (by simpa using hol)]
  simp only [okBind]

theorem floatFieldStep_null {block : List Nat} {p : Int} (i nullmask nullbyte : Nat)
    (nm data : List Nat)
    (hp : 0 ≤ p) (hseg : SegAt block p (encFloatField none)) :
    floatFieldStep block i nullmask nullbyte p nm data = .ok (p + 1, nm, data) := by
  have htag : _read_long p block = .ok (p + 1, 0) := by
    have h := read_long_encoded 0 hp (by simpa [encFloatField] using hseg)
    rw [encodeLong_zero_length] at h
    simpa using h
  rw [floatFieldStep, htag]
  simp only [okBind]
  norm_num

theorem floatFieldStep_some {block : List Nat} {p : Int} (i nullmask nullbyte : Nat)
    (nm data : List Nat) (bs : List Nat) (cur : Nat)
    (hp : 0 ≤ p) (hseg : SegAt block p (encFloatField (some bs))) (hbs : bs.length = 8)
    (hnm : nm[nullbyte]? = some cur) (hnbl : nullbyte < nm.length) (hdl : i < data.length) :
    ∃ w, floatFieldStep block i nullmask nullbyte p nm data =
      .ok (p + 9, nm.set nullbyte (cur ||| nullmask), data.set i w) := by
  have hsplit : SegAt block p (encodeLong 1) ∧
      SegAt block (p + ((encodeLong 1).length : Int)) bs := by
    rw [← SegAt_append]
    simpa [encFloatField] using hseg
  obtain ⟨hs1, hs2⟩ := hsplit
  rw [encodeLong_one_length] at hs2
  have hs2' : SegAt block (p + 1) bs := by simpa using hs2
  have htag : _read_long p block = .ok (p + 1, 1) := by
    have h := read_long_encoded 1 hp hs1
    rw [encodeLong_one_length] at h
    simpa using h
  have hblen : p + 1 + 8 ≤ (block.length : Int) := by
    have h := SegAt_length_le (by omega) hs2' (by rw [← List.length_pos, hbs]; norm_num)
    omega
  obtain ⟨w, hw⟩ := read_double_ok (show (0 : Int) ≤ p + 1 by omega) hblen
  refine ⟨w, ?_⟩
  rw [floatFieldStep, htag]
  simp only [okBind]
  rw [if_pos (by norm_num), readArrEx_some _ _ _ hnm]
  simp only [okBind]
  rw [writeArrEx_lt _ _ _ hnbl]
  simp only [okBind]
  rw [hw]
  simp only [okBind]
  rw [writeArrEx_lt _ _ _ hdl]
  simp only [okBind]
  rw [show p + 1 + 8 = p + 9 from by ring]

theorem boolFieldStep_null {block : List Nat} {p : Int} (i nullmask nullbyte : Nat)
    (nm data : List Nat)
    (hp : 0 ≤ p) (hseg : SegAt block p (encBoolField none)) :
    boolFieldStep block i nullmask nullbyte p nm data = .ok (p + 1, nm, data) := by
  have htag : _read_long p block = .ok (p + 1, 0) := by
    have h := read_long_encoded 0 hp (by simpa [encBoolField] using hseg)
    rw [encodeLong_zero_length] at h
    simpa using h
  rw [boolFieldStep, htag]
  simp only [okBind]
  norm_num

theorem boolFieldStep_some {block : List Nat} {p : Int} (i nullmask nullbyte : Nat)
    (nm data : List Nat) (b : Nat) (cur curData : Nat)
    (hp : 0 ≤ p) (hseg : SegAt block p (encBoolField (some b)))
    (hnm : nm[nullbyte]? = some cur) (hnbl : nullbyte < nm.length)
    (hdata : data[nullbyte]? = some curData) (hdl : nullbyte < data.length) :
    boolFieldStep block i nullmask nullbyte p nm data =
      .ok (p + 2, nm.set nullbyte (cur ||| nullmask),
        data.set nullbyte (curData ||| ((if b ≠ 0 then 0xff else 0) &&& nullmask))) := by
  have hsplit : SegAt block p (encodeLong 1) ∧
      SegAt block (p + ((encodeLong 1).length : Int)) [b] := by
    rw [← SegAt_append]
    simpa [encBoolField] using hseg
  obtain ⟨hs1, hs2⟩ := hsplit
  rw [encodeLong_one_length] at hs2
  have hb : pyGet block (p + 1) = some b := by
    have h := SegAt_head (by simpa using hs2 : SegAt block (p + 1) [b])
    exact h
  have htag : _read_long p block = .ok (p + 1, 1) := by
    have h := read_long_encoded 1 hp hs1
    rw [encodeLong_one_length] at h
    simpa using h
  rw [boolFieldStep, htag]
  simp only [okBind]
  rw [if_pos (by norm_num), readArrEx_some _ _ _ hnm]
  simp only [okBind]
  rw [writeArrEx_lt _ _ _ hnbl]
  simp only [okBind]
  rw [read_boolean_some hb]
  simp only [okBind]
  rw [readArrEx_some _ _ _ (by simpa [List.getElem?_set] using hdata)]
  simp only [okBind]
  rw [writeArrEx_lt _ _ _ (by simpa using hdl)]
  simp only [okBind]
  rw [show p + 1 + 1 = p + 2 from by ring]

/-!
### Bitmap, marker, and offsets bookkeeping lemmas
-/

theorem getElem?_set_ne {α : Type} (arr : List α) (m i : Nat) (v : α) (h : m ≠ i) :
    (arr.set m v)[i]? = arr[i]? := by
  rw [List.getElem?_set, if_neg h]

theorem getElem?_set_self {α : Type} (arr : List α) (m : Nat) (v : α) (h : m < arr.length) :
    (arr.set m v)[m]? = some v := by
  rw [List.getElem?_set, if_pos rfl, if_pos h]

theorem maskAfter_succ (k : Nat) : maskAfter (k + 1) = 2 ^ (k % 8) := by
  simp [maskAfter]

theorem rotate_maskAfter (k : Nat) : _rotate_nullbit (maskAfter k) = 2 ^ (k % 8) := by
  unfold _rotate_nullbit maskAfter
  by_cases hk : k = 0
  · subst hk
    norm_num
  · rw [if_neg hk]
    have hm8 : (k - 1) % 8 < 8 := Nat.mod_lt _ (by norm_num)
    have h1 : (2 ^ ((k - 1) % 8) <<< 1) = 2 ^ ((k - 1) % 8 + 1) := by
      rw [Nat.shiftLeft_eq]
      ring
    by_cases h7 : (k - 1) % 8 = 7
    · rw [h1, h7]
      have hk8 : k % 8 = 0 := by omega
      norm_num [hk8]
      decide
    · have hlt : 2 ^ ((k - 1) % 8 + 1) < 256 := by
        have : (k - 1) % 8 + 1 ≤ 7 := by omega
        calc 2 ^ ((k - 1) % 8 + 1) ≤ 2 ^ 7 := Nat.pow_le_pow_right (by norm_num) this
          _ < 256 := by norm_num
      rw [h1, show (255 : Nat) = 2 ^ 8 - 1 from by norm_num, Nat.and_pow_two_sub_one_eq_mod,
        Nat.mod_eq_of_lt (by omega)]
      rw [if_neg (by positivity)]
      have hk8 : k % 8 = (k - 1) % 8 + 1 := by omega
      rw [hk8]

theorem BitmapAt_zero (flags : Nat → Bool) (rc : Nat) :
    BitmapAt flags rc 0 (_make_bitarray rc) := by
  constructor
  · simp [_make_bitarray, bitmapLen]
  · intro j b hj
    have hj2 : b = 0 := by
      unfold _make_bitarray at hj
      rw [List.getElem?_replicate] at hj
      by_cases h : j < rc / 8 + if rc % 8 ≠ 0 then 1 else 0
      · rw [if_pos h] at hj
        exact (Option.some_inj.mp hj).symm
      · rw [if_neg h] at hj
        exact Option.noConfusion hj
    subst hj2
    refine ⟨by norm_num, ?_⟩
    intro t ht
    simp

theorem BitmapAt_succ_keep {flags : Nat → Bool} {rc k : Nat} {arr : List Nat}
    (h : BitmapAt flags rc k arr) (hflag : flags k = false) :
    BitmapAt flags rc (k + 1) arr := by
  obtain ⟨hlen, hbits⟩ := h
  refine ⟨hlen, ?_⟩
  intro j b hj
  obtain ⟨hb, hbits2⟩ := hbits j b hj
  refine ⟨hb, ?_⟩
  intro t ht
  rw [hbits2 t ht]
  by_cases hteq : 8 * j + t = k
  · rw [hteq, hflag]
    simp
  · congr 1
    simp only [decide_eq_decide]
    omega

theorem BitmapAt_succ_set {flags : Nat → Bool} {rc k : Nat} {arr : List Nat} {cur : Nat}
    (h : BitmapAt flags rc k arr) (hk : k < rc) (hcur : arr[k / 8]? = some cur)
    (hflag : flags k = true) :
    BitmapAt flags rc (k + 1) (arr.set (k / 8) (cur ||| 2 ^ (k % 8))) := by
  obtain ⟨hlen, hbits⟩ := h
  obtain ⟨hcb, hcbits⟩ := hbits (k / 8) cur hcur
  constructor
  · rw [List.length_set]
    exact hlen
  · intro j b hj
    by_cases hjk : k / 8 = j
    · subst hjk
      have hjl : k / 8 < arr.length := by
        by_contra hcon
        rw [List.getElem?_eq_none (by omega)] at hcur
        exact Option.noConfusion hcur
      rw [getElem?_set_self _ _ _ hjl] at hj
      cases hj
      constructor
      · have h2 : 2 ^ (k % 8) < 256 := by
          have : k % 8 ≤ 7 := by omega
          calc 2 ^ (k % 8) ≤ 2 ^ 7 := Nat.pow_le_pow_right (by norm_num) this
            _ < 256 := by norm_num
        calc cur ||| 2 ^ (k % 8) < 2 ^ 8 :=
              Nat.or_lt_two_pow (by norm_num at hcb ⊢; omega) (by norm_num at h2 ⊢; omega)
          _ = 256 := by norm_num
      · intro t ht
        rw [Nat.testBit_lor, hcbits t ht, Nat.testBit_two_pow]
        by_cases hteq : 8 * (k / 8) + t = k
        · have ht8 : k % 8 = t := by omega
          simp only [hteq, hflag, ht8]
          simp
        · have hne : k % 8 ≠ t := by omega
          simp only [decide_eq_false hne, Bool.or_false]
          congr 1
          simp only [decide_eq_decide]
          omega
    · rw [getElem?_set_ne _ _ _ _ hjk] at hj
      obtain ⟨hb, hbits2⟩ := hbits j b hj
      refine ⟨hb, ?_⟩
      intro t ht
      rw [hbits2 t ht]
      by_cases hteq : 8 * j + t = k
      · exfalso
        omega
      · congr 1
        simp only [decide_eq_decide]
        omega

theorem cumLen_succ (f : NamesRowVals → Option (List Nat)) (rows : List NamesRowVals) (i : Nat) :
    cumLen f rows (i + 1) = cumLen f rows i + optLen f rows i := by
  unfold cumLen
  rw [List.range_succ, List.map_append, List.sum_append]
  simp

theorem optLen_some {f : NamesRowVals → Option (List Nat)} {rows : List NamesRowVals} {i : Nat}
    {bs : List Nat} (h : (rows[i]?).bind f = some bs) : optLen f rows i = (bs.length : Int) := by
  unfold optLen
  rw [h]

theorem optLen_none {f : NamesRowVals → Option (List Nat)} {rows : List NamesRowVals} {i : Nat}
    (h : (rows[i]?).bind f = none) : optLen f rows i = 0 := by
  unfold optLen
  rw [h]

theorem optLen_nonneg (f : NamesRowVals → Option (List Nat)) (rows : List NamesRowVals) (i : Nat) :
    0 ≤ optLen f rows i := by
  unfold optLen
  cases (rows[i]?).bind f with
  | none => norm_num
  | some bs => positivity

theorem cumLen_nonneg (f : NamesRowVals → Option (List Nat)) (rows : List NamesRowVals) (i : Nat) :
    0 ≤ cumLen f rows i := by
  induction i with
  | zero => simp [cumLen]
  | succ i ih =>
    rw [cumLen_succ]
    have := optLen_nonneg f rows i
    omega

theorem cumLen_mono (f : NamesRowVals → Option (List Nat)) (rows : List NamesRowVals) (i : Nat) :
    cumLen f rows i ≤ cumLen f rows (i + 1) := by
  rw [cumLen_succ]
  have := optLen_nonneg f rows i
  omega

theorem cumLen_zero (f : NamesRowVals → Option (List Nat)) (rows : List NamesRowVals) :
    cumLen f rows 0 = 0 := by
  simp [cumLen]

/-!
### Encoded block decomposition
-/

theorem encBytesField_some_length (bs : List Nat) :
    (encBytesField (some bs)).length = 1 + (encodeLong (bs.length : Int)).length + bs.length := by
  simp [encBytesField, encodeLong_one]
  omega

theorem encBytesField_none_length : (encBytesField none).length = 1 := by
  simp [encBytesField, encodeLong_zero]

theorem encIntField_some_length (v : Int) :
    (encIntField (some v)).length = 1 + (encodeLong v).length := by
  simp [encIntField, encodeLong_one]
  omega

theorem encIntField_none_length : (encIntField none).length = 1 := by
  simp [encIntField, encodeLong_zero]

theorem namesRowStart_zero (rows : List NamesRowVals) : namesRowStart rows 0 = 0 := by
  simp [namesRowStart, encodeNames]

theorem encodeNames_append (xs ys : List NamesRowVals) :
    encodeNames (xs ++ ys) = encodeNames xs ++ encodeNames ys := by
  simp [encodeNames]

theorem rowAtN_getElem {rows : List NamesRowVals} {k : Nat} (hk : k < rows.length) :
    rows[k]? = some (rowAtN rows k) := by
  simp [rowAtN, List.getElem?_eq_getElem hk]

theorem encodeNames_single (r : NamesRowVals) : encodeNames [r] = encNamesRow r := by
  simp [encodeNames]

theorem namesRowStart_succ (rows : List NamesRowVals) (k : Nat) (hk : k < rows.length) :
    namesRowStart rows (k + 1) = namesRowStart rows k + (encNamesRow (rowAtN rows k)).length := by
  unfold namesRowStart
  rw [List.take_succ, List.getElem?_eq_getElem hk,
    show (some rows[k]).toList = [rows[k]] from rfl, encodeNames_append, List.length_append,
    encodeNames_single]
  congr 2
  simp [rowAtN, List.getElem?_eq_getElem hk]

theorem encodeNames_decompose (rows : List NamesRowVals) (k : Nat) (hk : k < rows.length) :
    encodeNames rows =
      encodeNames (rows.take k) ++
        (encNamesRow (rowAtN rows k) ++ encodeNames (rows.drop (k + 1))) := by
  conv_lhs => rw [← List.take_append_drop (k + 1) rows]
  rw [encodeNames_append, List.take_succ, List.getElem?_eq_getElem hk,
    show (some rows[k]).toList = [rows[k]] from rfl, encodeNames_append, encodeNames_single,
    List.append_assoc]
  congr 2
  simp [rowAtN, List.getElem?_eq_getElem hk]

theorem encodeNames_segAt (rows : List NamesRowVals) (rest : List Nat) (k : Nat)
    (hk : k < rows.length) :
    SegAt (encodeNames rows ++ rest) (namesRowStart rows k : Int)
      (encNamesRow (rowAtN rows k)) := by
  have hd := encodeNames_decompose rows k hk
  rw [hd, List.append_assoc]
  have h2 : (encNamesRow (rowAtN rows k) ++ encodeNames (rows.drop (k + 1))) ++ rest =
      encNamesRow (rowAtN rows k) ++ (encodeNames (rows.drop (k + 1)) ++ rest) := by
    simp
  rw [h2]
  exact SegAt_of_append _ _ _

theorem div8_lt_bitmapLen {k rc : Nat} (h : k < rc) : k / 8 < bitmapLen rc := by
  unfold bitmapLen
  by_cases h8 : rc % 8 ≠ 0
  · rw [if_pos h8]
    omega
  · rw [if_neg h8]
    omega

/-!
### Column-level step lemmas
-/

theorem bytesColStep (block : List Nat) (rows : List NamesRowVals) (k : Nat)
    (f : NamesRowVals → Option (List Nat)) (dStart : Nat)
    (offsets inputOffsets : List Int) (p0 : Int)
    (hk : k < rows.length) (hp0 : 0 ≤ p0)
    (hseg : SegAt block p0 (encBytesField (f (rowAtN rows k))))
    (hOffLen : offsets.length = rows.length + 1)
    (hOffk : offsets[k]? = some (cumLen f rows k))
    (hInLen : inputOffsets.length = rows.length * 2)
    (hds : (dStart : Int) = p0 + 1 + ((encodeLong (optLen f rows k)).length : Int)) :
    ∃ offsets2 inputOffsets2,
      bytesFieldStep block k p0 offsets inputOffsets =
        .ok (p0 + ((encBytesField (f (rowAtN rows k))).length : Int), offsets2, inputOffsets2) ∧
      offsets2.length = rows.length + 1 ∧
      (∀ i, i ≠ k + 1 → offsets2[i]? = offsets[i]?) ∧
      offsets2[k + 1]? = some (cumLen f rows (k + 1)) ∧
      inputOffsets2.length = rows.length * 2 ∧
      (∀ i, i ≠ 2 * k → i ≠ 2 * k + 1 → inputOffsets2[i]? = inputOffsets[i]?) ∧
      (∀ bs, f (rowAtN rows k) = some bs →
        inputOffsets2[2 * k]? = some (dStart : Int) ∧
        inputOffsets2[2 * k + 1]? = some ((dStart : Int) + bs.length)) := by
  have hrowk := rowAtN_getElem hk
  have hbind : (rows[k]?).bind f = f (rowAtN rows k) := by rw [hrowk, Option.some_bind]
  cases hfv : f (rowAtN rows k) with
  | none =>
    rw [hfv] at hseg
    have hstep := bytesFieldStep_null k offsets inputOffsets _ hp0 hseg hOffk (by omega)
    refine ⟨offsets.set (k + 1) (cumLen f rows k), inputOffsets, ?_, ?_, ?_, ?_, ?_, ?_, ?_⟩
    · rw [hstep, encBytesField_none_length]
      norm_num
    · rw [List.length_set]
      exact hOffLen
    · intro i hi
      exact getElem?_set_ne _ _ _ _ (by omega)
    · rw [getElem?_set_self _ _ _ (by omega), cumLen_succ,
        optLen_none (by rw [hbind, hfv])]
      norm_num
    · exact hInLen
    · intro i h1 h2
      rfl
    · intro bs hbs
      exact Option.noConfusion hbs
  | some bs =>
    rw [hfv] at hseg
    have hstep := bytesFieldStep_some k offsets inputOffsets _ bs hp0 hseg hOffk
      (by omega) (by omega)
    have hol : optLen f rows k = (bs.length : Int) := optLen_some (by rw [hbind, hfv])
    refine ⟨offsets.set (k + 1) (cumLen f rows k + bs.length),
      (inputOffsets.set (2 * k) (dStart : Int)).set (2 * k + 1) ((dStart : Int) + bs.length),
      ?_, ?_, ?_, ?_, ?_, ?_, ?_⟩
    · rw [hstep, encBytesField_some_length]
      have hd2 : (dStart : Int) = p0 + 1 + ((encodeLong (bs.length : Int)).length : Int) := by
        rw [hds, hol]
      rw [← hd2]
      have hpos : p0 + ((1 + (encodeLong (bs.length : Int)).length + bs.length : Nat) : Int) =
          (dStart : Int) + bs.length := by
        rw [hd2]
        push_cast
        ring
      rw [hpos]
    · rw [List.length_set]
      exact hOffLen
    · intro i hi
      exact getElem?_set_ne _ _ _ _ (by omega)
    · rw [getElem?_set_self _ _ _ (by omega), cumLen_succ, hol]
    · rw [List.length_set, List.length_set]
      exact hInLen
    · intro i h1 h2
      rw [getElem?_set_ne _ _ _ _ (by omega), getElem?_set_ne _ _ _ _ (by omega)]
    · intro bs2 hbs2
      cases hbs2
      constructor
      · rw [getElem?_set_ne _ _ _ _ (by omega), getElem?_set_self _ _ _ (by omega)]
      · rw [getElem?_set_self _ _ _ (by simp only [List.length_set]; omega)]

theorem intColStep (block : List Nat) (rows : List NamesRowVals) (k : Nat)
    (f : NamesRowVals → Option Int) (nm : List Nat) (data : List Int) (p0 : Int)
    (hk : k < rows.length) (hp0 : 0 ≤ p0)
    (hseg : SegAt block p0 (encIntField (f (rowAtN rows k))))
    (hNm : BitmapAt (optFlag f rows) rows.length k nm)
    (hDataLen : data.length = rows.length)
    (hDataVals : ∀ i v, i < k → (rows[i]?).bind f = some v → data[i]? = some v) :
    ∃ nm2 data2,
      intFieldStep block k (2 ^ (k % 8)) (k / 8) p0 nm data =
        .ok (p0 + ((encIntField (f (rowAtN rows k))).length : Int), nm2, data2) ∧
      BitmapAt (optFlag f rows) rows.length (k + 1) nm2 ∧
      data2.length = rows.length ∧
      (∀ i v, i < k + 1 → (rows[i]?).bind f = some v → data2[i]? = some v) := by
  have hrowk := rowAtN_getElem hk
  have hbind : (rows[k]?).bind f = f (rowAtN rows k) := by rw [hrowk, Option.some_bind]
  have hflag : optFlag f rows k = (f (rowAtN rows k)).isSome := by
    unfold optFlag
    rw [hbind]
  cases hfv : f (rowAtN rows k) with
  | none =>
    rw [hfv] at hseg
    refine ⟨nm, data, ?_, ?_, hDataLen, ?_⟩
    · rw [intFieldStep_null k _ _ nm data hp0 hseg, encIntField_none_length]
      norm_num
    · exact BitmapAt_succ_keep hNm (by rw [hflag, hfv]; rfl)
    · intro i v hi hv
      by_cases hik : i = k
      · subst hik
        rw [hbind, hfv] at hv
        exact Option.noConfusion hv
      · exact hDataVals i v (by omega) hv
  | some v =>
    rw [hfv] at hseg
    have hnbl : k / 8 < nm.length := by
      rw [hNm.1]
      exact div8_lt_bitmapLen hk
    obtain ⟨cur, hcur⟩ : ∃ cur, nm[k / 8]? = some cur := by
      rw [List.getElem?_eq_getElem hnbl]
      exact ⟨_, rfl⟩
    refine ⟨nm.set (k / 8) (cur ||| 2 ^ (k % 8)), data.set k v, ?_, ?_, ?_, ?_⟩
    · rw [intFieldStep_some k _ _ nm data v cur hp0 hseg hcur hnbl (by omega),
        encIntField_some_length]
      have : p0 + ((1 + (encodeLong v).length : Nat) : Int) =
          p0 + 1 + ((encodeLong v).length : Int) := by
        push_cast
        ring
      rw [this]
    · exact BitmapAt_succ_set hNm hk hcur (by rw [hflag, hfv]; rfl)
    · rw [List.length_set]
      exact hDataLen
    · intro i v2 hi hv
      by_cases hik : i = k
      · subst hik
        rw [hbind, hfv] at hv
        cases hv
        exact getElem?_set_self _ _ _ (by omega)
      · rw [getElem?_set_ne _ _ _ _ (by omega)]
        exact hDataVals i v2 (by omega) hv

theorem namesRow_step {rows : List NamesRowVals} {k : Nat} {s : NamesState} {block : List Nat}
    (hk : k < rows.length)
    (hseg : SegAt block (namesRowStart rows k : Int) (encNamesRow (rowAtN rows k)))
    (hinv : NamesInv rows k s) :
    ∃ s2, namesRow block k s = .ok s2 ∧ NamesInv rows (k + 1) s2 := by
  have hp0 : (0 : Int) ≤ (namesRowStart rows k : Int) := by omega
  rw [show encNamesRow (rowAtN rows k) =
      encBytesField (rowAtN rows k).state ++ (encBytesField (rowAtN rows k).gender ++
        (encIntField (rowAtN rows k).year ++ (encBytesField (rowAtN rows k).name ++
          encIntField (rowAtN rows k).number))) from by
      simp [encNamesRow, List.append_assoc], SegAt_append] at hseg
  obtain ⟨hsA, hrest⟩ := hseg
  rw [SegAt_append] at hrest
  obtain ⟨hsB, hrest⟩ := hrest
  rw [SegAt_append] at hrest
  obtain ⟨hsC, hrest⟩ := hrest
  rw [SegAt_append] at hrest
  obtain ⟨hsD, hsE⟩ := hrest
  obtain ⟨so2, si2, hstepA, hso2len, hso2ne, hso2k, hsi2len, hsi2ne, hsi2k⟩ :=
    bytesColStep block rows k NamesRowVals.state (stateDataStart rows k)
      s.state_offsets s.state_input_offsets _ hk hp0 hsA hinv.sOffLen
      (hinv.sOffVals k le_rfl) hinv.sInLen
      (by unfold stateDataStart; push_cast; ring)
  obtain ⟨go2, gi2, hstepB, hgo2len, hgo2ne, hgo2k, hgi2len, hgi2ne, hgi2k⟩ :=
    bytesColStep block rows k NamesRowVals.gender (genderDataStart rows k)
      s.gender_offsets s.gender_input_offsets _ hk (by positivity) hsB hinv.gOffLen
      (hinv.gOffVals k le_rfl) hinv.gInLen
      (by unfold genderDataStart; push_cast; ring)
  obtain ⟨ynm2, y2, hstepC, hynm2, hy2len, hy2vals⟩ :=
    intColStep block rows k NamesRowVals.year s.year_nullmask s.year _ hk (by positivity)
      hsC hinv.yNm hinv.yearLen hinv.yearVals
  obtain ⟨no2, ni2, hstepD, hno2len, hno2ne, hno2k, hni2len, hni2ne, hni2k⟩ :=
    bytesColStep block rows k NamesRowVals.name (nameDataStart rows k)
      s.name_offsets s.name_input_offsets _ hk (by positivity) hsD hinv.nOffLen
      (hinv.nOffVals k le_rfl) hinv.nInLen
      (by unfold nameDataStart; push_cast; ring)
  obtain ⟨nunm2, nu2, hstepE, hnunm2, hnu2len, hnu2vals⟩ :=
    intColStep block rows k NamesRowVals.number s.number_nullmask s.number _ hk (by positivity)
      hsE hinv.nuNm hinv.numberLen hinv.numberVals
  have hrun : namesRow block k s =
      .ok { position := (namesRowStart rows k : Int) +
              ((encBytesField (rowAtN rows k).state).length : Int) +
              ((encBytesField (rowAtN rows k).gender).length : Int) +
              ((encIntField (rowAtN rows k).year).length : Int) +
              ((encBytesField (rowAtN rows k).name).length : Int) +
              ((encIntField (rowAtN rows k).number).length : Int)
            nullmask := 2 ^ (k % 8)
            state_nullmask := s.state_nullmask
            gender_nullmask := s.gender_nullmask
            year_nullmask := ynm2
            name_nullmask := s.name_nullmask
            number_nullmask := nunm2
            state_input_offsets := si2
            gender_input_offsets := gi2
            name_input_offsets := ni2
            state_offsets := so2
            gender_offsets := go2
            name_offsets := no2
            year := y2
            number := nu2 } := by
    rw [namesRow]
    simp only [hinv.mask, rotate_maskAfter, hinv.pos]
    rw [hstepA]
    simp only [okBind]
    rw [hstepB]
    simp only [okBind]
    rw [hstepC]
    simp only [okBind]
    rw [hstepD]
    simp only [okBind]
    rw [hstepE]
    simp only [okBind]
  refine ⟨_, hrun, ?_⟩
  constructor
  case pos =>
    show (namesRowStart rows k : Int) + _ + _ + _ + _ + _ = (namesRowStart rows (k + 1) : Int)
    rw [namesRowStart_succ rows k hk,
      show (encNamesRow (rowAtN rows k)).length =
        (encBytesField (rowAtN rows k).state).length +
        (encBytesField (rowAtN rows k).gender).length +
        (encIntField (rowAtN rows k).year).length +
        (encBytesField (rowAtN rows k).name).length +
        (encIntField (rowAtN rows k).number).length from by simp [encNamesRow]; ring]
    push_cast
    ring
  case mask => rw [maskAfter_succ]
  case sNm => exact hinv.sNm
  case gNm => exact hinv.gNm
  case nNm => exact hinv.nNm
  case yNm => exact hynm2
  case nuNm => exact hnunm2
  case yearLen => exact hy2len
  case yearVals => exact hy2vals
  case numberLen => exact hnu2len
  case numberVals => exact hnu2vals
  case sOffLen => exact hso2len
  case sOffVals =>
    intro i hi
    by_cases hik : i = k + 1
    · subst hik
      exact hso2k
    · rw [hso2ne i hik]
      exact hinv.sOffVals i (by omega)
  case gOffLen => exact hgo2len
  case gOffVals =>
    intro i hi
    by_cases hik : i = k + 1
    · subst hik
      exact hgo2k
    · rw [hgo2ne i hik]
      exact hinv.gOffVals i (by omega)
  case nOffLen => exact hno2len
  case nOffVals =>
    intro i hi
    by_cases hik : i = k + 1
    · subst hik
      exact hno2k
    · rw [hno2ne i hik]
      exact hinv.nOffVals i (by omega)
  case sInLen => exact hsi2len
  case sInVals =>
    intro i bs hi hbs
    by_cases hik : i = k
    · subst hik
      exact hsi2k bs (by rwa [rowAtN_getElem hk, Option.some_bind] at hbs)
    · rw [hsi2ne (2 * i) (by omega) (by omega), hsi2ne (2 * i + 1) (by omega) (by omega)]
      exact hinv.sInVals i bs (by omega) hbs
  case gInLen => exact hgi2len
  case gInVals =>
    intro i bs hi hbs
    by_cases hik : i = k
    · subst hik
      exact hgi2k bs (by rwa [rowAtN_getElem hk, Option.some_bind] at hbs)
    · rw [hgi2ne (2 * i) (by omega) (by omega), hgi2ne (2 * i + 1) (by omega) (by omega)]
      exact hinv.gInVals i bs (by omega) hbs
  case nInLen => exact hni2len
  case nInVals =>
    intro i bs hi hbs
    by_cases hik : i = k
    · subst hik
      exact hni2k bs (by rwa [rowAtN_getElem hk, Option.some_bind] at hbs)
    · rw [hni2ne (2 * i) (by omega) (by omega), hni2ne (2 * i + 1) (by omega) (by omega)]
      exact hinv.nInVals i bs (by omega) hbs

theorem namesLoop_inv (rows : List NamesRowVals) (rest : List Nat) :
    ∀ (m k : Nat) (s : NamesState), k + m ≤ rows.length → NamesInv rows k s →
      ∃ s2, namesLoop (encodeNames rows ++ rest) m k s = .ok s2 ∧
        NamesInv rows (k + m) s2 := by
  intro m
  induction m with
  | zero =>
    intro k s hk hinv
    exact ⟨s, rfl, by simpa using hinv⟩
  | succ m ih =>
    intro k s hk hinv
    obtain ⟨s2, hrow, hinv2⟩ :=
      namesRow_step (by omega) (encodeNames_segAt rows rest k (by omega)) hinv
    rw [namesLoop, hrow, okBind]
    obtain ⟨s3, hloop, hinv3⟩ := ih (k + 1) s2 (by omega) hinv2
    exact ⟨s3, hloop, by rwa [show k + 1 + m = k + (m + 1) from by omega] at hinv3⟩

theorem namesInit_inv (g : Nat → Nat → Int) (rows : List NamesRowVals) :
    ∃ s0, namesInit g rows.length = .ok s0 ∧ NamesInv rows 0 s0 := by
  have hw : ∀ id : Nat, writeArrEx (emptyIntArr g id (rows.length + 1)) (0 : Int) 0 =
      .ok ((emptyIntArr g id (rows.length + 1)).set 0 0) := by
    intro id
    have h := writeArrEx_lt (emptyIntArr g id (rows.length + 1)) 0 0
      (by simp [emptyIntArr])
    simpa using h
  have hinit : namesInit g rows.length =
      .ok { position := 0
            nullmask := 0
            state_nullmask := _make_bitarray rows.length
            gender_nullmask := _make_bitarray rows.length
            year_nullmask := _make_bitarray rows.length
            name_nullmask := _make_bitarray rows.length
            number_nullmask := _make_bitarray rows.length
            state_input_offsets := emptyIntArr g 0 (rows.length * 2)
            gender_input_offsets := emptyIntArr g 1 (rows.length * 2)
            name_input_offsets := emptyIntArr g 2 (rows.length * 2)
            state_offsets := (emptyIntArr g 3 (rows.length + 1)).set 0 0
            gender_offsets := (emptyIntArr g 4 (rows.length + 1)).set 0 0
            name_offsets := (emptyIntArr g 5 (rows.length + 1)).set 0 0
            year := emptyIntArr g 6 rows.length
            number := emptyIntArr g 7 rows.length } := by
    rw [namesInit, hw 3, okBind, hw 4, okBind, hw 5, okBind]
  refine ⟨_, hinit, ?_⟩
  · constructor
    case pos => rw [namesRowStart_zero]; rfl
    case mask => rfl
    case sNm => rfl
    case gNm => rfl
    case nNm => rfl
    case yNm => exact BitmapAt_zero _ _
    case nuNm => exact BitmapAt_zero _ _
    case yearLen => simp [emptyIntArr]
    case yearVals => intro i v hi; omega
    case numberLen => simp [emptyIntArr]
    case numberVals => intro i v hi; omega
    case sOffLen => simp [emptyIntArr]
    case sOffVals =>
      intro i hi
      have hi0 : i = 0 := by omega
      subst hi0
      rw [getElem?_set_self _ _ _ (by simp [emptyIntArr]), cumLen_zero]
    case gOffLen => simp [emptyIntArr]
    case gOffVals =>
      intro i hi
      have hi0 : i = 0 := by omega
      subst hi0
      rw [getElem?_set_self _ _ _ (by simp [emptyIntArr]), cumLen_zero]
    case nOffLen => simp [emptyIntArr]
    case nOffVals =>
      intro i hi
      have hi0 : i = 0 := by omega
      subst hi0
      rw [getElem?_set_self _ _ _ (by simp [emptyIntArr]), cumLen_zero]
    case sInLen => simp [emptyIntArr]
    case sInVals => intro i bs hi; omega
    case gInLen => simp [emptyIntArr]
    case gInVals => intro i bs hi; omega
    case nInLen => simp [emptyIntArr]
    case nInVals => intro i bs hi; omega

theorem avro_df_names_run (g : Nat → Nat → Int) (rows : List NamesRowVals) (rest : List Nat) :
    ∃ s, PandasHelpers._avro_df g rows.length (encodeNames rows ++ rest) =
        .ok { state_nullmask := s.state_nullmask
              state_offsets := s.state_offsets
              state_data := none
              gender_nullmask := s.gender_nullmask
              gender_offsets := s.gender_offsets
              gender_data := none
              year_nullmask := s.year_nullmask
              year := s.year
              name_nullmask := s.name_nullmask
              name_offsets := s.name_offsets
              name_data := none
              number_nullmask := s.number_nullmask
              number := s.number } ∧
      NamesInv rows rows.length s := by
  obtain ⟨s0, hinit, hinv0⟩ := namesInit_inv g rows
  obtain ⟨s2, hloop, hinv⟩ := namesLoop_inv rows rest rows.length 0 s0 (by omega) hinv0
  refine ⟨s2, ?_, by simpa using hinv⟩
  rw [PandasHelpers._avro_df, hinit, okBind, hloop, okBind]

theorem offsetsSpec_of_inv {f : NamesRowVals → Option (List Nat)} {rows : List NamesRowVals}
    {offsets : List Int}
    (hvals : ∀ i, i ≤ rows.length → offsets[i]? = some (cumLen f rows i)) :
    OffsetsSpec f rows offsets none := by
  refine ⟨?_, ?_, ?_, ?_, ?_, rfl⟩
  · have h := hvals 0 (by omega)
    rwa [cumLen_zero] at h
  · intro i bs hi hbs
    rw [hvals (i + 1) (by omega), cumLen_succ, optLen_some hbs]
  · intro i hi hn
    rw [hvals (i + 1) (by omega), cumLen_succ, optLen_none hn]
    norm_num
  · intro i hi
    exact ⟨_, _, hvals i (by omega), hvals (i + 1) (by omega), cumLen_mono f rows i⟩
  · exact hvals rows.length le_rfl

/-- C5 amended: on every wire-format-encoded block, for each of the
three Bytes columns of `_pandas_helpers._avro_df`: `offsets[0] = 0`;
`offsets[i+1] = offsets[i] + L_i` for a present row of byte-run length
`L_i` and `offsets[i+1] = offsets[i]` for a null row; the offsets are
monotone non-decreasing; and `offsets[row_count]` is the total length
of the rows' byte runs — the length of the data buffer a materializer
pass would build.  The decode itself returns no data buffer (the data
component is `none`).  On arbitrary (non-wire-format) blocks
monotonicity can fail, because a byte-run length can decode negative
with no check (see the counterexample). -/
theorem claim5_amended (g : Nat → Nat → Int) (rows : List NamesRowVals) (rest : List Nat) :
    ∃ o, PandasHelpers._avro_df g rows.length (encodeNames rows ++ rest) = .ok o ∧
      OffsetsSpec NamesRowVals.state rows o.state_offsets o.state_data ∧
      OffsetsSpec NamesRowVals.gender rows o.gender_offsets o.gender_data ∧
      OffsetsSpec NamesRowVals.name rows o.name_offsets o.name_data := by
  obtain ⟨s, hrun, hinv⟩ := avro_df_names_run g rows rest
  exact ⟨_, hrun, offsetsSpec_of_inv hinv.sOffVals, offsetsSpec_of_inv hinv.gOffVals,
    offsetsSpec_of_inv hinv.nOffVals⟩

theorem claim5_amended_witness :
    ∃ o, PandasHelpers._avro_df (fun _ _ => 0) ([⟨some [104, 105], none, none, none, none⟩] :
        List NamesRowVals).length
        (encodeNames [⟨some [104, 105], none, none, none, none⟩] ++ []) = .ok o ∧
      OffsetsSpec NamesRowVals.state [⟨some [104, 105], none, none, none, none⟩]
        o.state_offsets o.state_data ∧
      OffsetsSpec NamesRowVals.gender [⟨some [104, 105], none, none, none, none⟩]
        o.gender_offsets o.gender_data ∧
      OffsetsSpec NamesRowVals.name [⟨some [104, 105], none, none, none, none⟩]
        o.name_offsets o.name_data :=
  claim5_amended (fun _ _ => 0) [⟨some [104, 105], none, none, none, none⟩] []

theorem read_boolean_advances {block : List Nat} {p p2 : Int} {b : Nat}
    (h : _read_boolean p block = .ok (p2, b)) : p < p2 := by
  rw [_read_boolean] at h
  cases hq : pyGet block p with
  | none =>
    rw [readBlockByte_none hq, errBind] at h
    exact Except.noConfusion h
  | some b0 =>
    rw [readBlockByte_some hq, okBind] at h
    simp at h
    omega

theorem namesRowStart_mono (rows : List NamesRowVals) (k : Nat) (hk : k < rows.length) :
    namesRowStart rows k ≤ namesRowStart rows (k + 1) := by
  rw [namesRowStart_succ rows k hk]
  omega

/-- C9 amended: every primitive read (`_read_long`, `_read_double`,
`_read_boolean`) returns a position strictly greater than its input
position.  The skip past a byte-run's `L` raw bytes, however, is
`position + L` with no sign check, so the cursor can move backward
when `L` decodes negative (see the counterexample); on every
wire-format-encoded block the cursor never moves backward: after `k`
rows it sits exactly at the end of the `k`-th row's encoding, a
quantity non-decreasing in `k`. -/
theorem claim9_amended :
    (∀ (block : List Nat) (p p2 v : Int), _read_long p block = .ok (p2, v) → p < p2) ∧
    (∀ (block : List Nat) (p p2 : Int) (w : Nat),
      0 ≤ p → _read_double p block = .ok (p2, w) → p < p2) ∧
    (∀ (block : List Nat) (p p2 : Int) (b : Nat), _read_boolean p block = .ok (p2, b) → p < p2) ∧
    (∀ (g : Nat → Nat → Int) (rows : List NamesRowVals) (k : Nat), k ≤ rows.length →
      ∃ s0 s2, namesInit g rows.length = .ok s0 ∧
        namesLoop (encodeNames rows) k 0 s0 = .ok s2 ∧
        s2.position = (namesRowStart rows k : Int)) ∧
    (∀ (rows : List NamesRowVals) (k : Nat), k < rows.length →
      namesRowStart rows k ≤ namesRowStart rows (k + 1)) := by
  refine ⟨fun block p p2 v h => read_long_advances h,
    fun block p p2 w hp h => ?_,
    fun block p p2 b h => read_boolean_advances h,
    fun g rows k hk => ?_, namesRowStart_mono⟩
  · have h2 := read_double_ok_le h hp
    omega
  · obtain ⟨s0, hinit, hinv0⟩ := namesInit_inv g rows
    obtain ⟨s2, hloop, hinv⟩ := namesLoop_inv rows [] k 0 s0 (by omega) hinv0
    rw [List.append_nil] at hloop
    exact ⟨s0, s2, hinit, hloop, by simpa using hinv.pos⟩

theorem claim9_amended_witness : _read_long 0 [0] = .ok (1, 0) ∧ (0 : Int) < 1 :=
  ⟨rfl, claim9_amended.1 [0] 0 1 0 rfl⟩

/-!
### Truncation machinery (claim C4)
-/

theorem SegAt_seg_take {block seg : List Nat} {p : Int} (h : SegAt block p seg) (c : Nat) :
    SegAt block p (seg.take c) := by
  intro j hj
  rw [List.length_take] at hj
  rw [List.getElem?_take, if_pos (by omega)]
  exact h j (by omega)

theorem namesRowStart_le (rows : List NamesRowVals) (k : Nat) :
    namesRowStart rows k ≤ (encodeNames rows).length := by
  unfold namesRowStart
  conv_rhs => rw [← List.take_append_drop k rows]
  rw [encodeNames_append, List.length_append]
  omega

theorem namesRowStart_full (rows : List NamesRowVals) :
    namesRowStart rows rows.length = (encodeNames rows).length := by
  unfold namesRowStart
  rw [List.take_length]

theorem intFieldStep_oob {block : List Nat} {p : Int} (i nullmask nullbyte : Nat)
    (nm : List Nat) (data : List Int) (h : (block.length : Int) ≤ p) :
    intFieldStep block i nullmask nullbyte p nm data = .error .truncatedInput := by
  rw [intFieldStep, read_long_oob h, errBind]

theorem bytesFieldStep_oob {block : List Nat} {p : Int} (i : Nat)
    (offsets inputOffsets : List Int) (h : (block.length : Int) ≤ p) :
    bytesFieldStep block i p offsets inputOffsets = .error .truncatedInput := by
  rw [bytesFieldStep, read_long_oob h, errBind]

theorem encodeLong_as_varint (v : Int) : encodeLong v = varintEncode (zigzagEncode v) := rfl

theorem intFieldStep_cut {block : List Nat} {p : Int} {c : Nat} (i nullmask nullbyte : Nat)
    (nm : List Nat) (data : List Int) (ov : Option Int)
    (hp : 0 ≤ p) (hc : c < (encIntField ov).length)
    (hseg : SegAt block p ((encIntField ov).take c))
    (hend : (block.length : Int) = p + c)
    (hnbl : nullbyte < nm.length) :
    intFieldStep block i nullmask nullbyte p nm data = .error .truncatedInput := by
  cases ov with
  | none =>
    rw [encIntField_none_length] at hc
    have hc0 : c = 0 := by omega
    subst hc0
    exact intFieldStep_oob _ _ _ _ _ (by omega)
  | some v =>
    cases c with
    | zero => exact intFieldStep_oob _ _ _ _ _ (by omega)
    | succ c' =>
      have hform : encIntField (some v) = [2] ++ encodeLong v := by
        show encodeLong 1 ++ encodeLong v = _
        rw [encodeLong_one]
      rw [hform] at hseg hc
      have htake : ([2] ++ encodeLong v).take (c' + 1) = [2] ++ (encodeLong v).take c' := by
        rw [List.take_append_eq_append_take]
        norm_num
      rw [htake, SegAt_append] at hseg
      obtain ⟨hstag, hsval⟩ := hseg
      have htag : _read_long p block = .ok (p + 1, 1) := by
        have h := read_long_encoded 1 hp (by rw [encodeLong_one]; exact hstag)
        rw [encodeLong_one_length] at h
        simpa using h
      rw [intFieldStep, htag]
      simp only [okBind]
      rw [if_pos (by norm_num)]
      obtain ⟨cur, hcur⟩ : ∃ cur, nm[nullbyte]? = some cur := by
        rw [List.getElem?_eq_getElem hnbl]
        exact ⟨_, rfl⟩
      rw [readArrEx_some _ _ _ hcur]
      simp only [okBind]
      rw [writeArrEx_lt _ _ _ hnbl]
      simp only [okBind]
      have hcut : _read_long (p + 1) block = .error .truncatedInput := by
        apply read_long_cut (n := zigzagEncode v) (c := c') (by omega)
          (by rw [← encodeLong_as_varint]; simp only [List.length_append, List.length_cons,
            List.length_nil] at hc; omega)
          (by rw [← encodeLong_as_varint]; simpa using hsval)
          (by push_cast at hend ⊢; omega)
      rw [hcut, errBind]

theorem bytesFieldStep_run {block : List Nat} {p : Int} (i : Nat)
    (offsets inputOffsets : List Int) (off : Int) (L : Int)
    (hp : 0 ≤ p)
    (hstag : SegAt block p (encodeLong 1))
    (hslen : SegAt block (p + 1) (encodeLong L))
    (hoff : offsets[i]? = some off) (hol : i + 1 < offsets.length)
    (hil : 2 * i + 1 < inputOffsets.length) :
    bytesFieldStep block i p offsets inputOffsets =
      .ok (p + 1 + ((encodeLong L).length : Int) + L,
        offsets.set (i + 1) (off + L),
        (inputOffsets.set (2 * i) (p + 1 + ((encodeLong L).length : Int))).set
          (2 * i + 1) (p + 1 + ((encodeLong L).length : Int) + L)) := by
  have htag : _read_long p block = .ok (p + 1, 1) := by
    have h := read_long_encoded 1 hp hstag
    rw [encodeLong_one_length] at h
    simpa using h
  have hval : _read_long (p + 1) block =
      .ok (p + 1 + ((encodeLong L).length : Int), L) :=
    read_long_encoded _ (by omega) hslen
  rw [bytesFieldStep, htag]
  simp only [okBind]
  rw [if_neg (by norm_num), hval]
  simp only [okBind]
  rw [show 2 * ((i : Nat) : Int) = ((2 * i : Nat) : Int) from by push_cast; ring,
    writeArrEx_lt _ _ _ (by omega)]
  simp only [okBind]
  rw [show ((2 * i : Nat) : Int) + 1 = ((2 * i + 1 : Nat) : Int) from by push_cast; ring,
    writeArrEx_lt _ _ _ (by simpa using hil)]
  simp only [okBind]
  rw [readArrEx_some _ _ _ (by simpa using hoff)]
  simp only [okBind]
  rw [show ((i : Nat) : Int) + 1 = ((i + 1 : Nat) : Int) from by push_cast; ring,
    writeArrEx_lt _ _ _ (by simpa using hol)]
  simp only [okBind]

theorem bytesFieldStep_cut {block : List Nat} {p : Int} {c : Nat} (i : Nat)
    (offsets inputOffsets : List Int) (fv : Option (List Nat)) (off : Int)
    (hp : 0 ≤ p) (hc : c < (encBytesField fv).length)
    (hseg : SegAt block p ((encBytesField fv).take c))
    (hend : (block.length : Int) = p + c)
    (hoff : offsets[i]? = some off) (hol : i + 1 < offsets.length)
    (hil : 2 * i + 1 < inputOffsets.length) :
    bytesFieldStep block i p offsets inputOffsets = .error .truncatedInput ∨
      ∃ o2 i2, bytesFieldStep block i p offsets inputOffsets =
        .ok (p + ((encBytesField fv).length : Int), o2, i2) ∧
        (block.length : Int) < p + ((encBytesField fv).length : Int) := by
  cases fv with
  | none =>
    left
    rw [encBytesField_none_length] at hc
    have hc0 : c = 0 := by omega
    subst hc0
    exact bytesFieldStep_oob _ _ _ (by omega)
  | some bs =>
    cases c with
    | zero =>
      left
      exact bytesFieldStep_oob _ _ _ (by omega)
    | succ c' =>
      have hform : encBytesField (some bs) = [2] ++ (encodeLong (bs.length : Int) ++ bs) := by
        show encodeLong 1 ++ encodeLong (bs.length : Int) ++ bs = _
        rw [encodeLong_one, List.append_assoc]
      rw [hform] at hseg hc
      have htake : ([2] ++ (encodeLong (bs.length : Int) ++ bs)).take (c' + 1) =
          [2] ++ (encodeLong (bs.length : Int) ++ bs).take c' := by
        rw [List.take_append_eq_append_take]
        norm_num
      rw [htake, SegAt_append] at hseg
      obtain ⟨hstag, hsrest⟩ := hseg
      have hstag2 : SegAt block p (encodeLong 1) := by rw [encodeLong_one]; exact hstag
      by_cases hcase : c' < (encodeLong (bs.length : Int)).length
      · left
        have htake2 : (encodeLong (bs.length : Int) ++ bs).take c' =
            (encodeLong (bs.length : Int)).take c' := by
          rw [List.take_append_eq_append_take, show c' - (encodeLong (bs.length : Int)).length = 0
            from by omega, List.take_zero, List.append_nil]
        rw [htake2] at hsrest
        have htag : _read_long p block = .ok (p + 1, 1) := by
          have h := read_long_encoded 1 hp hstag2
          rw [encodeLong_one_length] at h
          simpa using h
        rw [bytesFieldStep, htag]
        simp only [okBind]
        rw [if_neg (by norm_num)]
        have hcut : _read_long (p + 1) block = .error .truncatedInput := by
          apply read_long_cut (n := zigzagEncode (bs.length : Int)) (c := c') (by omega)
            (by rw [← encodeLong_as_varint]; omega)
            (by rw [← encodeLong_as_varint]; simpa using hsrest)
            (by push_cast at hend ⊢; omega)
        rw [hcut, errBind]
      · right
        have htake3 : (encodeLong (bs.length : Int) ++ bs).take c' =
            encodeLong (bs.length : Int) ++ bs.take (c' - (encodeLong (bs.length : Int)).length) := by
          rw [List.take_append_eq_append_take, List.take_of_length_le (by omega)]
        rw [htake3, SegAt_append] at hsrest
        obtain ⟨hslen, _⟩ := hsrest
        have hslen2 : SegAt block (p + 1) (encodeLong (bs.length : Int)) := by
          simpa using hslen
        have hrun := bytesFieldStep_run i offsets inputOffsets off (bs.length : Int)
          hp hstag2 hslen2 hoff hol hil
        have hposeq : p + ((encBytesField (some bs)).length : Int) =
            p + 1 + ((encodeLong (bs.length : Int)).length : Int) + (bs.length : Int) := by
          rw [hform]
          simp only [List.length_append, List.length_cons, List.length_nil]
          push_cast
          ring
        refine ⟨offsets.set (i + 1) (off + (bs.length : Int)),
          (inputOffsets.set (2 * i) (p + 1 + ((encodeLong (bs.length : Int)).length : Int))).set
            (2 * i + 1) (p + 1 + ((encodeLong (bs.length : Int)).length : Int) + (bs.length : Int)),
          ?_, ?_⟩
        · rw [hposeq]
          exact hrun
        · rw [hposeq]
          simp only [List.length_append, List.length_cons, List.length_nil] at hc
          push_cast at hend ⊢
          omega

theorem namesRow_cut {rows : List NamesRowVals} {k t : Nat} {s : NamesState}
    (hk : k < rows.length) (hinv : NamesInv rows k s)
    (ht1 : namesRowStart rows k ≤ t) (ht2 : t < namesRowStart rows (k + 1)) :
    namesRow ((encodeNames rows).take t) k s = .error .truncatedInput := by
  have hsucc := namesRowStart_succ rows k hk
  have hle : namesRowStart rows (k + 1) ≤ (encodeNames rows).length :=
    namesRowStart_le rows (k + 1)
  have hblen : ((encodeNames rows).take t).length = t := by
    rw [List.length_take]
    omega
  have hlen5 : (encNamesRow (rowAtN rows k)).length =
      (encBytesField (rowAtN rows k).state).length +
      (encBytesField (rowAtN rows k).gender).length +
      (encIntField (rowAtN rows k).year).length +
      (encBytesField (rowAtN rows k).name).length +
      (encIntField (rowAtN rows k).number).length := by
    simp [encNamesRow]
    ring
  have hsFull : SegAt (encodeNames rows) (namesRowStart rows k : Int)
      (encNamesRow (rowAtN rows k)) := by
    have h := encodeNames_segAt rows [] k hk
    rwa [List.append_nil] at h
  rw [show encNamesRow (rowAtN rows k) =
      encBytesField (rowAtN rows k).state ++ (encBytesField (rowAtN rows k).gender ++
        (encIntField (rowAtN rows k).year ++ (encBytesField (rowAtN rows k).name ++
          encIntField (rowAtN rows k).number))) from by
      simp [encNamesRow, List.append_assoc], SegAt_append] at hsFull
  obtain ⟨hsA, hrest⟩ := hsFull
  rw [SegAt_append] at hrest
  obtain ⟨hsB, hrest⟩ := hrest
  rw [SegAt_append] at hrest
  obtain ⟨hsC, hrest⟩ := hrest
  rw [SegAt_append] at hrest
  obtain ⟨hsD, hsE⟩ := hrest
  rw [namesRow]
  simp only [hinv.mask, rotate_maskAfter, hinv.pos]
  by_cases h1 : t < namesRowStart rows k + (encBytesField (rowAtN rows k).state).length
  · have hcA : t - namesRowStart rows k < (encBytesField (rowAtN rows k).state).length := by
      omega
    have hsegA : SegAt ((encodeNames rows).take t) (namesRowStart rows k : Int)
        ((encBytesField (rowAtN rows k).state).take (t - namesRowStart rows k)) := by
      apply SegAt_take (by omega) (SegAt_seg_take hsA (t - namesRowStart rows k))
      rw [List.length_take]
      push_cast
      omega
    have hendA : ((((encodeNames rows).take t).length : Nat) : Int) =
        (namesRowStart rows k : Int) + ((t - namesRowStart rows k : Nat) : Int) := by
      rw [hblen]
      push_cast
      omega
    rcases bytesFieldStep_cut k s.state_offsets s.state_input_offsets (rowAtN rows k).state
        (cumLen NamesRowVals.state rows k) (by omega) hcA hsegA hendA
        (hinv.sOffVals k le_rfl) (by rw [hinv.sOffLen]; omega) (by rw [hinv.sInLen]; omega)
      with herr | ⟨o2, i2, hok, hover⟩
    · rw [herr, errBind]
    · rw [hok]
      simp only [okBind]
      rw [bytesFieldStep_oob _ _ _ (le_of_lt hover), errBind]
  · obtain ⟨so2, si2, hstepA, _, _, _, _, _, _⟩ :=
      bytesColStep ((encodeNames rows).take t) rows k NamesRowVals.state
        (stateDataStart rows k) s.state_offsets s.state_input_offsets _ hk (by omega)
        (SegAt_take (by omega) hsA (by push_cast; omega)) hinv.sOffLen
        (hinv.sOffVals k le_rfl) hinv.sInLen (by unfold stateDataStart; push_cast; ring)
    rw [hstepA]
    simp only [okBind]
    by_cases h2 : t < namesRowStart rows k + (encBytesField (rowAtN rows k).state).length +
        (encBytesField (rowAtN rows k).gender).length
    · have hcB : t - (namesRowStart rows k + (encBytesField (rowAtN rows k).state).length) <
          (encBytesField (rowAtN rows k).gender).length := by omega
      have hsegB : SegAt ((encodeNames rows).take t)
          ((namesRowStart rows k : Int) + ((encBytesField (rowAtN rows k).state).length : Int))
          ((encBytesField (rowAtN rows k).gender).take
            (t - (namesRowStart rows k + (encBytesField (rowAtN rows k).state).length))) := by
        apply SegAt_take (by positivity) (SegAt_seg_take hsB _)
        rw [List.length_take]
        push_cast
        omega
      have hendB : ((((encodeNames rows).take t).length : Nat) : Int) =
          (namesRowStart rows k : Int) + ((encBytesField (rowAtN rows k).state).length : Int) +
            ((t - (namesRowStart rows k + (encBytesField (rowAtN rows k).state).length) :
              Nat) : Int) := by
        rw [hblen]
        push_cast
        omega
      rcases bytesFieldStep_cut k s.gender_offsets s.gender_input_offsets (rowAtN rows k).gender
          (cumLen NamesRowVals.gender rows k) (by positivity) hcB hsegB hendB
          (hinv.gOffVals k le_rfl) (by rw [hinv.gOffLen]; omega) (by rw [hinv.gInLen]; omega)
        with herr | ⟨o2, i2, hok, hover⟩
      · rw [herr, errBind]
      · rw [hok]
        simp only [okBind]
        rw [intFieldStep_oob _ _ _ _ _ (le_of_lt hover), errBind]
    · obtain ⟨go2, gi2, hstepB, _, _, _, _, _, _⟩ :=
        bytesColStep ((encodeNames rows).take t) rows k NamesRowVals.gender
          (genderDataStart rows k) s.gender_offsets s.gender_input_offsets _ hk (by positivity)
          (SegAt_take (by positivity) hsB (by push_cast; omega)) hinv.gOffLen
          (hinv.gOffVals k le_rfl) hinv.gInLen (by unfold genderDataStart; push_cast; ring)
      rw [hstepB]
      simp only [okBind]
      by_cases h3 : t < namesRowStart rows k + (encBytesField (rowAtN rows k).state).length +
          (encBytesField (rowAtN rows k).gender).length +
          (encIntField (rowAtN rows k).year).length
      · have hcC : t - (namesRowStart rows k + (encBytesField (rowAtN rows k).state).length +
            (encBytesField (rowAtN rows k).gender).length) <
            (encIntField (rowAtN rows k).year).length := by omega
        have hsegC : SegAt ((encodeNames rows).take t)
            ((namesRowStart rows k : Int) + ((encBytesField (rowAtN rows k).state).length : Int) +
              ((encBytesField (rowAtN rows k).gender).length : Int))
            ((encIntField (rowAtN rows k).year).take
              (t - (namesRowStart rows k + (encBytesField (rowAtN rows k).state).length +
                (encBytesField (rowAtN rows k).gender).length))) := by
          apply SegAt_take (by positivity) (SegAt_seg_take hsC _)
          rw [List.length_take]
          push_cast
          omega
        have hendC : ((((encodeNames rows).take t).length : Nat) : Int) =
            (namesRowStart rows k : Int) + ((encBytesField (rowAtN rows k).state).length : Int) +
              ((encBytesField (rowAtN rows k).gender).length : Int) +
              ((t - (namesRowStart rows k + (encBytesField (rowAtN rows k).state).length +
                (encBytesField (rowAtN rows k).gender).length) : Nat) : Int) := by
          rw [hblen]
          push_cast
          omega
        rw [intFieldStep_cut k (2 ^ (k % 8)) (k / 8) s.year_nullmask s.year (rowAtN rows k).year
          (by positivity) hcC hsegC hendC (by rw [hinv.yNm.1]; exact div8_lt_bitmapLen hk),
          errBind]
      · obtain ⟨ynm2, y2, hstepC, _, _, _⟩ :=
          intColStep ((encodeNames rows).take t) rows k NamesRowVals.year s.year_nullmask
            s.year _ hk (by positivity)
            (SegAt_take (by positivity) hsC (by push_cast; omega))
            hinv.yNm hinv.yearLen hinv.yearVals
        rw [hstepC]
        simp only [okBind]
        by_cases h4 : t < namesRowStart rows k + (encBytesField (rowAtN rows k).state).length +
            (encBytesField (rowAtN rows k).gender).length +
            (encIntField (rowAtN rows k).year).length +
            (encBytesField (rowAtN rows k).name).length
        · have hcD : t - (namesRowStart rows k + (encBytesField (rowAtN rows k).state).length +
              (encBytesField (rowAtN rows k).gender).length +
              (encIntField (rowAtN rows k).year).length) <
              (encBytesField (rowAtN rows k).name).length := by omega
          have hsegD : SegAt ((encodeNames rows).take t)
              ((namesRowStart rows k : Int) +
                ((encBytesField (rowAtN rows k).state).length : Int) +
                ((encBytesField (rowAtN rows k).gender).length : Int) +
                ((encIntField (rowAtN rows k).year).length : Int))
              ((encBytesField (rowAtN rows k).name).take
                (t - (namesRowStart rows k + (encBytesField (rowAtN rows k).state).length +
                  (encBytesField (rowAtN rows k).gender).length +
                  (encIntField (rowAtN rows k).year).length))) := by
            apply SegAt_take (by positivity) (SegAt_seg_take hsD _)
            rw [List.length_take]
            push_cast
            omega
          have hendD : ((((encodeNames rows).take t).length : Nat) : Int) =
              (namesRowStart rows k : Int) +
                ((encBytesField (rowAtN rows k).state).length : Int) +
                ((encBytesField (rowAtN rows k).gender).length : Int) +
                ((encIntField (rowAtN rows k).year).length : Int) +
                ((t - (namesRowStart rows k + (encBytesField (rowAtN rows k).state).length +
                  (encBytesField (rowAtN rows k).gender).length +
                  (encIntField (rowAtN rows k).year).length) : Nat) : Int) := by
            rw [hblen]
            push_cast
            omega
          rcases bytesFieldStep_cut k s.name_offsets s.name_input_offsets (rowAtN rows k).name
              (cumLen NamesRowVals.name rows k) (by positivity) hcD hsegD hendD
              (hinv.nOffVals k le_rfl) (by rw [hinv.nOffLen]; omega)
              (by rw [hinv.nInLen]; omega)
            with herr | ⟨o2, i2, hok, hover⟩
          · rw [herr, errBind]
          · rw [hok]
            simp only [okBind]
            rw [intFieldStep_oob _ _ _ _ _ (le_of_lt hover), errBind]
        · obtain ⟨no2, ni2, hstepD, _, _, _, _, _, _⟩ :=
            bytesColStep ((encodeNames rows).take t) rows k NamesRowVals.name
              (nameDataStart rows k) s.name_offsets s.name_input_offsets _ hk (by positivity)
              (SegAt_take (by positivity) hsD (by push_cast; omega)) hinv.nOffLen
              (hinv.nOffVals k le_rfl) hinv.nInLen (by unfold nameDataStart; push_cast; ring)
          rw [hstepD]
          simp only [okBind]
          have hcE : t - (namesRowStart rows k + (encBytesField (rowAtN rows k).state).length +
              (encBytesField (rowAtN rows k).gender).length +
              (encIntField (rowAtN rows k).year).length +
              (encBytesField (rowAtN rows k).name).length) <
              (encIntField (rowAtN rows k).number).length := by omega
          have hsegE : SegAt ((encodeNames rows).take t)
              ((namesRowStart rows k : Int) +
                ((encBytesField (rowAtN rows k).state).length : Int) +
                ((encBytesField (rowAtN rows k).gender).length : Int) +
                ((encIntField (rowAtN rows k).year).length : Int) +
                ((encBytesField (rowAtN rows k).name).length : Int))
              ((encIntField (rowAtN rows k).number).take
                (t - (namesRowStart rows k + (encBytesField (rowAtN rows k).state).length +
                  (encBytesField (rowAtN rows k).gender).length +
                  (encIntField (rowAtN rows k).year).length +
                  (encBytesField (rowAtN rows k).name).length))) := by
            apply SegAt_take (by positivity) (SegAt_seg_take hsE _)
            rw [List.length_take]
            push_cast
            omega
          have hendE : ((((encodeNames rows).take t).length : Nat) : Int) =
              (namesRowStart rows k : Int) +
                ((encBytesField (rowAtN rows k).state).length : Int) +
                ((encBytesField (rowAtN rows k).gender).length : Int) +
                ((encIntField (rowAtN rows k).year).length : Int) +
                ((encBytesField (rowAtN rows k).name).length : Int) +
                ((t - (namesRowStart rows k + (encBytesField (rowAtN rows k).state).length +
                  (encBytesField (rowAtN rows k).gender).length +
                  (encIntField (rowAtN rows k).year).length +
                  (encBytesField (rowAtN rows k).name).length) : Nat) : Int) := by
            rw [hblen]
            push_cast
            omega
          rw [intFieldStep_cut k (2 ^ (k % 8)) (k / 8) s.number_nullmask s.number
            (rowAtN rows k).number (by positivity) hcE hsegE hendE
            (by rw [hinv.nuNm.1]; exact div8_lt_bitmapLen hk), errBind]

theorem namesLoop_cut (rows : List NamesRowVals) (t : Nat)
    (ht : t < (encodeNames rows).length) :
    ∀ (m k : Nat) (s : NamesState), k + m = rows.length → namesRowStart rows k ≤ t →
      NamesInv rows k s →
      namesLoop ((encodeNames rows).take t) m k s = .error .truncatedInput := by
  intro m
  induction m with
  | zero =>
    intro k s hk hle hinv
    exfalso
    have hk0 : k = rows.length := by omega
    subst hk0
    rw [namesRowStart_full] at hle
    omega
  | succ m ih =>
    intro k s hk hle hinv
    have hklt : k < rows.length := by omega
    by_cases hcut : t < namesRowStart rows (k + 1)
    · rw [namesLoop, namesRow_cut hklt hinv hle hcut, errBind]
    · have hsucc := namesRowStart_succ rows k hklt
      have hseg : SegAt ((encodeNames rows).take t) (namesRowStart rows k : Int)
          (encNamesRow (rowAtN rows k)) := by
        refine SegAt_take (by omega) ?_ ?_
        · have h := encodeNames_segAt rows [] k hklt
          rwa [List.append_nil] at h
        · push_cast
          omega
      obtain ⟨s2, hrow, hinv2⟩ := namesRow_step hklt hseg hinv
      rw [namesLoop, hrow, okBind]
      exact ih (k + 1) s2 (by omega) (by omega) hinv2

/-- C4: truncating the wire-format-encoded block makes the whole decode
of `_pandas_helpers._avro_df` fail with the truncated-input
`IndexError`, so no partial output covering fewer than `row_count` rows
is ever returned to the caller.  Proved for every proper prefix of
every encoded block — stronger than the claim's "anywhere before the
last field": the schema's last field (`number`) ends in a varint, so
even a cut inside the last field leaves a byte with its continuation
bit set (or an empty tail) and the read runs off the end. -/
theorem claim4_truncation (g : Nat → Nat → Int) (rows : List NamesRowVals) (t : Nat)
    (ht : t < (encodeNames rows).length) :
    PandasHelpers._avro_df g rows.length ((encodeNames rows).take t) =
      .error .truncatedInput := by
  obtain ⟨s0, hinit, hinv0⟩ := namesInit_inv g rows
  rw [PandasHelpers._avro_df, hinit, okBind,
    namesLoop_cut rows t ht rows.length 0 s0 (by omega)
      (by rw [namesRowStart_zero]; omega) hinv0, errBind]

theorem claim4_truncation_witness :
    3 < (encodeNames [(⟨none, none, none, none, none⟩ : NamesRowVals)]).length ∧
    PandasHelpers._avro_df (fun _ _ => 0)
      [(⟨none, none, none, none, none⟩ : NamesRowVals)].length
      ((encodeNames [(⟨none, none, none, none, none⟩ : NamesRowVals)]).take 3) =
      .error .truncatedInput :=
  ⟨by norm_num [encodeNames, encNamesRow, encBytesField, encIntField, encodeLong_zero],
   claim4_truncation (fun _ _ => 0) [(⟨none, none, none, none, none⟩ : NamesRowVals)] 3
     (by norm_num [encodeNames, encNamesRow, encBytesField, encIntField, encodeLong_zero])⟩

/-!
### Scalar-decoder round trip (claims C3 and C8)
-/

theorem BitmapAt_succ_rewrite {flags : Nat → Bool} {rc k : Nat} {arr : List Nat} {cur : Nat}
    (h : BitmapAt flags rc k arr) (hcur : arr[k / 8]? = some cur)
    (hflag : flags k = false) :
    BitmapAt flags rc (k + 1) (arr.set (k / 8) cur) := by
  have hjl : k / 8 < arr.length := by
    by_contra hcon
    rw [List.getElem?_eq_none (by omega)] at hcur
    exact Option.noConfusion hcur
  have hset : arr.set (k / 8) cur = arr := by
    apply List.ext_getElem?
    intro i
    by_cases hik : k / 8 = i
    · subst hik
      rw [getElem?_set_self _ _ _ hjl, hcur]
    · rw [getElem?_set_ne _ _ _ _ hik]
  rw [hset]
  exact BitmapAt_succ_keep h hflag

theorem scalarsRowStart_zero (rows : List ScalarsRowVals) : scalarsRowStart rows 0 = 0 := by
  simp [scalarsRowStart, encodeScalars]

theorem encodeScalars_append (xs ys : List ScalarsRowVals) :
    encodeScalars (xs ++ ys) = encodeScalars xs ++ encodeScalars ys := by
  simp [encodeScalars]

theorem rowAtS_getElem {rows : List ScalarsRowVals} {k : Nat} (hk : k < rows.length) :
    rows[k]? = some (rowAtS rows k) := by
  simp [rowAtS, List.getElem?_eq_getElem hk]

theorem encodeScalars_single (r : ScalarsRowVals) : encodeScalars [r] = encScalarsRow r := by
  simp [encodeScalars]

theorem scalarsRowStart_succ (rows : List ScalarsRowVals) (k : Nat) (hk : k < rows.length) :
    scalarsRowStart rows (k + 1) =
      scalarsRowStart rows k + (encScalarsRow (rowAtS rows k)).length := by
  unfold scalarsRowStart
  rw [List.take_succ, List.getElem?_eq_getElem hk,
    show (some rows[k]).toList = [rows[k]] from rfl, encodeScalars_append, List.length_append,
    encodeScalars_single]
  congr 2
  simp [rowAtS, List.getElem?_eq_getElem hk]

theorem encodeScalars_decompose (rows : List ScalarsRowVals) (k : Nat) (hk : k < rows.length) :
    encodeScalars rows =
      encodeScalars (rows.take k) ++
        (encScalarsRow (rowAtS rows k) ++ encodeScalars (rows.drop (k + 1))) := by
  conv_lhs => rw [← List.take_append_drop (k + 1) rows]
  rw [encodeScalars_append, List.take_succ, List.getElem?_eq_getElem hk,
    show (some rows[k]).toList = [rows[k]] from rfl, encodeScalars_append, encodeScalars_single,
    List.append_assoc]
  congr 2
  simp [rowAtS, List.getElem?_eq_getElem hk]

theorem encodeScalars_segAt (rows : List ScalarsRowVals) (rest : List Nat) (k : Nat)
    (hk : k < rows.length) :
    SegAt (encodeScalars rows ++ rest) (scalarsRowStart rows k : Int)
      (encScalarsRow (rowAtS rows k)) := by
  have hd := encodeScalars_decompose rows k hk
  rw [hd, List.append_assoc]
  have h2 : (encScalarsRow (rowAtS rows k) ++ encodeScalars (rows.drop (k + 1))) ++ rest =
      encScalarsRow (rowAtS rows k) ++ (encodeScalars (rows.drop (k + 1)) ++ rest) := by
    simp
  rw [h2]
  exact SegAt_of_append _ _ _

theorem intColStepS (block : List Nat) (rows : List ScalarsRowVals) (k : Nat)
    (f : ScalarsRowVals → Option Int) (nm : List Nat) (data : List Int) (p0 : Int)
    (hk : k < rows.length) (hp0 : 0 ≤ p0)
    (hseg : SegAt block p0 (encIntField (f (rowAtS rows k))))
    (hNm : BitmapAt (optFlag f rows) rows.length k nm)
    (hDataLen : data.length = rows.length)
    (hDataVals : ∀ i v, i < k → (rows[i]?).bind f = some v → data[i]? = some v) :
    ∃ nm2 data2,
      intFieldStep block k (2 ^ (k % 8)) (k / 8) p0 nm data =
        .ok (p0 + ((encIntField (f (rowAtS rows k))).length : Int), nm2, data2) ∧
      BitmapAt (optFlag f rows) rows.length (k + 1) nm2 ∧
      data2.length = rows.length ∧
      (∀ i v, i < k + 1 → (rows[i]?).bind f = some v → data2[i]? = some v) := by
  have hrowk := rowAtS_getElem hk
  have hbind : (rows[k]?).bind f = f (rowAtS rows k) := by rw [hrowk, Option.some_bind]
  have hflag : optFlag f rows k = (f (rowAtS rows k)).isSome := by
    unfold optFlag
    rw [hbind]
  cases hfv : f (rowAtS rows k) with
  | none =>
    rw [hfv] at hseg
    refine ⟨nm, data, ?_, ?_, hDataLen, ?_⟩
    · rw [intFieldStep_null k _ _ nm data hp0 hseg, encIntField_none_length]
      norm_num
    · exact BitmapAt_succ_keep hNm (by rw [hflag, hfv]; rfl)
    · intro i v hi hv
      by_cases hik : i = k
      · subst hik
        rw [hbind, hfv] at hv
        exact Option.noConfusion hv
      · exact hDataVals i v (by omega) hv
  | some v =>
    rw [hfv] at hseg
    have hnbl : k / 8 < nm.length := by
      rw [hNm.1]
      exact div8_lt_bitmapLen hk
    obtain ⟨cur, hcur⟩ : ∃ cur, nm[k / 8]? = some cur := by
      rw [List.getElem?_eq_getElem hnbl]
      exact ⟨_, rfl⟩
    refine ⟨nm.set (k / 8) (cur ||| 2 ^ (k % 8)), data.set k v, ?_, ?_, ?_, ?_⟩
    · rw [intFieldStep_some k _ _ nm data v cur hp0 hseg hcur hnbl (by omega),
        encIntField_some_length]
      have : p0 + ((1 + (encodeLong v).length : Nat) : Int) =
          p0 + 1 + ((encodeLong v).length : Int) := by
        push_cast
        ring
      rw [this]
    · exact BitmapAt_succ_set hNm hk hcur (by rw [hflag, hfv]; rfl)
    · rw [List.length_set]
      exact hDataLen
    · intro i v2 hi hv
      by_cases hik : i = k
      · subst hik
        rw [hbind, hfv] at hv
        cases hv
        exact getElem?_set_self _ _ _ (by omega)
      · rw [getElem?_set_ne _ _ _ _ (by omega)]
        exact hDataVals i v2 (by omega) hv

theorem floatColStep (block : List Nat) (rows : List ScalarsRowVals) (k : Nat)
    (nm data : List Nat) (p0 : Int)
    (hk : k < rows.length) (hp0 : 0 ≤ p0)
    (hseg : SegAt block p0 (encFloatField (rowAtS rows k).float_val))
    (hwf : ∀ bs, (rowAtS rows k).float_val = some bs → bs.length = 8)
    (hNm : BitmapAt (optFlag ScalarsRowVals.float_val rows) rows.length k nm)
    (hDataLen : data.length = rows.length) :
    ∃ nm2 data2,
      floatFieldStep block k (2 ^ (k % 8)) (k / 8) p0 nm data =
        .ok (p0 + ((encFloatField (rowAtS rows k).float_val).length : Int), nm2, data2) ∧
      BitmapAt (optFlag ScalarsRowVals.float_val rows) rows.length (k + 1) nm2 ∧
      data2.length = rows.length := by
  have hrowk := rowAtS_getElem hk
  have hbind : (rows[k]?).bind ScalarsRowVals.float_val = (rowAtS rows k).float_val := by
    rw [hrowk, Option.some_bind]
  have hflag : optFlag ScalarsRowVals.float_val rows k =
      ((rowAtS rows k).float_val).isSome := by
    unfold optFlag
    rw [hbind]
  cases hfv : (rowAtS rows k).float_val with
  | none =>
    rw [hfv] at hseg
    refine ⟨nm, data, ?_, ?_, hDataLen⟩
    · rw [floatFieldStep_null k _ _ nm data hp0 hseg]
      norm_num [encFloatField, encodeLong_zero]
    · exact BitmapAt_succ_keep hNm (by rw [hflag, hfv]; rfl)
  | some bs =>
    rw [hfv] at hseg
    have hbs : bs.length = 8 := hwf bs hfv
    have hnbl : k / 8 < nm.length := by
      rw [hNm.1]
      exact div8_lt_bitmapLen hk
    obtain ⟨cur, hcur⟩ : ∃ cur, nm[k / 8]? = some cur := by
      rw [List.getElem?_eq_getElem hnbl]
      exact ⟨_, rfl⟩
    obtain ⟨w, hw⟩ := floatFieldStep_some k (2 ^ (k % 8)) (k / 8) nm data bs cur hp0 hseg hbs
      hcur hnbl (by omega)
    refine ⟨nm.set (k / 8) (cur ||| 2 ^ (k % 8)), data.set k w, ?_, ?_, ?_⟩
    · have hlen : ((encFloatField (some bs)).length : Int) = 9 := by
        simp [encFloatField, encodeLong_one, hbs]
      rw [hlen, show p0 + 9 = p0 + (9 : Int) from rfl]
      exact hw
    · exact BitmapAt_succ_set hNm hk hcur (by rw [hflag, hfv]; rfl)
    · rw [List.length_set]
      exact hDataLen

theorem boolColStep (block : List Nat) (rows : List ScalarsRowVals) (k : Nat)
    (nm data : List Nat) (p0 : Int)
    (hk : k < rows.length) (hp0 : 0 ≤ p0)
    (hseg : SegAt block p0 (encBoolField (rowAtS rows k).bool_val))
    (hNm : BitmapAt (optFlag ScalarsRowVals.bool_val rows) rows.length k nm)
    (hData : BitmapAt (boolTrueFlag rows) rows.length k data) :
    ∃ nm2 data2,
      boolFieldStep block k (2 ^ (k % 8)) (k / 8) p0 nm data =
        .ok (p0 + ((encBoolField (rowAtS rows k).bool_val).length : Int), nm2, data2) ∧
      BitmapAt (optFlag ScalarsRowVals.bool_val rows) rows.length (k + 1) nm2 ∧
      BitmapAt (boolTrueFlag rows) rows.length (k + 1) data2 := by
  have hrowk := rowAtS_getElem hk
  have hbind : (rows[k]?).bind ScalarsRowVals.bool_val = (rowAtS rows k).bool_val := by
    rw [hrowk, Option.some_bind]
  have hflag : optFlag ScalarsRowVals.bool_val rows k =
      ((rowAtS rows k).bool_val).isSome := by
    unfold optFlag
    rw [hbind]
  cases hfv : (rowAtS rows k).bool_val with
  | none =>
    have htf : boolTrueFlag rows k = false := by
      unfold boolTrueFlag
      rw [hbind, hfv]
    rw [hfv] at hseg
    refine ⟨nm, data, ?_, ?_, ?_⟩
    · rw [boolFieldStep_null k _ _ nm data hp0 hseg]
      norm_num [encBoolField, encodeLong_zero]
    · exact BitmapAt_succ_keep hNm (by rw [hflag, hfv]; rfl)
    · exact BitmapAt_succ_keep hData htf
  | some b =>
    have htf : boolTrueFlag rows k = decide (b ≠ 0) := by
      unfold boolTrueFlag
      rw [hbind, hfv]
    rw [hfv] at hseg
    have hnbl : k / 8 < nm.length := by
      rw [hNm.1]
      exact div8_lt_bitmapLen hk
    have hdbl : k / 8 < data.length := by
      rw [hData.1]
      exact div8_lt_bitmapLen hk
    obtain ⟨cur, hcur⟩ : ∃ cur, nm[k / 8]? = some cur := by
      rw [List.getElem?_eq_getElem hnbl]
      exact ⟨_, rfl⟩
    obtain ⟨curD, hcurD⟩ : ∃ curD, data[k / 8]? = some curD := by
      rw [List.getElem?_eq_getElem hdbl]
      exact ⟨_, rfl⟩
    have hstep := boolFieldStep_some k (2 ^ (k % 8)) (k / 8) nm data b cur curD hp0 hseg
      hcur hnbl hcurD hdbl
    have hlen2 : ((encBoolField (some b)).length : Int) = 2 := by
      simp [encBoolField, encodeLong_one]
    by_cases hb : b ≠ 0
    · have hmask : (if b ≠ 0 then (0xff : Nat) else 0) &&& 2 ^ (k % 8) = 2 ^ (k % 8) := by
        rw [if_pos hb]
        have h8 : k % 8 < 8 := Nat.mod_lt _ (by norm_num)
        set m := k % 8 with hm
        interval_cases m <;> decide
      rw [hmask] at hstep
      refine ⟨nm.set (k / 8) (cur ||| 2 ^ (k % 8)),
        data.set (k / 8) (curD ||| 2 ^ (k % 8)), ?_, ?_, ?_⟩
      · rw [hlen2, show p0 + 2 = p0 + (2 : Int) from rfl]
        exact hstep
      · exact BitmapAt_succ_set hNm hk hcur (by rw [hflag, hfv]; rfl)
      · exact BitmapAt_succ_set hData hk hcurD (by rw [htf]; simp [hb])
    · have hmask : (if b ≠ 0 then (0xff : Nat) else 0) &&& 2 ^ (k % 8) = 0 := by
        rw [if_neg hb]
        simp
      rw [hmask, Nat.or_zero] at hstep
      refine ⟨nm.set (k / 8) (cur ||| 2 ^ (k % 8)), data.set (k / 8) curD, ?_, ?_, ?_⟩
      · rw [hlen2, show p0 + 2 = p0 + (2 : Int) from rfl]
        exact hstep
      · exact BitmapAt_succ_set hNm hk hcur (by rw [hflag, hfv]; rfl)
      · exact BitmapAt_succ_rewrite hData hcurD (by rw [htf]; simp [hb])

theorem scalarsRow_step {rows : List ScalarsRowVals} {k : Nat} {s : ScalarsState}
    {block : List Nat}
    (hk : k < rows.length)
    (hwf : ∀ bs, (rowAtS rows k).float_val = some bs → bs.length = 8)
    (hseg : SegAt block (scalarsRowStart rows k : Int) (encScalarsRow (rowAtS rows k)))
    (hinv : ScalarsInv rows k s) :
    ∃ s2, scalarsRow block k s = .ok s2 ∧ ScalarsInv rows (k + 1) s2 := by
  have hp0 : (0 : Int) ≤ (scalarsRowStart rows k : Int) := by omega
  rw [show encScalarsRow (rowAtS rows k) =
      encIntField (rowAtS rows k).int_val ++ (encFloatField (rowAtS rows k).float_val ++
        encBoolField (rowAtS rows k).bool_val) from by
      simp [encScalarsRow, List.append_assoc], SegAt_append] at hseg
  obtain ⟨hsI, hrest⟩ := hseg
  rw [SegAt_append] at hrest
  obtain ⟨hsF, hsB⟩ := hrest
  obtain ⟨inm2, id2, hstepI, hinm2, hid2len, hid2vals⟩ :=
    intColStepS block rows k ScalarsRowVals.int_val s.int_nullmask s.int_col _ hk hp0
      hsI hinv.iNm hinv.intLen hinv.intVals
  obtain ⟨fnm2, fd2, hstepF, hfnm2, hfd2len⟩ :=
    floatColStep block rows k s.float_nullmask s.float_col _ hk (by positivity) hsF hwf
      hinv.fNm hinv.floatLen
  obtain ⟨bnm2, bd2, hstepB, hbnm2, hbd2⟩ :=
    boolColStep block rows k s.bool_nullmask s.bool_col _ hk (by positivity) hsB
      hinv.bNm hinv.boolData
  have hrun : scalarsRow block k s =
      .ok { position := (scalarsRowStart rows k : Int) +
              ((encIntField (rowAtS rows k).int_val).length : Int) +
              ((encFloatField (rowAtS rows k).float_val).length : Int) +
              ((encBoolField (rowAtS rows k).bool_val).length : Int)
            nullmask := 2 ^ (k % 8)
            int_nullmask := inm2
            float_nullmask := fnm2
            bool_nullmask := bnm2
            int_col := id2
            float_col := fd2
            bool_col := bd2 } := by
    rw [scalarsRow]
    simp only [hinv.mask, rotate_maskAfter, hinv.pos]
    rw [hstepI]
    simp only [okBind]
    rw [hstepF]
    simp only [okBind]
    rw [hstepB]
    simp only [okBind]
  refine ⟨_, hrun, ?_⟩
  constructor
  case pos =>
    show (scalarsRowStart rows k : Int) + _ + _ + _ = (scalarsRowStart rows (k + 1) : Int)
    rw [scalarsRowStart_succ rows k hk,
      show (encScalarsRow (rowAtS rows k)).length =
        (encIntField (rowAtS rows k).int_val).length +
        (encFloatField (rowAtS rows k).float_val).length +
        (encBoolField (rowAtS rows k).bool_val).length from by simp [encScalarsRow]; ring]
    push_cast
    ring
  case mask => rw [maskAfter_succ]
  case iNm => exact hinm2
  case fNm => exact hfnm2
  case bNm => exact hbnm2
  case intLen => exact hid2len
  case intVals => exact hid2vals
  case floatLen => exact hfd2len
  case boolData => exact hbd2

theorem scalarsLoop_inv (rows : List ScalarsRowVals) (rest : List Nat)
    (hwf : ScalarsWF rows) :
    ∀ (m k : Nat) (s : ScalarsState), k + m ≤ rows.length → ScalarsInv rows k s →
      ∃ s2, scalarsLoop (encodeScalars rows ++ rest) m k s = .ok s2 ∧
        ScalarsInv rows (k + m) s2 := by
  intro m
  induction m with
  | zero =>
    intro k s hk hinv
    exact ⟨s, rfl, by simpa using hinv⟩
  | succ m ih =>
    intro k s hk hinv
    have hklt : k < rows.length := by omega
    obtain ⟨s2, hrow, hinv2⟩ := scalarsRow_step hklt
      (fun bs hbs => hwf k bs (by rw [rowAtS_getElem hklt, Option.some_bind]; exact hbs))
      (encodeScalars_segAt rows rest k hklt) hinv
    rw [scalarsLoop, hrow, okBind]
    obtain ⟨s3, hloop, hinv3⟩ := ih (k + 1) s2 (by omega) hinv2
    exact ⟨s3, hloop, by rwa [show k + 1 + m = k + (m + 1) from by omega] at hinv3⟩

theorem scalarsInit_inv (gi : Nat → Int) (gf : Nat → Nat) (rows : List ScalarsRowVals) :
    ScalarsInv rows 0 (scalarsInit gi gf rows.length) := by
  constructor
  case pos => rw [scalarsRowStart_zero]; rfl
  case mask => rfl
  case iNm => exact BitmapAt_zero _ _
  case fNm => exact BitmapAt_zero _ _
  case bNm => exact BitmapAt_zero _ _
  case intLen => simp [scalarsInit]
  case intVals => intro i v hi; omega
  case floatLen => simp [scalarsInit]
  case boolData => exact BitmapAt_zero _ _

theorem avro_df_scalars_run (gi : Nat → Int) (gf : Nat → Nat) (rows : List ScalarsRowVals)
    (rest : List Nat) (hwf : ScalarsWF rows) :
    ∃ s, AvroToArrow._avro_df gi gf rows.length (encodeScalars rows ++ rest) =
        .ok { int_nullmask := s.int_nullmask
              int_col := s.int_col
              float_nullmask := s.float_nullmask
              float_col := s.float_col
              bool_nullmask := s.bool_nullmask
              bool_col := s.bool_col } ∧
      ScalarsInv rows rows.length s := by
  obtain ⟨s2, hloop, hinv⟩ := scalarsLoop_inv rows rest hwf rows.length 0
    (scalarsInit gi gf rows.length) (by omega) (scalarsInit_inv gi gf rows)
  refine ⟨s2, ?_, by simpa using hinv⟩
  rw [AvroToArrow._avro_df, hloop, okBind]

theorem rotate_iterate (i : Nat) : _rotate_nullbit^[i + 1] 0 = 2 ^ (i % 8) := by
  have h : ∀ k : Nat, _rotate_nullbit^[k] 0 = maskAfter k := by
    intro k
    induction k with
    | zero => rfl
    | succ k ih =>
      rw [Function.iterate_succ_apply', ih, rotate_maskAfter, maskAfter_succ]
  rw [h (i + 1), maskAfter_succ]

/-- C3: validity bitmaps.  The rotating marker, started at `0` and
rotated once before each row with `_rotate_nullbit`, equals
`2 ^ (i % 8)` while row `i` is processed; and on every wire-format
block, `_avro_to_arrow._avro_df` produces for each of its three
columns a validity bitmap of exactly `ceil(row_count / 8)` bytes in
which bit `i % 8` (LSB-first) of byte `i / 8` is set exactly when row
`i < row_count` has a nonzero union tag, and every other bit —
including the unused high bits of the final byte when `row_count` is
not a multiple of 8 — is `0` (that is exactly what
`BitmapAt f row_count row_count` states).  Settled against the cited
scalar decoder; the five-column `_pandas_helpers._avro_df` sets
validity this way only for its two Int64 columns. -/
theorem claim3_validity_bitmaps (gi : Nat → Int) (gf : Nat → Nat)
    (rows : List ScalarsRowVals) (rest : List Nat) (hwf : ScalarsWF rows) :
    (∀ i, _rotate_nullbit^[i + 1] 0 = 2 ^ (i % 8)) ∧
    ∃ o, AvroToArrow._avro_df gi gf rows.length (encodeScalars rows ++ rest) = .ok o ∧
      BitmapAt (optFlag ScalarsRowVals.int_val rows) rows.length rows.length o.int_nullmask ∧
      BitmapAt (optFlag ScalarsRowVals.float_val rows) rows.length rows.length
        o.float_nullmask ∧
      BitmapAt (optFlag ScalarsRowVals.bool_val rows) rows.length rows.length
        o.bool_nullmask := by
  refine ⟨rotate_iterate, ?_⟩
  obtain ⟨s, hrun, hinv⟩ := avro_df_scalars_run gi gf rows rest hwf
  exact ⟨_, hrun, hinv.iNm, hinv.fNm, hinv.bNm⟩

theorem claim3_validity_bitmaps_witness :
    ScalarsWF [(⟨some 1, none, some 1⟩ : ScalarsRowVals)] ∧
    ((∀ i, _rotate_nullbit^[i + 1] 0 = 2 ^ (i % 8)) ∧
    ∃ o, AvroToArrow._avro_df (fun j => (j : Int)) (fun j => j)
        [(⟨some 1, none, some 1⟩ : ScalarsRowVals)].length
        (encodeScalars [(⟨some 1, none, some 1⟩ : ScalarsRowVals)] ++ []) = .ok o ∧
      BitmapAt (optFlag ScalarsRowVals.int_val [(⟨some 1, none, some 1⟩ : ScalarsRowVals)])
        [(⟨some 1, none, some 1⟩ : ScalarsRowVals)].length
        [(⟨some 1, none, some 1⟩ : ScalarsRowVals)].length o.int_nullmask ∧
      BitmapAt (optFlag ScalarsRowVals.float_val [(⟨some 1, none, some 1⟩ : ScalarsRowVals)])
        [(⟨some 1, none, some 1⟩ : ScalarsRowVals)].length
        [(⟨some 1, none, some 1⟩ : ScalarsRowVals)].length o.float_nullmask ∧
      BitmapAt (optFlag ScalarsRowVals.bool_val [(⟨some 1, none, some 1⟩ : ScalarsRowVals)])
        [(⟨some 1, none, some 1⟩ : ScalarsRowVals)].length
        [(⟨some 1, none, some 1⟩ : ScalarsRowVals)].length o.bool_nullmask) := by
  have hwf : ScalarsWF [(⟨some 1, none, some 1⟩ : ScalarsRowVals)] := by
    intro i bs h
    rcases i with _ | i <;> simp at h
  exact ⟨hwf, claim3_validity_bitmaps (fun j => (j : Int)) (fun j => j) _ [] hwf⟩

/-- C8: the boolean reader `_read_boolean` consumes exactly one byte
(returning position `p + 1`) and yields the mask `0xFF` exactly when
that byte is nonzero and `0x00` otherwise; and on every wire-format
block, in the Bool column's bit-packed data buffer produced by
`_avro_to_arrow._avro_df`, bit `i % 8` (LSB-first) of byte `i / 8` is
set exactly when row `i` is present with a nonzero decoded byte, and
is `0` when row `i` is null (`boolTrueFlag` is that per-row
predicate). -/
theorem claim8_boolean (gi : Nat → Int) (gf : Nat → Nat)
    (rows : List ScalarsRowVals) (rest : List Nat) (hwf : ScalarsWF rows) :
    (∀ (block : List Nat) (p : Int) (b : Nat), pyGet block p = some b →
      _read_boolean p block = .ok (p + 1, if b ≠ 0 then 0xff else 0)) ∧
    ∃ o, AvroToArrow._avro_df gi gf rows.length (encodeScalars rows ++ rest) = .ok o ∧
      BitmapAt (boolTrueFlag rows) rows.length rows.length o.bool_col := by
  refine ⟨fun block p b h => read_boolean_some h, ?_⟩
  obtain ⟨s, hrun, hinv⟩ := avro_df_scalars_run gi gf rows rest hwf
  exact ⟨_, hrun, hinv.boolData⟩

theorem claim8_boolean_witness :
    ScalarsWF [(⟨none, none, some 3⟩ : ScalarsRowVals)] ∧
    ((∀ (block : List Nat) (p : Int) (b : Nat), pyGet block p = some b →
      _read_boolean p block = .ok (p + 1, if b ≠ 0 then 0xff else 0)) ∧
    ∃ o, AvroToArrow._avro_df (fun j => (j : Int)) (fun j => j)
        [(⟨none, none, some 3⟩ : ScalarsRowVals)].length
        (encodeScalars [(⟨none, none, some 3⟩ : ScalarsRowVals)] ++ []) = .ok o ∧
      BitmapAt (boolTrueFlag [(⟨none, none, some 3⟩ : ScalarsRowVals)])
        [(⟨none, none, some 3⟩ : ScalarsRowVals)].length
        [(⟨none, none, some 3⟩ : ScalarsRowVals)].length o.bool_col) := by
  have hwf : ScalarsWF [(⟨none, none, some 3⟩ : ScalarsRowVals)] := by
    intro i bs h
    rcases i with _ | i <;> simp at h
  exact ⟨hwf, claim8_boolean (fun j => (j : Int)) (fun j => j) _ [] hwf⟩

/-!
### Write-bounds safety (claim C10)
-/

theorem readBlockByte_ok_or_trunc (block : List Nat) (p : Int) :
    (∃ b, readBlockByte block p = .ok b) ∨ readBlockByte block p = .error .truncatedInput := by
  rw [readBlockByte]
  cases pyGet block p with
  | none => exact Or.inr rfl
  | some b => exact Or.inl ⟨b, rfl⟩

theorem readArrEx_lt {α : Type} (arr : List α) (n : Nat) (h : n < arr.length) :
    ∃ v, readArrEx arr (n : Int) = .ok v := by
  refine ⟨arr.get ⟨n, h⟩, ?_⟩
  apply readArrEx_some
  rw [List.getElem?_eq_getElem h]
  rfl

theorem read_double_ok_or_trunc (block : List Nat) (p : Int) :
    (∃ r, _read_double p block = .ok r) ∨ _read_double p block = .error .truncatedInput := by
  rw [_read_double]
  rcases readBlockByte_ok_or_trunc block p with ⟨b0, h0⟩ | h0
  · rw [h0, okBind]
    rcases readBlockByte_ok_or_trunc block (p + 1) with ⟨b1, h1⟩ | h1
    · rw [h1, okBind]
      rcases readBlockByte_ok_or_trunc block (p + 2) with ⟨b2, h2⟩ | h2
      · rw [h2, okBind]
        rcases readBlockByte_ok_or_trunc block (p + 3) with ⟨b3, h3⟩ | h3
        · rw [h3, okBind]
          rcases readBlockByte_ok_or_trunc block (p + 4) with ⟨b4, h4⟩ | h4
          · rw [h4, okBind]
            rcases readBlockByte_ok_or_trunc block (p + 5) with ⟨b5, h5⟩ | h5
            · rw [h5, okBind]
              rcases readBlockByte_ok_or_trunc block (p + 6) with ⟨b6, h6⟩ | h6
              · rw [h6, okBind]
                rcases readBlockByte_ok_or_trunc block (p + 7) with ⟨b7, h7⟩ | h7
                · rw [h7, okBind]
                  exact Or.inl ⟨_, rfl⟩
                · rw [h7, errBind]
                  exact Or.inr rfl
              · rw [h6, errBind]
                exact Or.inr rfl
            · rw [h5, errBind]
              exact Or.inr rfl
          · rw [h4, errBind]
            exact Or.inr rfl
        · rw [h3, errBind]
          exact Or.inr rfl
      · rw [h2, errBind]
        exact Or.inr rfl
    · rw [h1, errBind]
      exact Or.inr rfl
  · rw [h0, errBind]
    exact Or.inr rfl

theorem read_boolean_ok_or_trunc (block : List Nat) (p : Int) :
    (∃ r, _read_boolean p block = .ok r) ∨ _read_boolean p block = .error .truncatedInput := by
  rw [_read_boolean]
  rcases readBlockByte_ok_or_trunc block p with ⟨b, h⟩ | h
  · rw [h, okBind]
    exact Or.inl ⟨_, rfl⟩
  · rw [h, errBind]
    exact Or.inr rfl

theorem intFieldStep_total (block : List Nat) (i nullmask nullbyte : Nat) (p : Int)
    (nm : List Nat) (data : List Int) (hnbl : nullbyte < nm.length) (hdl : i < data.length) :
    (∃ p2 nm2 data2, intFieldStep block i nullmask nullbyte p nm data = .ok (p2, nm2, data2) ∧
      nm2.length = nm.length ∧ data2.length = data.length) ∨
    intFieldStep block i nullmask nullbyte p nm data = .error .truncatedInput := by
  rw [intFieldStep]
  rcases read_long_ok_or_trunc block p with ⟨⟨p1, ut⟩, h1⟩ | h1
  · rw [h1]
    simp only [okBind]
    by_cases hut : ut ≠ 0
    · rw [if_pos hut]
      obtain ⟨cur, hcur⟩ := readArrEx_lt nm nullbyte hnbl
      rw [hcur, okBind, writeArrEx_lt _ _ _ hnbl, okBind]
      rcases read_long_ok_or_trunc block p1 with ⟨⟨p2, v⟩, h2⟩ | h2
      · rw [h2]
        simp only [okBind]
        rw [writeArrEx_lt _ _ _ hdl, okBind]
        exact Or.inl ⟨p2, _, _, rfl, by simp, by simp⟩
      · rw [h2, errBind]
        exact Or.inr rfl
    · rw [if_neg hut]
      exact Or.inl ⟨p1, nm, data, rfl, rfl, rfl⟩
  · rw [h1, errBind]
    exact Or.inr rfl

theorem bytesFieldStep_total (block : List Nat) (i : Nat) (p : Int)
    (offsets inputOffsets : List Int) (hol : i + 1 < offsets.length)
    (hil : 2 * i + 1 < inputOffsets.length) :
    (∃ p2 o2 io2, bytesFieldStep block i p offsets inputOffsets = .ok (p2, o2, io2) ∧
      o2.length = offsets.length ∧ io2.length = inputOffsets.length) ∨
    bytesFieldStep block i p offsets inputOffsets = .error .truncatedInput := by
  rw [bytesFieldStep]
  rcases read_long_ok_or_trunc block p with ⟨⟨p1, ut⟩, h1⟩ | h1
  · rw [h1]
    simp only [okBind]
    by_cases hut : ut = 0
    · rw [if_pos hut]
      obtain ⟨prev, hprev⟩ := readArrEx_lt offsets i (by omega)
      rw [hprev, okBind,
        show ((i : Nat) : Int) + 1 = ((i + 1 : Nat) : Int) from by push_cast; ring,
        writeArrEx_lt _ _ _ hol, okBind]
      exact Or.inl ⟨p1, _, inputOffsets, rfl, by simp, rfl⟩
    · rw [if_neg hut]
      rcases read_long_ok_or_trunc block p1 with ⟨⟨p2, strlen⟩, h2⟩ | h2
      · rw [h2]
        simp only [okBind]
        rw [show 2 * ((i : Nat) : Int) = ((2 * i : Nat) : Int) from by push_cast; ring,
          writeArrEx_lt _ _ _ (by omega), okBind,
          show ((2 * i : Nat) : Int) + 1 = ((2 * i + 1 : Nat) : Int) from by push_cast; ring,
          writeArrEx_lt _ _ _ (by simpa using hil), okBind]
        obtain ⟨prev, hprev⟩ := readArrEx_lt ((inputOffsets.set (2 * i) p2).set (2 * i + 1)
          (p2 + strlen)) i (by simp; omega)
        obtain ⟨prev2, hprev2⟩ := readArrEx_lt offsets i (by omega)
        rw [hprev2, okBind,
          show ((i : Nat) : Int) + 1 = ((i + 1 : Nat) : Int) from by push_cast; ring,
          writeArrEx_lt _ _ _ hol, okBind]
        exact Or.inl ⟨_, _, _, rfl, by simp, by simp⟩
      · rw [h2, errBind]
        exact Or.inr rfl
  · rw [h1, errBind]
    exact Or.inr rfl

theorem floatFieldStep_total (block : List Nat) (i nullmask nullbyte : Nat) (p : Int)
    (nm data : List Nat) (hnbl : nullbyte < nm.length) (hdl : i < data.length) :
    (∃ p2 nm2 data2, floatFieldStep block i nullmask nullbyte p nm data = .ok (p2, nm2, data2) ∧
      nm2.length = nm.length ∧ data2.length = data.length) ∨
    floatFieldStep block i nullmask nullbyte p nm data = .error .truncatedInput := by
  rw [floatFieldStep]
  rcases read_long_ok_or_trunc block p with ⟨⟨p1, ut⟩, h1⟩ | h1
  · rw [h1]
    simp only [okBind]
    by_cases hut : ut ≠ 0
    · rw [if_pos hut]
      obtain ⟨cur, hcur⟩ := readArrEx_lt nm nullbyte hnbl
      rw [hcur, okBind, writeArrEx_lt _ _ _ hnbl, okBind]
      rcases read_double_ok_or_trunc block p1 with ⟨⟨p2, v⟩, h2⟩ | h2
      · rw [h2]
        simp only [okBind]
        rw [writeArrEx_lt _ _ _ hdl, okBind]
        exact Or.inl ⟨p2, _, _, rfl, by simp, by simp⟩
      · rw [h2, errBind]
        exact Or.inr rfl
    · rw [if_neg hut]
      exact Or.inl ⟨p1, nm, data, rfl, rfl, rfl⟩
  · rw [h1, errBind]
    exact Or.inr rfl

theorem boolFieldStep_total (block : List Nat) (i nullmask nullbyte : Nat) (p : Int)
    (nm data : List Nat) (hnbl : nullbyte < nm.length) (hdl : nullbyte < data.length) :
    (∃ p2 nm2 data2, boolFieldStep block i nullmask nullbyte p nm data = .ok (p2, nm2, data2) ∧
      nm2.length = nm.length ∧ data2.length = data.length) ∨
    boolFieldStep block i nullmask nullbyte p nm data = .error .truncatedInput := by
  rw [boolFieldStep]
  rcases read_long_ok_or_trunc block p with ⟨⟨p1, ut⟩, h1⟩ | h1
  · rw [h1]
    simp only [okBind]
    by_cases hut : ut ≠ 0
    · rw [if_pos hut]
      obtain ⟨cur, hcur⟩ := readArrEx_lt nm nullbyte hnbl
      rw [hcur, okBind, writeArrEx_lt _ _ _ hnbl, okBind]
      rcases read_boolean_ok_or_trunc block p1 with ⟨⟨p2, bm⟩, h2⟩ | h2
      · rw [h2]
        simp only [okBind]
        obtain ⟨curD, hcurD⟩ := readArrEx_lt data nullbyte hdl
        rw [hcurD, okBind, writeArrEx_lt _ _ _ hdl, okBind]
        exact Or.inl ⟨p2, _, _, rfl, by simp, by simp⟩
      · rw [h2, errBind]
        exact Or.inr rfl
    · rw [if_neg hut]
      exact Or.inl ⟨p1, nm, data, rfl, rfl, rfl⟩
  · rw [h1, errBind]
    exact Or.inr rfl

theorem namesRow_total (block : List Nat) (rc i : Nat) (s : NamesState)
    (hi : i < rc) (hl : NamesLens rc s) :
    (∃ s2, namesRow block i s = .ok s2 ∧ NamesLens rc s2) ∨
    namesRow block i s = .error .truncatedInput := by
  obtain ⟨hyn, hnn, hy, hnu, hso, hgo, hno, hsi, hgi, hni⟩ := hl
  have hnb : i / 8 < bitmapLen rc := div8_lt_bitmapLen hi
  rw [namesRow]
  rcases bytesFieldStep_total block i s.position s.state_offsets s.state_input_offsets
      (by omega) (by omega) with ⟨p1, so2, si2, hA, hAl1, hAl2⟩ | hA
  · rw [hA]
    simp only [okBind]
    rcases bytesFieldStep_total block i p1 s.gender_offsets s.gender_input_offsets
        (by omega) (by omega) with ⟨p2, go2, gi2, hB, hBl1, hBl2⟩ | hB
    · rw [hB]
      simp only [okBind]
      rcases intFieldStep_total block i (_rotate_nullbit s.nullmask) (i / 8) p2
          s.year_nullmask s.year (by omega) (by omega) with
        ⟨p3, ynm2, y2, hC, hCl1, hCl2⟩ | hC
      · rw [hC]
        simp only [okBind]
        rcases bytesFieldStep_total block i p3 s.name_offsets s.name_input_offsets
            (by omega) (by omega) with ⟨p4, no2, ni2, hD, hDl1, hDl2⟩ | hD
        · rw [hD]
          simp only [okBind]
          rcases intFieldStep_total block i (_rotate_nullbit s.nullmask) (i / 8) p4
              s.number_nullmask s.number (by omega) (by omega) with
            ⟨p5, nunm2, nu2, hE, hEl1, hEl2⟩ | hE
          · rw [hE]
            simp only [okBind]
            left
            refine ⟨_, rfl, ?_⟩
            unfold NamesLens
            dsimp only
            exact ⟨by omega, by omega, by omega, by omega, by omega, by omega, by omega,
              by omega, by omega, by omega⟩
          · rw [hE, errBind]
            exact Or.inr rfl
        · rw [hD, errBind]
          exact Or.inr rfl
      · rw [hC, errBind]
        exact Or.inr rfl
    · rw [hB, errBind]
      exact Or.inr rfl
  · rw [hA, errBind]
    exact Or.inr rfl

theorem namesLoop_total (block : List Nat) (rc : Nat) :
    ∀ (m i : Nat) (s : NamesState), i + m ≤ rc → NamesLens rc s →
      (∃ s2, namesLoop block m i s = .ok s2) ∨
        namesLoop block m i s = .error .truncatedInput := by
  intro m
  induction m with
  | zero =>
    intro i s him hl
    exact Or.inl ⟨s, rfl⟩
  | succ m ih =>
    intro i s him hl
    rcases namesRow_total block rc i s (by omega) hl with ⟨s2, hrow, hl2⟩ | hrow
    · rw [namesLoop, hrow, okBind]
      exact ih (i + 1) s2 (by omega) hl2
    · rw [namesLoop, hrow, errBind]
      exact Or.inr rfl

theorem namesInit_lens (g : Nat → Nat → Int) (rc : Nat) :
    ∃ s0, namesInit g rc = .ok s0 ∧ NamesLens rc s0 := by
  have hw : ∀ id : Nat, writeArrEx (emptyIntArr g id (rc + 1)) (0 : Int) 0 =
      .ok ((emptyIntArr g id (rc + 1)).set 0 0) := by
    intro id
    have h := writeArrEx_lt (emptyIntArr g id (rc + 1)) 0 0 (by simp [emptyIntArr])
    simpa using h
  have hinit : namesInit g rc =
      .ok { position := 0
            nullmask := 0
            state_nullmask := _make_bitarray rc
            gender_nullmask := _make_bitarray rc
            year_nullmask := _make_bitarray rc
            name_nullmask := _make_bitarray rc
            number_nullmask := _make_bitarray rc
            state_input_offsets := emptyIntArr g 0 (rc * 2)
            gender_input_offsets := emptyIntArr g 1 (rc * 2)
            name_input_offsets := emptyIntArr g 2 (rc * 2)
            state_offsets := (emptyIntArr g 3 (rc + 1)).set 0 0
            gender_offsets := (emptyIntArr g 4 (rc + 1)).set 0 0
            name_offsets := (emptyIntArr g 5 (rc + 1)).set 0 0
            year := emptyIntArr g 6 rc
            number := emptyIntArr g 7 rc } := by
    rw [namesInit, hw 3, okBind, hw 4, okBind, hw 5, okBind]
  refine ⟨_, hinit, ?_⟩
  unfold NamesLens
  refine ⟨?_, ?_, ?_, ?_, ?_, ?_, ?_, ?_, ?_, ?_⟩ <;>
    simp [_make_bitarray, bitmapLen, emptyIntArr]

theorem scalarsRow_total (block : List Nat) (rc i : Nat) (s : ScalarsState)
    (hi : i < rc) (hl : ScalarsLens rc s) :
    (∃ s2, scalarsRow block i s = .ok s2 ∧ ScalarsLens rc s2) ∨
    scalarsRow block i s = .error .truncatedInput := by
  obtain ⟨hin, hfn, hbn, hic, hfc, hbc⟩ := hl
  have hnb : i / 8 < bitmapLen rc := div8_lt_bitmapLen hi
  rw [scalarsRow]
  rcases intFieldStep_total block i (_rotate_nullbit s.nullmask) (i / 8) s.position
      s.int_nullmask s.int_col (by omega) (by omega) with
    ⟨p1, inm2, ic2, hA, hAl1, hAl2⟩ | hA
  · rw [hA]
    simp only [okBind]
    rcases floatFieldStep_total block i (_rotate_nullbit s.nullmask) (i / 8) p1
        s.float_nullmask s.float_col (by omega) (by omega) with
      ⟨p2, fnm2, fc2, hB, hBl1, hBl2⟩ | hB
    · rw [hB]
      simp only [okBind]
      rcases boolFieldStep_total block i (_rotate_nullbit s.nullmask) (i / 8) p2
          s.bool_nullmask s.bool_col (by omega) (by omega) with
        ⟨p3, bnm2, bc2, hC, hCl1, hCl2⟩ | hC
      · rw [hC]
        simp only [okBind]
        left
        refine ⟨_, rfl, ?_⟩
        unfold ScalarsLens
        dsimp only
        exact ⟨by omega, by omega, by omega, by omega, by omega, by omega⟩
      · rw [hC, errBind]
        exact Or.inr rfl
    · rw [hB, errBind]
      exact Or.inr rfl
  · rw [hA, errBind]
    exact Or.inr rfl

theorem scalarsLoop_total (block : List Nat) (rc : Nat) :
    ∀ (m i : Nat) (s : ScalarsState), i + m ≤ rc → ScalarsLens rc s →
      (∃ s2, scalarsLoop block m i s = .ok s2) ∨
        scalarsLoop block m i s = .error .truncatedInput := by
  intro m
  induction m with
  | zero =>
    intro i s him hl
    exact Or.inl ⟨s, rfl⟩
  | succ m ih =>
    intro i s him hl
    rcases scalarsRow_total block rc i s (by omega) hl with ⟨s2, hrow, hl2⟩ | hrow
    · rw [scalarsLoop, hrow, okBind]
      exact ih (i + 1) s2 (by omega) hl2
    · rw [scalarsLoop, hrow, errBind]
      exact Or.inr rfl

theorem scalarsInit_lens (gi : Nat → Int) (gf : Nat → Nat) (rc : Nat) :
    ScalarsLens rc (scalarsInit gi gf rc) := by
  unfold ScalarsLens scalarsInit
  refine ⟨?_, ?_, ?_, ?_, ?_, ?_⟩ <;> simp [_make_bitarray, bitmapLen]

/-- C10: for every `row_count` and every payload — well-formed or not —
each decode either completes or fails with the truncated-input
`IndexError` from reading the payload; no write into an output buffer
is ever out of bounds (a `writeOutOfBounds` or `internalIndexError`
outcome is impossible), because bitmap and bit-packed boolean writes
use byte index `i / 8 < ceil(row_count/8)`, fixed-width data writes
use `i < row_count`, and offsets writes use `i + 1 ≤ row_count` for
every loop iteration `i < row_count`.  Stated for the five-column
`_pandas_helpers._avro_df` and the three-column
`_avro_to_arrow._avro_df`. -/
theorem claim10_write_bounds (g : Nat → Nat → Int) (gi : Nat → Int) (gf : Nat → Nat)
    (rc : Nat) (block : List Nat) :
    ((∃ o, PandasHelpers._avro_df g rc block = .ok o) ∨
      PandasHelpers._avro_df g rc block = .error .truncatedInput) ∧
    ((∃ o, AvroToArrow._avro_df gi gf rc block = .ok o) ∨
      AvroToArrow._avro_df gi gf rc block = .error .truncatedInput) := by
  constructor
  · obtain ⟨s0, hinit, hl0⟩ := namesInit_lens g rc
    rcases namesLoop_total block rc rc 0 s0 (by omega) hl0 with ⟨s2, hloop⟩ | hloop
    · left
      rw [PandasHelpers._avro_df, hinit, okBind, hloop, okBind]
      exact ⟨_, rfl⟩
    · right
      rw [PandasHelpers._avro_df, hinit, okBind, hloop, errBind]
  · rcases scalarsLoop_total block rc rc 0 (scalarsInit gi gf rc) (by omega)
        (scalarsInit_lens gi gf rc) with ⟨s2, hloop⟩ | hloop
    · left
      rw [AvroToArrow._avro_df, hloop, okBind]
      exact ⟨_, rfl⟩
    · right
      rw [AvroToArrow._avro_df, hloop, errBind]

/-!
### The byte-copy materializer (claim C7)
-/

theorem takeSet_eq (l : List Nat) (n m : Nat) (b : Nat) (h : n ≤ m) :
    (l.set n b).take n = l.take n := by
  apply List.ext_getElem?
  intro i
  rw [List.getElem?_take, List.getElem?_take]
  by_cases hi : i < n
  · rw [if_pos hi, if_pos hi, List.getElem?_set, if_neg (by omega)]
  · rw [if_neg hi, if_neg hi]

theorem dropSet_eq (l : List Nat) (n m : Nat) (b : Nat) (h : n < m) :
    (l.set n b).drop m = l.drop m := by
  apply List.ext_getElem?
  intro i
  rw [List.getElem?_drop, List.getElem?_drop, List.getElem?_set, if_neg (by omega)]

theorem takeSucc_set (l : List Nat) (n : Nat) (b : Nat) (h : n < l.length) :
    (l.set n b).take (n + 1) = l.take n ++ [b] := by
  rw [List.take_succ, takeSet_eq l n n b le_rfl, List.getElem?_set, if_pos rfl, if_pos h]
  rfl

theorem copyBytesLoop_spec (block : List Nat) :
    ∀ (bs data : List Nat) (ip : Int) (op : Nat),
      SegAt block ip bs → op + bs.length ≤ data.length →
      copyBytesLoop block bs.length data ip (op : Int) =
        .ok (data.take op ++ bs ++ data.drop (op + bs.length)) := by
  intro bs
  induction bs with
  | nil =>
    intro data ip op hseg hle
    show copyBytesLoop block 0 data ip (op : Int) = _
    rw [copyBytesLoop]
    simp [List.take_append_drop]
  | cons b bs ih =>
    intro data ip op hseg hle
    rw [SegAt_cons] at hseg
    obtain ⟨hb, hrest⟩ := hseg
    have hle2 : op + (bs.length + 1) ≤ data.length := by simpa using hle
    have hop : op < data.length := by omega
    show copyBytesLoop block (bs.length + 1) data ip (op : Int) = _
    rw [copyBytesLoop, readBlockByte_some hb, okBind, writeArrEx_lt data op b hop, okBind,
      show (op : Int) + 1 = ((op + 1 : Nat) : Int) from by push_cast; ring,
      ih (data.set op b) (ip + 1) (op + 1) hrest (by simp only [List.length_set]; omega)]
    congr 1
    rw [takeSucc_set data op b hop,
      dropSet_eq data op (op + 1 + bs.length) b (by omega),
      show op + 1 + bs.length = op + (b :: bs).length from by simp; ring]
    simp [List.append_assoc]

theorem bytesConcat_zero (f : NamesRowVals → Option (List Nat)) (rows : List NamesRowVals) :
    bytesConcat f (rows.take 0) = [] := by
  simp [bytesConcat]

theorem bytesConcat_succ (f : NamesRowVals → Option (List Nat)) (rows : List NamesRowVals)
    (m : Nat) (hm : m < rows.length) :
    bytesConcat f (rows.take (m + 1)) =
      bytesConcat f (rows.take m) ++ (f (rowAtN rows m)).getD [] := by
  rw [List.take_succ, List.getElem?_eq_getElem hm,
    show (some rows[m]).toList = [rows[m]] from rfl]
  unfold bytesConcat
  rw [List.map_append, List.flatten_append]
  congr 1
  simp [rowAtN, List.getElem?_eq_getElem hm]

theorem bytesConcat_take_length (f : NamesRowVals → Option (List Nat))
    (rows : List NamesRowVals) :
    ∀ m, m ≤ rows.length →
      ((bytesConcat f (rows.take m)).length : Int) = cumLen f rows m := by
  intro m
  induction m with
  | zero =>
    intro h
    rw [bytesConcat_zero, cumLen_zero]
    rfl
  | succ m ih =>
    intro h
    have hm : m < rows.length := by omega
    rw [bytesConcat_succ f rows m hm, cumLen_succ, List.length_append, ← ih (by omega)]
    have hbind : (rows[m]?).bind f = f (rowAtN rows m) := by
      rw [rowAtN_getElem hm, Option.some_bind]
    cases hfv : f (rowAtN rows m) with
    | none =>
      rw [optLen_none (by rw [hbind, hfv])]
      simp
    | some bs =>
      rw [optLen_some (by rw [hbind, hfv])]
      push_cast
      simp

theorem cumLen_le (f : NamesRowVals → Option (List Nat)) (rows : List NamesRowVals)
    {i j : Nat} (h : i ≤ j) : cumLen f rows i ≤ cumLen f rows j := by
  induction j with
  | zero =>
    have h0 : i = 0 := by omega
    subst h0
    exact le_rfl
  | succ j ih =>
    by_cases hij : i = j + 1
    · subst hij
      exact le_rfl
    · have h1 := ih (by omega)
      have h2 := cumLen_mono f rows j
      omega

theorem encBytesField_data_segAt {block : List Nat} {p : Int} {bs : List Nat}
    (hseg : SegAt block p (encBytesField (some bs))) :
    SegAt block (p + 1 + ((encodeLong (bs.length : Int)).length : Int)) bs := by
  have hsplit : SegAt block p (encodeLong 1) ∧
      SegAt block (p + ((encodeLong 1).length : Int))
        (encodeLong (bs.length : Int) ++ bs) := by
    rw [← SegAt_append]
    simpa [encBytesField] using hseg
  obtain ⟨hs1, hs2⟩ := hsplit
  rw [encodeLong_one_length] at hs2
  have hs2b : SegAt block (p + 1) (encodeLong (bs.length : Int) ++ bs) := by simpa using hs2
  rw [SegAt_append] at hs2b
  exact hs2b.2

theorem state_data_segAt (rows : List NamesRowVals) (rest : List Nat) (i : Nat) (bs : List Nat)
    (hi : i < rows.length) (hbs : (rows[i]?).bind NamesRowVals.state = some bs) :
    SegAt (encodeNames rows ++ rest) (stateDataStart rows i : Int) bs := by
  have hbind : (rows[i]?).bind NamesRowVals.state = (rowAtN rows i).state := by
    rw [rowAtN_getElem hi, Option.some_bind]
  have hfv : (rowAtN rows i).state = some bs := by rw [← hbind]; exact hbs
  have hseg := encodeNames_segAt rows rest i hi
  rw [show encNamesRow (rowAtN rows i) =
      encBytesField (rowAtN rows i).state ++ (encBytesField (rowAtN rows i).gender ++
        (encIntField (rowAtN rows i).year ++ (encBytesField (rowAtN rows i).name ++
          encIntField (rowAtN rows i).number))) from by
      simp [encNamesRow, List.append_assoc], SegAt_append] at hseg
  have hsA := hseg.1
  rw [hfv] at hsA
  have h := encBytesField_data_segAt hsA
  have heq : (stateDataStart rows i : Int) =
      (namesRowStart rows i : Int) + 1 + ((encodeLong (bs.length : Int)).length : Int) := by
    unfold stateDataStart
    rw [optLen_some hbs]
    push_cast
    ring
  rwa [heq]

theorem gender_data_segAt (rows : List NamesRowVals) (rest : List Nat) (i : Nat) (bs : List Nat)
    (hi : i < rows.length) (hbs : (rows[i]?).bind NamesRowVals.gender = some bs) :
    SegAt (encodeNames rows ++ rest) (genderDataStart rows i : Int) bs := by
  have hbind : (rows[i]?).bind NamesRowVals.gender = (rowAtN rows i).gender := by
    rw [rowAtN_getElem hi, Option.some_bind]
  have hfv : (rowAtN rows i).gender = some bs := by rw [← hbind]; exact hbs
  have hseg := encodeNames_segAt rows rest i hi
  rw [show encNamesRow (rowAtN rows i) =
      encBytesField (rowAtN rows i).state ++ (encBytesField (rowAtN rows i).gender ++
        (encIntField (rowAtN rows i).year ++ (encBytesField (rowAtN rows i).name ++
          encIntField (rowAtN rows i).number))) from by
      simp [encNamesRow, List.append_assoc], SegAt_append] at hseg
  have hrest := hseg.2
  rw [SegAt_append] at hrest
  have hsB := hrest.1
  rw [hfv] at hsB
  have h := encBytesField_data_segAt hsB
  have heq : (genderDataStart rows i : Int) =
      (namesRowStart rows i : Int) + ((encBytesField (rowAtN rows i).state).length : Int) + 1 +
        ((encodeLong (bs.length : Int)).length : Int) := by
    unfold genderDataStart
    rw [optLen_some hbs]
    push_cast
    ring
  rwa [heq]

theorem name_data_segAt (rows : List NamesRowVals) (rest : List Nat) (i : Nat) (bs : List Nat)
    (hi : i < rows.length) (hbs : (rows[i]?).bind NamesRowVals.name = some bs) :
    SegAt (encodeNames rows ++ rest) (nameDataStart rows i : Int) bs := by
  have hbind : (rows[i]?).bind NamesRowVals.name = (rowAtN rows i).name := by
    rw [rowAtN_getElem hi, Option.some_bind]
  have hfv : (rowAtN rows i).name = some bs := by rw [← hbind]; exact hbs
  have hseg := encodeNames_segAt rows rest i hi
  rw [show encNamesRow (rowAtN rows i) =
      encBytesField (rowAtN rows i).state ++ (encBytesField (rowAtN rows i).gender ++
        (encIntField (rowAtN rows i).year ++ (encBytesField (rowAtN rows i).name ++
          encIntField (rowAtN rows i).number))) from by
      simp [encNamesRow, List.append_assoc], SegAt_append] at hseg
  have hrest := hseg.2
  rw [SegAt_append] at hrest
  have hrest2 := hrest.2
  rw [SegAt_append] at hrest2
  have hrest3 := hrest2.2
  rw [SegAt_append] at hrest3
  have hsD := hrest3.1
  rw [hfv] at hsD
  have h := encBytesField_data_segAt hsD
  have heq : (nameDataStart rows i : Int) =
      (namesRowStart rows i : Int) + ((encBytesField (rowAtN rows i).state).length : Int) +
        ((encBytesField (rowAtN rows i).gender).length : Int) +
        ((encIntField (rowAtN rows i).year).length : Int) + 1 +
        ((encodeLong (bs.length : Int)).length : Int) := by
    unfold nameDataStart
    rw [optLen_some hbs]
    push_cast
    ring
  rwa [heq]

theorem materialize_spec (block : List Nat) (rows : List NamesRowVals)
    (f : NamesRowVals → Option (List Nat)) (inputOffsets offsets : List Int)
    (dStart : Nat → Nat)
    (hOffVals : ∀ i, i ≤ rows.length → offsets[i]? = some (cumLen f rows i))
    (hIn : ∀ i bs, i < rows.length → (rows[i]?).bind f = some bs →
      inputOffsets[2 * i]? = some ((dStart i : Nat) : Int) ∧
      SegAt block ((dStart i : Nat) : Int) bs)
    (hInLen : inputOffsets.length = rows.length * 2) :
    materializeBytesColumn block rows.length inputOffsets offsets =
      .ok (bytesConcat f rows) := by
  have htotal := hOffVals rows.length le_rfl
  rw [materializeBytesColumn, readArrEx_some _ _ _ htotal, okBind]
  have hfold : ∀ m, m ≤ rows.length →
      (List.range m).foldlM
        (fun data (i : Nat) => do
          let start ← readArrEx inputOffsets (2 * (i : Int))
          let o1 ← readArrEx offsets (i : Int)
          let o2 ← readArrEx offsets ((i : Int) + 1)
          _copy_bytes block start data o1 (o2 - o1))
        (List.replicate (cumLen f rows rows.length).toNat 0) =
      .ok (bytesConcat f (rows.take m) ++
        List.replicate ((cumLen f rows rows.length).toNat - (cumLen f rows m).toNat) 0) := by
    intro m
    induction m with
    | zero =>
      intro h
      rw [List.range_zero, List.foldlM_nil, bytesConcat_zero, cumLen_zero]
      simp only [List.nil_append, Int.toNat_zero, Nat.sub_zero]
      rfl
    | succ m ih =>
      intro h
      have hm : m < rows.length := by omega
      rw [List.range_succ, List.foldlM_append, ih (by omega), okBind]
      simp only [List.foldlM_cons, List.foldlM_nil, bind_pure]
      have hbind : (rows[m]?).bind f = f (rowAtN rows m) := by
        rw [rowAtN_getElem hm, Option.some_bind]
      cases hfv : (rows[m]?).bind f with
      | none =>
        obtain ⟨st, hst⟩ := readArrEx_lt inputOffsets (2 * m) (by omega)
        rw [show (2 : Int) * ((m : Nat) : Int) = ((2 * m : Nat) : Int) from by push_cast; ring,
          hst, okBind,
          readArrEx_some _ _ _ (hOffVals m (by omega)), okBind,
          show ((m : Nat) : Int) + 1 = ((m + 1 : Nat) : Int) from by push_cast; ring,
          readArrEx_some _ _ _ (hOffVals (m + 1) (by omega)), okBind]
        have hz : cumLen f rows (m + 1) - cumLen f rows m = 0 := by
          rw [cumLen_succ, optLen_none hfv]
          ring
        rw [_copy_bytes, hz, show (0 : Int).toNat = 0 from rfl, copyBytesLoop,
          bytesConcat_succ f rows m hm,
          show f (rowAtN rows m) = none from by rw [← hbind, hfv],
          show cumLen f rows (m + 1) = cumLen f rows m from by
            rw [cumLen_succ, optLen_none hfv]; ring]
        simp
      | some bs =>
        obtain ⟨hin2m, hsegm⟩ := hIn m bs hm hfv
        rw [show (2 : Int) * ((m : Nat) : Int) = ((2 * m : Nat) : Int) from by push_cast; ring,
          readArrEx_some _ _ _ hin2m, okBind,
          readArrEx_some _ _ _ (hOffVals m (by omega)), okBind,
          show ((m : Nat) : Int) + 1 = ((m + 1 : Nat) : Int) from by push_cast; ring,
          readArrEx_some _ _ _ (hOffVals (m + 1) (by omega)), okBind]
        have hlen : cumLen f rows (m + 1) - cumLen f rows m = (bs.length : Int) := by
          rw [cumLen_succ, optLen_some hfv]
          ring
        have hnn : 0 ≤ cumLen f rows m := cumLen_nonneg f rows m
        have hl1 := bytesConcat_take_length f rows m (by omega)
        have hl2 := cumLen_le f rows (show m + 1 ≤ rows.length from h)
        have hl3 : cumLen f rows (m + 1) = cumLen f rows m + (bs.length : Int) := by
          rw [cumLen_succ, optLen_some hfv]
        have hCl : (bytesConcat f (rows.take m)).length = (cumLen f rows m).toNat := by
          omega
        rw [_copy_bytes, hlen, show ((bs.length : Nat) : Int).toNat = bs.length from by omega,
          show (cumLen f rows rows.length).toNat - (cumLen f rows m).toNat =
            (cumLen f rows rows.length).toNat - (bytesConcat f (rows.take m)).length from by
            omega,
          show cumLen f rows m = (((bytesConcat f (rows.take m)).length : Nat) : Int) from by
            omega,
          copyBytesLoop_spec block bs _ _ _ hsegm
            (by
              simp only [List.length_append, List.length_replicate]
              omega),
          bytesConcat_succ f rows m hm,
          show f (rowAtN rows m) = some bs from by rw [← hbind, hfv],
          List.take_left, List.drop_append, List.drop_replicate,
          show (cumLen f rows rows.length).toNat - (bytesConcat f (rows.take m)).length
              - bs.length =
            (cumLen f rows rows.length).toNat - (cumLen f rows (m + 1)).toNat from by omega]
        rfl
  rw [hfold rows.length le_rfl, List.take_length]
  simp

/-- C7 amended: the decode's returned value carries no concatenated
data byte array for any of the three Bytes columns — each `data`
component is the literal `None` and the byte-copy pass never runs.
The recorded per-row source ranges and offsets are nevertheless
correct: feeding them to the materializer pass (the spec's driver
around the repository's `_copy_bytes` kernel, which has no caller in
the source) yields exactly the concatenation of the non-null rows'
byte runs for each column, and `offsets[row_count]` equals that
buffer's length. -/
theorem claim7_amended (g : Nat → Nat → Int) (rows : List NamesRowVals) (rest : List Nat) :
    ∃ s : NamesState, PandasHelpers._avro_df g rows.length (encodeNames rows ++ rest) =
        .ok { state_nullmask := s.state_nullmask
              state_offsets := s.state_offsets
              state_data := none
              gender_nullmask := s.gender_nullmask
              gender_offsets := s.gender_offsets
              gender_data := none
              year_nullmask := s.year_nullmask
              year := s.year
              name_nullmask := s.name_nullmask
              name_offsets := s.name_offsets
              name_data := none
              number_nullmask := s.number_nullmask
              number := s.number } ∧
      materializeBytesColumn (encodeNames rows ++ rest) rows.length
        s.state_input_offsets s.state_offsets = .ok (bytesConcat NamesRowVals.state rows) ∧
      materializeBytesColumn (encodeNames rows ++ rest) rows.length
        s.gender_input_offsets s.gender_offsets =
        .ok (bytesConcat NamesRowVals.gender rows) ∧
      materializeBytesColumn (encodeNames rows ++ rest) rows.length
        s.name_input_offsets s.name_offsets = .ok (bytesConcat NamesRowVals.name rows) ∧
      s.state_offsets[rows.length]? =
        some ((bytesConcat NamesRowVals.state rows).length : Int) ∧
      s.gender_offsets[rows.length]? =
        some ((bytesConcat NamesRowVals.gender rows).length : Int) ∧
      s.name_offsets[rows.length]? =
        some ((bytesConcat NamesRowVals.name rows).length : Int) := by
  obtain ⟨s, hrun, hinv⟩ := avro_df_names_run g rows rest
  refine ⟨s, hrun, ?_, ?_, ?_, ?_, ?_, ?_⟩
  · exact materialize_spec _ rows NamesRowVals.state _ _ (stateDataStart rows)
      (fun i hi => hinv.sOffVals i hi)
      (fun i bs hi hbs =>
        ⟨(hinv.sInVals i bs hi hbs).1, state_data_segAt rows rest i bs hi hbs⟩)
      hinv.sInLen
  · exact materialize_spec _ rows NamesRowVals.gender _ _ (genderDataStart rows)
      (fun i hi => hinv.gOffVals i hi)
      (fun i bs hi hbs =>
        ⟨(hinv.gInVals i bs hi hbs).1, gender_data_segAt rows rest i bs hi hbs⟩)
      hinv.gInLen
  · exact materialize_spec _ rows NamesRowVals.name _ _ (nameDataStart rows)
      (fun i hi => hinv.nOffVals i hi)
      (fun i bs hi hbs =>
        ⟨(hinv.nInVals i bs hi hbs).1, name_data_segAt rows rest i bs hi hbs⟩)
      hinv.nInLen
  · rw [hinv.sOffVals rows.length le_rfl]
    congr 1
    have h := bytesConcat_take_length NamesRowVals.state rows rows.length le_rfl
    rw [List.take_length] at h
    exact h.symm
  · rw [hinv.gOffVals rows.length le_rfl]
    congr 1
    have h := bytesConcat_take_length NamesRowVals.gender rows rows.length le_rfl
    rw [List.take_length] at h
    exact h.symm
  · rw [hinv.nOffVals rows.length le_rfl]
    congr 1
    have h := bytesConcat_take_length NamesRowVals.name rows rows.length le_rfl
    rw [List.take_length] at h
    exact h.symm
